import Mathlib

/-!
# mathlang: the bracket-aware rewriting engine of `replace.go`

A shallow embedding of `getMatchingBracket`, `replaceFrac` (with its closures
`hasFractions`, `getRoot`, `getChildrenOf`, `replaceFracChildren`) and
`replaceBlock`, followed by theorems about them.

Conventions of the embedding.

* A Go `String` is a sequence of bytes; it is embedded as a `List Char`, one
  list element per byte.  The code only compares bytes with the ASCII
  characters `{`, `}`, `/`, ` ` and concatenates, so every byte sequence is
  covered by the statements below.
* Go `int` indices are `Int` (a Go string is shorter than `2^63` bytes, so no
  index computation of this file can wrap).
* A Go panic (explicit `panic(...)`, or a run-time index / slice bounds panic)
  is `Result.fail`, tagged by the place it is raised.
* Every `for` loop is a recursive function over a fuel counter; running out of
  fuel is the separate outcome `Result.diverge`, which is then proved
  unreachable.
-/

namespace Mathlang

/-- The Go type `Direction` (a `bool`): `Right = true`, `Left = false`. -/
inductive Direction
  | Right
  | Left
  deriving DecidableEq, Repr

/-- A text buffer: the bytes of a Go `String`. -/
abbrev Str := List Char

/-- The ways in which the code aborts. -/
inductive Failure
  /-- `panic("Open bracket at end of string!")` in `getMatchingBracket`. -/
  | openBracketAtEnd
  /-- `panic("out of bounds search for bracket!")` in `getMatchingBracket`. -/
  | outOfBoundsSearch
  /-- The run-time panic of `str[i]` in the loop of `getMatchingBracket`, raised
  when the scan steps off either end of the buffer. -/
  | scanPastBuffer
  /-- A run-time index panic `s[i]` elsewhere. -/
  | indexOutOfRange
  /-- A run-time slice bounds panic `s[lo:hi]`. -/
  | sliceOutOfRange
  /-- `panic(fmt.Sprintf("illegal child type: ", ...))` in `getChildrenOf`. -/
  | illegalChildType
  deriving DecidableEq, Repr

/-- Outcome of running a piece of the program. -/
inductive Result (α : Type)
  | ok (a : α)
  | fail (f : Failure)
  | diverge
  deriving DecidableEq, Repr

/-- Sequencing of outcomes: a failure or a divergence aborts what follows. -/
def Result.bind {α β : Type} (x : Result α) (f : α → Result β) : Result β :=
  match x with
  | .ok a => f a
  | .fail e => .fail e
  | .diverge => .diverge

instance : Monad Result where
  pure := Result.ok
  bind := Result.bind

/-- The byte at index `i`, if `i` is inside the buffer. -/
def charAt (s : Str) (i : Int) : Option Char :=
  if 0 ≤ i then s[i.toNat]? else none

/-- Go `s[i]`. -/
def index (s : Str) (i : Int) : Result Char :=
  match charAt s i with
  | some c => .ok c
  | none => .fail .indexOutOfRange

/-- Go `s[lo:hi]`. -/
def slice (s : Str) (lo hi : Int) : Result Str :=
  if 0 ≤ lo ∧ lo ≤ hi ∧ hi ≤ s.length then
    .ok ((s.drop lo.toNat).take (hi.toNat - lo.toNat))
  else .fail .sliceOutOfRange

/-- Go `s[lo:]`. -/
def sliceFrom (s : Str) (lo : Int) : Result Str :=
  slice s lo s.length

/-! ## `getMatchingBracket` -/

/-- The index the scan moves to (`i++` or `i--`). -/
def Direction.next (direction : Direction) (i : Int) : Int :=
  match direction with
  | .Right => i + 1
  | .Left => i - 1

/-- The depth after the scan has read the byte `c`. -/
def Direction.update (direction : Direction) (c : Char) (depth : Int) : Int :=
  if c = '{' then
    (if direction = .Right then depth + 1 else depth - 1)
  else if c = '}' then
    (if direction = .Right then depth - 1 else depth + 1)
  else depth

/-- The loop `for depth != 0 && i < len(str) && i >= 0 { ... }` of
`getMatchingBracket`; the result is the value of `i` on exit. -/
def getMatchingBracket.loop (str : Str) (direction : Direction) :
    Nat → Int → Int → Result Int
  | 0, _, _ => .diverge
  | fuel + 1, depth, i =>
    if depth ≠ 0 ∧ i < str.length ∧ i ≥ 0 then
      match charAt str (direction.next i) with
      | none => .fail .scanPastBuffer
      | some c =>
        getMatchingBracket.loop str direction fuel (direction.update c depth)
          (direction.next i)
    else .ok i

/-- The function `getMatchingBracket(str, loc, direction)`.  The branch
`panic("illegal direction")` does not exist here: `Direction` has two values. -/
def getMatchingBracket (str : Str) (loc : Int) (direction : Direction) : Result Int :=
  if loc = (str.length : Int) - 1 then .fail .openBracketAtEnd
  else do
    let i ← getMatchingBracket.loop str direction (str.length + 1) 1 loc
    if i = str.length then .fail .outOfBoundsSearch else pure i

/-! ## `replaceFrac` -/

/-- The test `txt[i] == '/' && txt[i-1] != ' ' && txt[i+1] != ' '`, evaluated
left to right with short-circuit. -/
def hasFractions.test (txt : Str) (i : Int) : Result Bool := do
  let c ← index txt i
  if c = '/' then
    let p ← index txt (i - 1)
    if p ≠ ' ' then
      let n ← index txt (i + 1)
      pure (decide (n ≠ ' '))
    else pure false
  else pure false

/-- The loop `for i := 1; i < len(txt)-1; i++` of `hasFractions`. -/
def hasFractions.loop (txt : Str) : Nat → Int → Result (Bool × Int)
  | 0, _ => .diverge
  | fuel + 1, i =>
    if i < (txt.length : Int) - 1 then do
      let t ← hasFractions.test txt i
      if t then pure (true, i) else hasFractions.loop txt fuel (i + 1)
    else pure (false, txt.length)

/-- The closure `hasFractions`. -/
def hasFractions (txt : Str) : Result (Bool × Int) :=
  hasFractions.loop txt (txt.length + 1) 1

/-- The loop `for j := loc + 1; j < len(txt)-1; j++` of `getRoot`; the state is
`(loc, foundParent)`. -/
def getRoot.searchRight (txt : Str) : Nat → Int → Int → Bool → Result (Int × Bool)
  | 0, _, _, _ => .diverge
  | fuel + 1, j, loc, foundParent =>
    if j < (txt.length : Int) - 1 then do
      let w ← slice txt j (j + 2)
      if w = ['}', '/'] then
        let m ← getMatchingBracket txt j .Left
        if m < loc ∧ loc < j then getRoot.searchRight txt fuel (j + 1) (j + 1) true
        else getRoot.searchRight txt fuel (j + 1) loc foundParent
      else getRoot.searchRight txt fuel (j + 1) loc foundParent
    else pure (loc, foundParent)

/-- The loop `for j := loc - 1; j > 0; j--` of `getRoot`.  The slice compared
with the two bytes `/{` is `txt[j-1:j]`, as in the source. -/
def getRoot.searchLeft (txt : Str) : Nat → Int → Int → Bool → Result (Int × Bool)
  | 0, _, _, _ => .diverge
  | fuel + 1, j, loc, foundParent =>
    if j > 0 then do
      let w ← slice txt (j - 1) j
      if w = ['/', '{'] then
        let m ← getMatchingBracket txt j .Right
        if j < loc ∧ loc < m then getRoot.searchLeft txt fuel (j - 1) (j - 1) true
        else getRoot.searchLeft txt fuel (j - 1) loc foundParent
      else getRoot.searchLeft txt fuel (j - 1) loc foundParent
    else pure (loc, foundParent)

/-- The loop `for foundParent { ... }` of `getRoot`. -/
def getRoot.loop (txt : Str) : Nat → Int → Bool → Result Int
  | 0, _, _ => .diverge
  | fuel + 1, loc, foundParent =>
    if foundParent then do
      let r ← getRoot.searchRight txt (((txt.length : Int) - loc).toNat + 1) (loc + 1) loc false
      let l ← getRoot.searchLeft txt (r.1.toNat + 1) (r.1 - 1) r.1 r.2
      getRoot.loop txt fuel l.1 l.2
    else pure loc

/-- The closure `getRoot`. -/
def getRoot (loc : Int) (txt : Str) : Result Int :=
  getRoot.loop txt (((txt.length : Int) - loc).toNat + 2) loc true

/-- The closure `getType` of `getChildrenOf`: the Go string `"bracket"` or
`"nobracket"`. -/
def getType (loc : Int) (s : Str) : Result String := do
  let c ← index s loc
  if c = '{' ∨ c = '}' then pure "bracket" else pure "nobracket"

/-- The loop `for i < len(txt) && txt[i] != ' ' && txt[i] != '}' { i++ }`. -/
def getChildrenOf.rightLoop (txt : Str) : Nat → Int → Result Int
  | 0, _ => .diverge
  | fuel + 1, i =>
    if i < txt.length then do
      let c ← index txt i
      if c ≠ ' ' ∧ c ≠ '}' then getChildrenOf.rightLoop txt fuel (i + 1) else pure i
    else pure i

/-- The loop `for i >= 0 && txt[i] != ' ' && txt[i] != '{' { i-- }`. -/
def getChildrenOf.leftLoop (txt : Str) : Nat → Int → Result Int
  | 0, _ => .diverge
  | fuel + 1, i =>
    if i ≥ 0 then do
      let c ← index txt i
      if c ≠ ' ' ∧ c ≠ '{' then getChildrenOf.leftLoop txt fuel (i - 1) else pure i
    else pure i

/-- The statement `if rightChildType == "nobracket" { ... } else if ... { ... }
else { panic }` of `getChildrenOf`: the value given to `children[0][1]`. -/
def getChildrenOf.rightEnd (root : Int) (txt : Str) (rightChildType : String) :
    Result Int :=
  if rightChildType = "nobracket" then do
    let i ← getChildrenOf.rightLoop txt (txt.length + 1) root
    pure (i - 1)
  else if rightChildType = "bracket" then
    getMatchingBracket txt (root + 1) .Right
  else .fail .illegalChildType

/-- The statement `if leftChildType == "nobracket" { ... } else if ... { ... }
else { panic }` of `getChildrenOf`: the value given to `children[1][0]`. -/
def getChildrenOf.leftStart (root : Int) (txt : Str) (leftChildType : String) :
    Result Int :=
  if leftChildType = "nobracket" then do
    let i ← getChildrenOf.leftLoop txt (txt.length + 1) (root - 1)
    pure (i + 1)
  else if leftChildType = "bracket" then
    getMatchingBracket txt (root - 1) .Left
  else .fail .illegalChildType

/-- The closure `getChildrenOf`.  The Go array `children [2][2]int` is the pair
of pairs `((children[0][0], children[0][1]), (children[1][0], children[1][1]))`:
first the right operand, then the left one. -/
def getChildrenOf (root : Int) (txt : Str) : Result ((Int × Int) × (Int × Int)) := do
  let rightChildType ← getType (root + 1) txt
  let leftChildType ← getType (root - 1) txt
  let c01 ← getChildrenOf.rightEnd root txt rightChildType
  let c01 := if c01 = txt.length then (txt.length : Int) - 1 else c01
  let c10 ← getChildrenOf.leftStart root txt leftChildType
  pure ((root + 1, c01), (c10, root - 1))

/-- The closure `fixBracket` of `replaceFracChildren`. -/
def fixBracket (s : Str) : Result Str := do
  let c ← index s 0
  if c = '{' then
    let d ← index s ((s.length : Int) - 1)
    if d = '}' then pure s else pure ('{' :: s ++ ['}'])
  else pure ('{' :: s ++ ['}'])

/-- The five bytes of the Go literal `"\\frac"`. -/
def fracLit : Str := ['\\', 'f', 'r', 'a', 'c']

/-- The closure `replaceFracChildren`. -/
def replaceFracChildren (_r : Int) (c : (Int × Int) × (Int × Int)) (txt : Str) :
    Result Str := do
  let right ← slice txt c.1.1 (c.1.2 + 1)
  let left ← slice txt c.2.1 (c.2.2 + 1)
  let s ← slice txt 0 c.2.1
  let s := s ++ fracLit
  let l ← fixBracket left
  let s := s ++ l
  let r ← fixBracket right
  let s := s ++ r
  let t ← sliceFrom txt (c.1.2 + 1)
  pure (s ++ t)

/-- One pass through the loop of `replaceFrac`: `none` when `hasFractions`
reports no fraction (the loop exits), otherwise the rewritten buffer. -/
def replaceFrac.step (corrected : Str) : Result (Option Str) := do
  let h ← hasFractions corrected
  if h.1 then
    let root ← getRoot h.2 corrected
    let children ← getChildrenOf root corrected
    let s ← replaceFracChildren root children corrected
    pure (some s)
  else pure none

/-- The loop `for check, loc := hasFractions(corrected); check; ...`. -/
def replaceFrac.loop : Nat → Str → Result Str
  | 0, _ => .diverge
  | fuel + 1, corrected =>
    match replaceFrac.step corrected with
    | .ok none => .ok corrected
    | .ok (some s) => replaceFrac.loop fuel s
    | .fail e => .fail e
    | .diverge => .diverge

/-- The method `replaceFrac`.  The fuel is one more than the number of `/` in
the input. -/
def replaceFrac (math : Str) : Result Str :=
  replaceFrac.loop (math.count '/' + 1) math

/-! ## `replaceBlock` -/

/-- Scan of `strings.ReplaceAll` for a non-empty `search`: `skip` is the number
of bytes of a match that are still to be dropped. -/
def stringsReplace.scan (search repl : Str) : Nat → Str → Str
  | _, [] => []
  | skip + 1, _ :: cs => stringsReplace.scan search repl skip cs
  | 0, c :: cs =>
    if search.isPrefixOf (c :: cs) then
      repl ++ stringsReplace.scan search repl (search.length - 1) cs
    else c :: stringsReplace.scan search repl 0 cs

/-- The method `stringsReplace`, that is `strings.ReplaceAll`: every
non-overlapping occurrence of `search`, from the left, becomes `repl`.  This
file only calls it with the one-byte `search` texts `,` and `;`.  For an empty
`search` Go puts the replacement at every UTF-8 rune boundary; the elements
here are bytes, so this branch agrees with Go on ASCII text only, and no
theorem below reaches it. -/
def stringsReplace (search repl : Str) (s : Str) : Str :=
  if search = [] then repl ++ s.flatMap (fun c => c :: repl)
  else stringsReplace.scan search repl 0 s

/-- The loop `for i := 0; i < len(math)-2; i++` of `replaceBlock`; the state is
`(found, starts)`. -/
def replaceBlock.collect (math pfx : Str) :
    Nat → Int → Bool → List Int → Result (Bool × List Int)
  | 0, _, _, _ => .diverge
  | fuel + 1, i, found, starts =>
    if i < (math.length : Int) - 2 then do
      let w ← slice math i (i + 2)
      if w = pfx ++ ['{'] then replaceBlock.collect math pfx fuel (i + 1) true (starts ++ [i])
      else replaceBlock.collect math pfx fuel (i + 1) found starts
    else pure (found, starts)

/-- The loop `for _, i := range starts` of `replaceBlock`, which fills `ends`. -/
def replaceBlock.ends (math : Str) : List Int → Result (List Int)
  | [] => pure []
  | i :: rest => do
    let e ← getMatchingBracket math (i + 1) .Right
    let es ← replaceBlock.ends math rest
    pure (e :: es)

/-- The closure `repl` of `replaceBlock`. -/
def replaceBlock.repl (title math : Str) (start stop : Int) : Result Str := do
  let f := ['\\', 'b', 'e', 'g', 'i', 'n', '{'] ++ title ++ ['}', ' ']
  let inner ← slice math (start + 2) stop
  let m := stringsReplace [';'] ['\\', '\\', ' '] (stringsReplace [','] [' ', '&', ' '] inner)
  pure (f ++ m ++ ([' ', '\\', 'e', 'n', 'd', '{'] ++ title ++ ['}']))

/-- The loop `for i := 0; i < len(starts); i++` of `replaceBlock`, run over the
remaining entries of `starts` and `ends` (two slices of the same length); the
last argument is `s`. -/
def replaceBlock.assemble (title math : Str) : List Int → List Int → Str → Result Str
  | start :: starts, stop :: stops, s => do
    let r ← replaceBlock.repl title math start stop
    match starts with
    | [] => replaceBlock.assemble title math starts stops (s ++ r)
    | next :: _ => do
      let g ← slice math (stop + 1) next
      replaceBlock.assemble title math starts stops (s ++ r ++ g)
  | _, _, s => pure s

/-- The method `replaceBlock(title, prefix)` on the text `math`.  The last
branch stands for the index panics of `starts[0]` and `ends[len(ends)-1]` on
empty slices. -/
def replaceBlock (title pfx : Str) (math : Str) : Result Str := do
  let c ← replaceBlock.collect math pfx (math.length + 1) 0 false []
  if !c.1 then pure math
  else do
    let ends ← replaceBlock.ends math c.2
    match c.2, ends.getLast? with
    | first :: _, some last => do
      let s ← slice math 0 first
      let s ← replaceBlock.assemble title math c.2 ends s
      if (math.length : Int) > last + 1 then do
        let t ← sliceFrom math (last + 1)
        pure (s ++ t)
      else pure s
    | _, _ => .fail .indexOutOfRange

/-! ## Notions used to state the properties -/

/-- The outcome is an abort (a Go panic). -/
def Result.Fails {α : Type} (r : Result α) : Prop := ∃ f, r = .fail f

/-- The index reached after `k` steps from `loc`. -/
def Direction.pos (direction : Direction) (loc : Int) (k : Nat) : Int :=
  match direction with
  | .Right => loc + k
  | .Left => loc - k

/-- What one byte adds to the depth: scanning right `{` adds 1 and `}`
subtracts 1, scanning left `}` adds 1 and `{` subtracts 1. -/
def braceDelta (direction : Direction) (c : Option Char) : Int :=
  match direction, c with
  | .Right, some '{' => 1
  | .Right, some '}' => -1
  | .Left, some '}' => 1
  | .Left, some '{' => -1
  | _, _ => 0

/-- The running depth after `k` steps from `loc`: it starts at 1 (the byte at
`loc` is not examined) and each byte stepped onto adds its `braceDelta`. -/
def runningDepth (str : Str) (direction : Direction) (loc : Int) : Nat → Int
  | 0 => 1
  | k + 1 =>
    runningDepth str direction loc k + braceDelta direction (charAt str (direction.pos loc (k + 1)))

/-- The index `i` lies inside the buffer. -/
def InBuffer (str : Str) (i : Int) : Prop := 0 ≤ i ∧ i < str.length

/-- The number of `{` minus the number of `}`. -/
def braceNet (s : Str) : Int := (s.count '{' : Int) - (s.count '}' : Int)

/-- Brace balance: no initial segment has more `}` than `{`, and the totals
are equal. -/
def Balanced (s : Str) : Prop :=
  (∀ n, n < s.length + 1 → 0 ≤ braceNet (s.take n)) ∧ braceNet s = 0

/-- Steps that are left before the scan leaves the buffer. -/
def Direction.room (d : Direction) (str : Str) (i : Int) : Nat :=
  match d with
  | .Right => ((str.length : Int) - 1 - i).toNat
  | .Left => i.toNat

instance (s : Str) : Decidable (Balanced s) := by
  unfold Balanced; infer_instance

instance (str : Str) (i : Int) : Decidable (InBuffer str i) := by
  unfold InBuffer; infer_instance

/-- A fraction candidate, in the words of the scan step: an index `i` with
`0 < i < len - 1`, `buffer[i] = '/'`, `buffer[i-1] ≠ ' '` and
`buffer[i+1] ≠ ' '`. -/
def IsFraction (txt : Str) (i : Int) : Prop :=
  0 < i ∧ i < (txt.length : Int) - 1 ∧ charAt txt i = some '/' ∧
    charAt txt (i - 1) ≠ some ' ' ∧ charAt txt (i + 1) ≠ some ' '

instance (txt : Str) (i : Int) : Decidable (IsFraction txt i) := by
  unfold IsFraction; infer_instance

/-- The buffer after `n` completed passes through the loop of `replaceFrac`,
when each of the first `n` passes rewrites the buffer. -/
def replaceFrac.iterate : Nat → Str → Option Str
  | 0, x => some x
  | n + 1, x =>
    match replaceFrac.step x with
    | .ok (some s) => replaceFrac.iterate n s
    | _ => none

/-- The bytes `pat` stand in `s` from index `i` on. -/
def OccursAt (pat s : Str) (i : Nat) : Prop := (s.drop i).take pat.length = pat

instance (pat s : Str) (i : Nat) : Decidable (OccursAt pat s i) := by
  unfold OccursAt; infer_instance

/-- The indices `i, i+1, ..., i+n-1` at which `pat` stands in `math`, in order:
what a left-to-right scan over `n` windows collects. -/
def scanStarts (pat math : Str) : Nat → Int → List Int
  | 0, _ => []
  | n + 1, i =>
    if OccursAt pat math i.toNat then i :: scanStarts pat math n (i + 1)
    else scanStarts pat math n (i + 1)

/-- Every byte `x` of `s` replaced by the bytes `repl`. -/
def replaceEvery (x : Char) (repl : Str) (s : Str) : Str :=
  s.flatMap (fun c => if c = x then repl else [c])

/-- The interior of a block, rewritten: every `,` becomes ` & `, then every `;`
becomes two backslashes and a space. -/
def blockInterior (body : Str) : Str :=
  replaceEvery ';' ['\\', '\\', ' '] (replaceEvery ',' [' ', '&', ' '] body)

/-- The environment `\begin{title} <interior> \end{title}` for a block body. -/
def blockEnv (title body : Str) : Str :=
  ['\\', 'b', 'e', 'g', 'i', 'n', '{'] ++ title ++ ['}', ' '] ++ blockInterior body
    ++ [' ', '\\', 'e', 'n', 'd', '{'] ++ title ++ ['}']

/-- A failure raised by the bracket matcher `getMatchingBracket`. -/
def Failure.IsMatcher (f : Failure) : Prop :=
  f = .openBracketAtEnd ∨ f = .outOfBoundsSearch ∨ f = .scanPastBuffer

instance (f : Failure) : Decidable f.IsMatcher := by
  unfold Failure.IsMatcher; infer_instance

/-- Starting from level `l`, no initial segment of `s` brings the brace level
below 0. -/
def NonNegFrom (l : Int) (s : Str) : Prop :=
  ∀ n, n ≤ s.length → 0 ≤ l + braceNet (s.take n)

/-- The text `new` can stand for `orig` in any context without harm to brace
balance: same brace surplus, and wherever `orig` keeps the level non-negative
so does `new`. -/
def BraceSim (orig new : Str) : Prop :=
  braceNet new = braceNet orig ∧ ∀ l, NonNegFrom l orig → NonNegFrom l new

/-- A brace group whose close brace, at `j`, is immediately followed by `/`,
and whose open brace, found by the bracket matcher from `j`, is at `m`. -/
def CloseSlashGroup (txt : Str) (j m : Int) : Prop :=
  charAt txt j = some '}' ∧ charAt txt (j + 1) = some '/' ∧
    getMatchingBracket txt j Direction.Left = Result.ok m

/-- The index `loc` is `loc0` itself or the `/` that follows a group, closed
just before `loc`, whose open brace is before `loc0`. -/
def RootOrigin (txt : Str) (loc0 loc : Int) : Prop :=
  loc = loc0 ∨ ∃ m, CloseSlashGroup txt (loc - 1) m ∧ m < loc0

/-- The text `s` is exactly one matched brace pair over its full extent: its
first byte is `{`, the brace surplus is positive after every proper non-empty
initial segment and zero after the whole text, so that the `}` closing the
first `{` is the last byte. -/
def IsBracePair (s : Str) : Prop :=
  charAt s 0 = some '{' ∧ braceNet s = 0 ∧
    ∀ n, n < s.length → 0 < n → 0 < braceNet (s.take n)

instance (s : Str) : Decidable (IsBracePair s) := by
  unfold IsBracePair; infer_instance

/-- How the wrapping rule emits an operand: as it is when it is one matched
brace pair, otherwise inside one added pair of braces. -/
def emitOperand (o : Str) : Str :=
  if IsBracePair o then o else '{' :: o ++ ['}']

/-! ## Basic facts about outcomes, indexing and slicing -/

@[simp] theorem Result.ok_bind {α β : Type} (a : α) (f : α → Result β) :
    (Result.ok a >>= f) = f a := rfl

@[simp] theorem Result.fail_bind {α β : Type} (e : Failure) (f : α → Result β) :
    (Result.fail e >>= f) = Result.fail e := rfl

@[simp] theorem Result.diverge_bind {α β : Type} (f : α → Result β) :
    (Result.diverge >>= f) = Result.diverge := rfl

@[simp] theorem Result.pure_eq {α : Type} (a : α) : (pure a : Result α) = Result.ok a := rfl

theorem Result.bind_eq_ok {α β : Type} (x : Result α) (f : α → Result β) (b : β) :
    (x >>= f) = Result.ok b ↔ ∃ a, x = Result.ok a ∧ f a = Result.ok b := by
  cases x <;> simp

theorem Result.bind_ne_diverge {α β : Type} (x : Result α) (f : α → Result β)
    (hx : x ≠ Result.diverge) (hf : ∀ a, x = Result.ok a → f a ≠ Result.diverge) :
    (x >>= f) ≠ Result.diverge := by
  cases x with
  | ok a => simpa using hf a rfl
  | fail e => simp
  | diverge => exact absurd rfl hx

theorem charAt_eq_none {s : Str} {i : Int} : charAt s i = none ↔ ¬ InBuffer s i := by
  unfold charAt InBuffer
  by_cases h : 0 ≤ i
  · simp only [h, if_true, true_and, not_lt]
    rw [List.getElem?_eq_none_iff]
    omega
  · simp [h]

theorem charAt_isSome {s : Str} {i : Int} (h : InBuffer s i) : ∃ c, charAt s i = some c := by
  cases hc : charAt s i with
  | none => exact absurd h (charAt_eq_none.mp hc)
  | some c => exact ⟨c, rfl⟩

theorem charAt_inBuffer {s : Str} {i : Int} {c : Char} (h : charAt s i = some c) :
    InBuffer s i := by
  by_contra hn
  rw [charAt_eq_none.mpr hn] at h
  cases h

theorem charAt_nat (s : Str) (n : Nat) : charAt s (n : Int) = s[n]? := by
  simp [charAt]

theorem charAt_append_left {a b : Str} {i : Int} (h : i < a.length) :
    charAt (a ++ b) i = charAt a i := by
  unfold charAt
  split
  · rw [List.getElem?_append_left]; omega
  · rfl

theorem charAt_append_right {a b : Str} {i : Int} (h : (a.length : Int) ≤ i) :
    charAt (a ++ b) i = charAt b (i - a.length) := by
  unfold charAt
  have h1 : 0 ≤ i := by omega
  have h2 : 0 ≤ i - a.length := by omega
  simp only [h1, h2, if_true]
  rw [List.getElem?_append_right (by omega)]
  congr 1
  omega

theorem index_eq_ok {s : Str} {i : Int} {c : Char} :
    index s i = Result.ok c ↔ charAt s i = some c := by
  unfold index
  cases charAt s i <;> simp

theorem index_of_charAt {s : Str} {i : Int} {c : Char} (h : charAt s i = some c) :
    index s i = Result.ok c := index_eq_ok.mpr h

theorem index_ne_diverge (s : Str) (i : Int) : index s i ≠ Result.diverge := by
  unfold index
  cases charAt s i <;> simp

theorem slice_ne_diverge (s : Str) (lo hi : Int) : slice s lo hi ≠ Result.diverge := by
  unfold slice
  split <;> simp

theorem slice_length {s w : Str} {lo hi : Int} (h : slice s lo hi = Result.ok w) :
    (w.length : Int) = hi - lo := by
  unfold slice at h
  split at h
  · rename_i hc
    simp only [Result.ok.injEq] at h
    subst h
    simp only [List.length_take, List.length_drop]
    omega
  · cases h

/-! ## The scan of `getMatchingBracket` -/

theorem Direction.pos_zero (d : Direction) (loc : Int) : d.pos loc 0 = loc := by
  cases d <;> simp [Direction.pos]

theorem Direction.next_pos (d : Direction) (loc : Int) (k : Nat) :
    d.next (d.pos loc k) = d.pos loc (k + 1) := by
  cases d <;> simp only [Direction.pos, Direction.next] <;> push_cast <;> omega

theorem Direction.update_eq (d : Direction) (c : Char) (depth : Int) :
    d.update c depth = depth + braceDelta d (some c) := by
  unfold Direction.update
  by_cases h1 : c = '{'
  · subst h1; cases d
    · simp [braceDelta]
    · simp [braceDelta]; omega
  · by_cases h2 : c = '}'
    · subst h2; cases d
      · simp [braceDelta]; omega
      · simp [braceDelta]
    · cases d <;> simp [braceDelta, h1, h2]

theorem braceDelta_ge (d : Direction) (c : Option Char) : -1 ≤ braceDelta d c := by
  unfold braceDelta
  split <;> omega

theorem pos_not_inBuffer (d : Direction) (str : Str) (loc : Int) (k k' : Nat)
    (hk : InBuffer str (d.pos loc k)) (hn : ¬ InBuffer str (d.pos loc (k + 1)))
    (hlt : k < k') : ¬ InBuffer str (d.pos loc k') := by
  unfold InBuffer at *
  cases d <;> simp only [Direction.pos] at * <;> push_cast at * <;> omega

/-- The scan started in state `k` (index `pos loc k`, depth `runningDepth k`)
with enough fuel either returns the first later index of depth 0, or steps off
the buffer with the depth positive all along. -/
theorem getMatchingBracket_loop_total (str : Str) (d : Direction) (loc : Int) :
    ∀ (fuel k : Nat), InBuffer str (d.pos loc k) → 0 ≤ runningDepth str d loc k →
      d.room str (d.pos loc k) < fuel →
      (∃ k', k ≤ k' ∧ InBuffer str (d.pos loc k') ∧ runningDepth str d loc k' = 0 ∧
          (∀ j, k ≤ j → j < k' → 0 < runningDepth str d loc j) ∧
          getMatchingBracket.loop str d fuel (runningDepth str d loc k) (d.pos loc k)
            = Result.ok (d.pos loc k')) ∨
      ((∀ k', k ≤ k' → InBuffer str (d.pos loc k') → 0 < runningDepth str d loc k') ∧
          getMatchingBracket.loop str d fuel (runningDepth str d loc k) (d.pos loc k)
            = Result.fail Failure.scanPastBuffer) := by
  intro fuel
  induction fuel with
  | zero => intro k _ _ h; omega
  | succ fuel ih =>
    intro k hin hd hfuel
    by_cases hz : runningDepth str d loc k = 0
    · left
      refine ⟨k, le_refl k, hin, hz, fun j h1 h2 => by omega, ?_⟩
      simp [getMatchingBracket.loop, hz]
    · have hpos : 0 < runningDepth str d loc k := by omega
      have hcond : runningDepth str d loc k ≠ 0 ∧ d.pos loc k < (str.length : Int) ∧
          d.pos loc k ≥ 0 := ⟨hz, hin.2, hin.1⟩
      rw [getMatchingBracket.loop, if_pos hcond, Direction.next_pos]
      cases hc : charAt str (d.pos loc (k + 1)) with
      | none =>
        right
        refine ⟨fun k' hk' hin' => ?_, rfl⟩
        rcases Nat.eq_or_lt_of_le hk' with h | h
        · subst h; exact hpos
        · exact absurd hin' (pos_not_inBuffer d str loc k k' hin (charAt_eq_none.mp hc) h)
      | some c =>
        have hin1 : InBuffer str (d.pos loc (k + 1)) := charAt_inBuffer hc
        have hd1 : runningDepth str d loc (k + 1)
            = runningDepth str d loc k + braceDelta d (some c) := by
          simp [runningDepth, hc]
        have hge := braceDelta_ge d (some c)
        have hroom : d.room str (d.pos loc (k + 1)) < fuel := by
          unfold InBuffer at hin hin1
          cases d <;> simp only [Direction.room, Direction.pos] at * <;> push_cast at * <;> omega
        simp only [Direction.update_eq, ← hd1]
        rcases ih (k + 1) hin1 (by omega) hroom with ⟨k', h1, h2, h3, h4, h5⟩ | ⟨h1, h2⟩
        · left
          refine ⟨k', by omega, h2, h3, fun j hj1 hj2 => ?_, h5⟩
          rcases Nat.eq_or_lt_of_le hj1 with h | h
          · subst h; exact hpos
          · exact h4 j h hj2
        · right
          refine ⟨fun k' hk' hin' => ?_, h2⟩
          rcases Nat.eq_or_lt_of_le hk' with h | h
          · subst h; exact hpos
          · exact h1 k' h hin'

/-- Outcome of `getMatchingBracket` from an index that is not the last one. -/
theorem getMatchingBracket_total (str : Str) (d : Direction) (loc : Int)
    (hin : InBuffer str loc) (hlast : loc ≠ (str.length : Int) - 1) :
    (∃ k', 0 < k' ∧ InBuffer str (d.pos loc k') ∧ runningDepth str d loc k' = 0 ∧
        (∀ j, j < k' → 0 < runningDepth str d loc j) ∧
        getMatchingBracket str loc d = Result.ok (d.pos loc k')) ∨
    ((∀ k', InBuffer str (d.pos loc k') → 0 < runningDepth str d loc k') ∧
        getMatchingBracket str loc d = Result.fail Failure.scanPastBuffer) := by
  have hroom : d.room str (d.pos loc 0) < str.length + 1 := by
    rw [Direction.pos_zero]
    unfold InBuffer at hin
    cases d <;> simp only [Direction.room] <;> omega
  have h0 : InBuffer str (d.pos loc 0) := by rw [Direction.pos_zero]; exact hin
  have key := getMatchingBracket_loop_total str d loc (str.length + 1) 0 h0
    (by simp [runningDepth]) hroom
  rw [Direction.pos_zero] at key
  have hd0 : runningDepth str d loc 0 = 1 := rfl
  rw [hd0] at key
  unfold getMatchingBracket
  rw [if_neg hlast]
  rcases key with ⟨k', _, h2, h3, h4, h5⟩ | ⟨h1, h2⟩
  · left
    have hk : 0 < k' := by
      rcases Nat.eq_zero_or_pos k' with h | h
      · subst h; rw [hd0] at h3; omega
      · exact h
    refine ⟨k', hk, h2, h3, fun j hj => h4 j (Nat.zero_le j) hj, ?_⟩
    rw [h5]
    have hne : d.pos loc k' ≠ (str.length : Int) := by
      have := h2.2
      omega
    simp [hne]
  · right
    refine ⟨fun k' hin' => h1 k' (Nat.zero_le k') hin', ?_⟩
    rw [h2]
    rfl

theorem braceDelta_left (c : Option Char) :
    braceDelta Direction.Left c = - braceDelta Direction.Right c := by
  unfold braceDelta
  split <;> simp_all

/-- Read from the close brace leftwards, the depth of the leftward scan after
`t` steps is the depth of the rightward scan one index further left. -/
theorem runningDepth_left_of_right (s : Str) (o : Int) (K : Nat)
    (hK : runningDepth s Direction.Right o K = 0)
    (hpos : ∀ j, j < K → 0 < runningDepth s Direction.Right o j) :
    ∀ t r, t + r + 1 = K →
      runningDepth s Direction.Left (o + K) t = runningDepth s Direction.Right o r := by
  intro t
  induction t with
  | zero =>
    intro r hr
    have h1 : runningDepth s Direction.Right o (r + 1) = 0 := by
      have : r + 1 = K := by omega
      rw [this]; exact hK
    have h2 := hpos r (by omega)
    have h3 := braceDelta_ge Direction.Right (charAt s (Direction.Right.pos o (r + 1)))
    simp only [runningDepth] at h1 ⊢
    omega
  | succ t ih =>
    intro r hr
    have h1 := ih (r + 1) (by omega)
    have hidx : Direction.Left.pos (o + (K : Int)) (t + 1) = Direction.Right.pos o (r + 1) := by
      simp only [Direction.pos]
      push_cast
      omega
    simp only [runningDepth] at h1 ⊢
    rw [h1, hidx, braceDelta_left]
    omega

/-- Round trip of the scan, for any buffer: from an open brace to its close
brace and back, provided the close brace is not the last byte. -/
theorem getMatchingBracket_left_of_right (s : Str) (o c : Int)
    (ho : charAt s o = some '{')
    (hc : getMatchingBracket s o Direction.Right = Result.ok c)
    (hlast : c ≠ (s.length : Int) - 1) :
    getMatchingBracket s c Direction.Left = Result.ok o := by
  have hino : InBuffer s o := charAt_inBuffer ho
  have hne : o ≠ (s.length : Int) - 1 := by
    intro h
    simp [getMatchingBracket, h] at hc
  rcases getMatchingBracket_total s Direction.Right o hino hne with
    ⟨K, hK0, hKin, hKz, hKpos, hKeq⟩ | ⟨_, hfail⟩
  · rw [hKeq] at hc
    simp only [Result.ok.injEq] at hc
    have hcK : c = o + (K : Int) := by
      rw [← hc]; rfl
    subst hcK
    have hinc : InBuffer s (o + (K : Int)) := hKin
    have hrev := runningDepth_left_of_right s o K hKz hKpos
    have hLpos : ∀ t, t < K → 0 < runningDepth s Direction.Left (o + (K : Int)) t := by
      intro t ht
      rw [hrev t (K - 1 - t) (by omega)]
      exact hKpos _ (by omega)
    have hLz : runningDepth s Direction.Left (o + (K : Int)) K = 0 := by
      obtain ⟨K', rfl⟩ : ∃ K', K = K' + 1 := ⟨K - 1, by omega⟩
      have h1 := hrev K' 0 (by omega)
      have hidx : Direction.Left.pos (o + ((K' + 1 : Nat) : Int)) (K' + 1) = o := by
        simp only [Direction.pos]
        omega
      simp only [runningDepth] at h1 ⊢
      rw [h1, hidx, ho]
      rfl
    have hposK : Direction.Left.pos (o + (K : Int)) K = o := by
      simp only [Direction.pos]
      omega
    rcases getMatchingBracket_total s Direction.Left (o + (K : Int)) hinc hlast with
      ⟨k', _, _, hz, hp, heq⟩ | ⟨hall, _⟩
    · have hk : k' = K := by
        rcases Nat.lt_trichotomy k' K with h | h | h
        · have := hLpos k' h; omega
        · exact h
        · have := hp K h; omega
      subst hk
      rw [heq, hposK]
    · have := hall K (by rw [hposK]; exact hino)
      omega
  · rw [hfail] at hc
    cases hc

/-! ## Claims about `getMatchingBracket` -/

/-- C1: for `0 ≤ loc < len(str) - 1` and either direction, an index `m` returned
by `getMatchingBracket(str, loc, direction)` is the index reached after some
`k > 0` steps from `loc`, it lies in the buffer, the running depth (1 at the
start, `str[loc]` not examined) is 0 there, and the running depth is strictly
positive after every smaller number of steps: `m` is the first index of depth
0, and the depth is positive strictly between `loc` and `m`. -/
theorem getMatchingBracket_first_zero_depth (str : Str) (loc : Int)
    (direction : Direction) (m : Int)
    (h0 : 0 ≤ loc) (h1 : loc < (str.length : Int) - 1)
    (h : getMatchingBracket str loc direction = Result.ok m) :
    ∃ k : Nat, 0 < k ∧ m = direction.pos loc k ∧ InBuffer str m ∧
      runningDepth str direction loc k = 0 ∧
      ∀ j, j < k → 0 < runningDepth str direction loc j := by
  have hin : InBuffer str loc := ⟨h0, by omega⟩
  rcases getMatchingBracket_total str direction loc hin (by omega) with
    ⟨k, hk, hkin, hz, hp, heq⟩ | ⟨_, hfail⟩
  · rw [heq] at h
    simp only [Result.ok.injEq] at h
    subst h
    exact ⟨k, hk, rfl, hkin, hz, hp⟩
  · rw [hfail] at h
    cases h

/-- Witness of C1: in `{a{b}c}d` the scan to the right from index 0 returns 6. -/
theorem getMatchingBracket_first_zero_depth_witness :
    ∃ k : Nat, 0 < k ∧ (6 : Int) = Direction.Right.pos 0 k ∧
      InBuffer ['{', 'a', '{', 'b', '}', 'c', '}', 'd'] 6 ∧
      runningDepth ['{', 'a', '{', 'b', '}', 'c', '}', 'd'] Direction.Right 0 k = 0 ∧
      ∀ j, j < k → 0 < runningDepth ['{', 'a', '{', 'b', '}', 'c', '}', 'd'] Direction.Right 0 j :=
  getMatchingBracket_first_zero_depth ['{', 'a', '{', 'b', '}', 'c', '}', 'd'] 0
    Direction.Right 6 (by decide) (by decide) (by decide)

/-- C2, as stated, fails: in the balanced buffer `{a}` the open brace at 0 is
matched rightwards at 2, the last index, and the leftward call from 2 aborts
with "Open bracket at end of string!" instead of returning 0. -/
theorem getMatchingBracket_round_trip_counterexample :
    Balanced ['{', 'a', '}'] ∧ charAt ['{', 'a', '}'] 0 = some '{' ∧
      getMatchingBracket ['{', 'a', '}'] 0 Direction.Right = Result.ok 2 ∧
      getMatchingBracket ['{', 'a', '}'] 2 Direction.Left
        = Result.fail Failure.openBracketAtEnd ∧
      getMatchingBracket ['{', 'a', '}'] 2 Direction.Left ≠ Result.ok 0 := by
  decide

/-- C2, amended: for every brace-balanced `s` and every index `o` with
`s[o] = '{'`, if `getMatchingBracket(s, o, Right)` returns `c` and `c` is not
the last index of `s`, then `getMatchingBracket(s, c, Left)` returns `o`. -/
theorem getMatchingBracket_round_trip (s : Str) (o c : Int)
    (_hb : Balanced s) (ho : charAt s o = some '{')
    (hc : getMatchingBracket s o Direction.Right = Result.ok c)
    (hlast : c ≠ (s.length : Int) - 1) :
    getMatchingBracket s c Direction.Left = Result.ok o :=
  getMatchingBracket_left_of_right s o c ho hc hlast

/-- Witness of C2 (amended): in `{a}b` the round trip from 0 goes to 2 and back. -/
theorem getMatchingBracket_round_trip_witness :
    getMatchingBracket ['{', 'a', '}', 'b'] 2 Direction.Left = Result.ok 0 :=
  getMatchingBracket_round_trip ['{', 'a', '}', 'b'] 0 2 (by decide) (by decide)
    (by decide) (by decide)

/-- C3: for `0 ≤ loc < len(str)` and either direction, `getMatchingBracket`
aborts exactly when `loc = len(str) - 1` or no index reached by stepping from
`loc` inside the buffer has running depth 0 (the scan leaves the buffer first);
in every other case it returns an index inside the buffer. -/
theorem getMatchingBracket_fails_iff (str : Str) (loc : Int) (direction : Direction)
    (h0 : 0 ≤ loc) (h1 : loc < (str.length : Int)) :
    ((getMatchingBracket str loc direction).Fails ↔
      (loc = (str.length : Int) - 1 ∨
        ¬ ∃ k : Nat, 0 < k ∧ InBuffer str (direction.pos loc k) ∧
          runningDepth str direction loc k = 0)) ∧
    (¬ (getMatchingBracket str loc direction).Fails →
      ∃ m, getMatchingBracket str loc direction = Result.ok m ∧ InBuffer str m) := by
  by_cases hlast : loc = (str.length : Int) - 1
  · have hf : (getMatchingBracket str loc direction).Fails :=
      ⟨Failure.openBracketAtEnd, by simp [getMatchingBracket, hlast]⟩
    exact ⟨⟨fun _ => Or.inl hlast, fun _ => hf⟩, fun h => absurd hf h⟩
  · rcases getMatchingBracket_total str direction loc ⟨h0, h1⟩ hlast with
      ⟨k, hk, hkin, hz, _, heq⟩ | ⟨hall, hfail⟩
    · have hnf : ¬ (getMatchingBracket str loc direction).Fails := by
        rintro ⟨f, hf⟩
        rw [heq] at hf
        cases hf
      refine ⟨⟨fun h => absurd h hnf, fun h => ?_⟩, fun _ => ⟨_, heq, hkin⟩⟩
      rcases h with h | h
      · exact absurd h hlast
      · exact absurd ⟨k, hk, hkin, hz⟩ h
    · have hf : (getMatchingBracket str loc direction).Fails := ⟨_, hfail⟩
      refine ⟨⟨fun _ => Or.inr ?_, fun _ => hf⟩, fun h => absurd hf h⟩
      rintro ⟨k, _, hkin, hz⟩
      have := hall k hkin
      omega

/-- Witness of C3: in `{a` the scan to the right from 0 leaves the buffer. -/
theorem getMatchingBracket_fails_iff_witness :
    ((getMatchingBracket ['{', 'a'] 0 Direction.Right).Fails ↔
      ((0 : Int) = ((['{', 'a'] : Str).length : Int) - 1 ∨
        ¬ ∃ k : Nat, 0 < k ∧ InBuffer ['{', 'a'] (Direction.Right.pos 0 k) ∧
          runningDepth ['{', 'a'] Direction.Right 0 k = 0)) ∧
    (¬ (getMatchingBracket ['{', 'a'] 0 Direction.Right).Fails →
      ∃ m, getMatchingBracket ['{', 'a'] 0 Direction.Right = Result.ok m ∧
        InBuffer ['{', 'a'] m) :=
  getMatchingBracket_fails_iff ['{', 'a'] 0 Direction.Right (by decide) (by decide)

/-! ## The scan `hasFractions` -/

theorem hasFractions_test_eq (txt : Str) (i : Int) (h0 : 0 < i)
    (h1 : i < (txt.length : Int) - 1) :
    hasFractions.test txt i = Result.ok (decide (IsFraction txt i)) := by
  obtain ⟨c, hc⟩ := charAt_isSome (s := txt) (i := i) ⟨by omega, by omega⟩
  obtain ⟨p, hp⟩ := charAt_isSome (s := txt) (i := i - 1) ⟨by omega, by omega⟩
  obtain ⟨n, hn⟩ := charAt_isSome (s := txt) (i := i + 1) ⟨by omega, by omega⟩
  have hiff : IsFraction txt i ↔ (c = '/' ∧ p ≠ ' ' ∧ n ≠ ' ') := by
    unfold IsFraction
    rw [hc, hp, hn]
    simp [h0, h1]
  unfold hasFractions.test
  rw [index_of_charAt hc, index_of_charAt hp, index_of_charAt hn]
  by_cases h2 : c = '/' <;> by_cases h3 : p = ' ' <;> by_cases h4 : n = ' ' <;>
    simp [hiff, h2, h3, h4]

theorem hasFractions_loop_total (txt : Str) :
    ∀ (fuel : Nat) (i : Int), 0 < i → ((txt.length : Int) - 1 - i).toNat < fuel →
      (∃ p, i ≤ p ∧ IsFraction txt p ∧ (∀ q, i ≤ q → q < p → ¬ IsFraction txt q) ∧
          hasFractions.loop txt fuel i = Result.ok (true, p)) ∨
      ((∀ q, i ≤ q → ¬ IsFraction txt q) ∧
          hasFractions.loop txt fuel i = Result.ok (false, (txt.length : Int))) := by
  intro fuel
  induction fuel with
  | zero => intro i _ h; omega
  | succ fuel ih =>
    intro i h0 hfuel
    by_cases hlt : i < (txt.length : Int) - 1
    · rw [hasFractions.loop, if_pos hlt, hasFractions_test_eq txt i h0 hlt]
      by_cases hf : IsFraction txt i
      · left
        refine ⟨i, le_refl i, hf, fun q h1 h2 => by omega, ?_⟩
        simp [hf]
      · simp only [Result.ok_bind, hf, decide_False, Bool.false_eq_true, if_false]
        rcases ih (i + 1) (by omega) (by omega) with ⟨p, h1, h2, h3, h4⟩ | ⟨h1, h2⟩
        · left
          refine ⟨p, by omega, h2, fun q hq1 hq2 => ?_, h4⟩
          by_cases hq : q = i
          · subst hq; exact hf
          · exact h3 q (by omega) hq2
        · right
          refine ⟨fun q hq1 => ?_, h2⟩
          by_cases hq : q = i
          · subst hq; exact hf
          · exact h1 q (by omega)
    · right
      refine ⟨fun q hq hf => ?_, ?_⟩
      · have := hf.2.1
        omega
      · rw [hasFractions.loop, if_neg hlt]
        rfl

/-- The scan `hasFractions` returns the lowest fraction candidate, or reports
that there is none. -/
theorem hasFractions_total (txt : Str) :
    (∃ p, IsFraction txt p ∧ (∀ q, q < p → ¬ IsFraction txt q) ∧
        hasFractions txt = Result.ok (true, p)) ∨
    ((∀ q, ¬ IsFraction txt q) ∧
        hasFractions txt = Result.ok (false, (txt.length : Int))) := by
  unfold hasFractions
  rcases hasFractions_loop_total txt (txt.length + 1) 1 (by omega) (by omega) with
    ⟨p, _, h2, h3, h4⟩ | ⟨h1, h2⟩
  · left
    refine ⟨p, h2, fun q hq hf => ?_, h4⟩
    exact h3 q (by have := hf.1; omega) hq hf
  · right
    refine ⟨fun q hf => ?_, h2⟩
    exact h1 q (by have := hf.1; omega) hf

theorem hasFractions_eq_of_first (txt : Str) (p : Int) (hp : IsFraction txt p)
    (hfirst : ∀ q, q < p → ¬ IsFraction txt q) :
    hasFractions txt = Result.ok (true, p) := by
  rcases hasFractions_total txt with ⟨p', h1, h2, h3⟩ | ⟨h1, _⟩
  · have : p' = p := by
      rcases lt_trichotomy p' p with h | h | h
      · exact absurd h1 (hfirst p' h)
      · exact h
      · exact absurd hp (h2 p h)
    rw [h3, this]
  · exact absurd hp (h1 p)

theorem hasFractions_eq_of_none (txt : Str) (h : ∀ q, ¬ IsFraction txt q) :
    hasFractions txt = Result.ok (false, (txt.length : Int)) := by
  rcases hasFractions_total txt with ⟨p, h1, _, _⟩ | ⟨_, h2⟩
  · exact absurd h1 (h p)
  · exact h2

/-! ## The loop of `replaceFrac`: exit -/

theorem replaceFrac_step_eq_none_iff (x : Str) :
    replaceFrac.step x = Result.ok none ↔ ∀ q, ¬ IsFraction x q := by
  unfold replaceFrac.step
  rcases hasFractions_total x with ⟨p, h1, _, h3⟩ | ⟨h1, h2⟩
  · rw [h3]
    constructor
    · intro h
      simp only [Result.ok_bind, if_true] at h
      cases hr : getRoot p x with
      | ok root =>
        rw [hr] at h
        simp only [Result.ok_bind] at h
        cases hc : getChildrenOf root x with
        | ok c =>
          rw [hc] at h
          simp only [Result.ok_bind] at h
          cases hs : replaceFracChildren root c x with
          | ok s => rw [hs] at h; simp at h
          | fail e => rw [hs] at h; simp at h
          | diverge => rw [hs] at h; simp at h
        | fail e => rw [hc] at h; simp at h
        | diverge => rw [hc] at h; simp at h
      | fail e => rw [hr] at h; simp at h
      | diverge => rw [hr] at h; simp at h
    · intro h
      exact absurd h1 (h p)
  · rw [h2]
    simp [h1]

theorem replaceFrac_loop_of_none (x : Str) (h : ∀ q, ¬ IsFraction x q) (fuel : Nat) :
    replaceFrac.loop (fuel + 1) x = Result.ok x := by
  rw [replaceFrac.loop, (replaceFrac_step_eq_none_iff x).mpr h]

theorem replaceFrac_loop_result (fuel : Nat) :
    ∀ (x r : Str), replaceFrac.loop fuel x = Result.ok r → ∀ q, ¬ IsFraction r q := by
  induction fuel with
  | zero =>
    intro x r h
    simp [replaceFrac.loop] at h
  | succ fuel ih =>
    intro x r h
    rw [replaceFrac.loop] at h
    cases hs : replaceFrac.step x with
    | ok o =>
      rw [hs] at h
      cases o with
      | none =>
        simp only [Result.ok.injEq] at h
        subst h
        exact (replaceFrac_step_eq_none_iff x).mp hs
      | some s => exact ih s r h
    | fail e => rw [hs] at h; cases h
    | diverge => rw [hs] at h; cases h

/-! ## Claim about the fixpoint of `replaceFrac` -/

/-- C9: a buffer with no fraction candidate (no `i` with `0 < i < len - 1`,
`buffer[i] = '/'`, `buffer[i-1] ≠ ' '`, `buffer[i+1] ≠ ' '`) is returned
unchanged; whenever `replaceFrac(x)` returns `r`, `r` has no fraction
candidate; hence `replaceFrac(r)` returns `r` again. -/
theorem replaceFrac_fixpoint :
    (∀ x : Str, (∀ i, ¬ IsFraction x i) → replaceFrac x = Result.ok x) ∧
    (∀ x r : Str, replaceFrac x = Result.ok r → ∀ i, ¬ IsFraction r i) ∧
    (∀ x r : Str, replaceFrac x = Result.ok r → replaceFrac r = Result.ok r) := by
  have h1 : ∀ x : Str, (∀ i, ¬ IsFraction x i) → replaceFrac x = Result.ok x :=
    fun x h => replaceFrac_loop_of_none x h _
  have h2 : ∀ x r : Str, replaceFrac x = Result.ok r → ∀ i, ¬ IsFraction r i :=
    fun x r h => replaceFrac_loop_result _ x r h
  exact ⟨h1, h2, fun x r h => h1 r (h2 x r h)⟩

/-- Witness of C9: `a / b` has no candidate and is returned unchanged; `a/b`
is rewritten to `\frac{a}{b}`, which has no candidate and is a fixpoint. -/
theorem replaceFrac_fixpoint_witness :
    replaceFrac ['a', ' ', '/', ' ', 'b'] = Result.ok ['a', ' ', '/', ' ', 'b'] ∧
    (∀ i, ¬ IsFraction ['\\', 'f', 'r', 'a', 'c', '{', 'a', '}', '{', 'b', '}'] i) ∧
    replaceFrac ['\\', 'f', 'r', 'a', 'c', '{', 'a', '}', '{', 'b', '}']
      = Result.ok ['\\', 'f', 'r', 'a', 'c', '{', 'a', '}', '{', 'b', '}'] :=
  ⟨replaceFrac_fixpoint.1 ['a', ' ', '/', ' ', 'b'] (by
      intro i hi
      obtain ⟨h0, h1, h2⟩ := hi
      have h3 : i = 1 ∨ i = 2 ∨ i = 3 := by simp at h1; omega
      rcases h3 with h | h | h <;> subst h <;> revert h2 <;> decide),
   replaceFrac_fixpoint.2.1 ['a', '/', 'b'] _ (by decide),
   replaceFrac_fixpoint.2.2 ['a', '/', 'b'] _ (by decide)⟩

/-! ## Slices -/

theorem slice_eq_ok {s w : Str} {lo hi : Int} (h : slice s lo hi = Result.ok w) :
    0 ≤ lo ∧ lo ≤ hi ∧ hi ≤ (s.length : Int) ∧
      w = (s.drop lo.toNat).take (hi.toNat - lo.toNat) := by
  unfold slice at h
  split at h
  · rename_i hc
    simp only [Result.ok.injEq] at h
    exact ⟨hc.1, hc.2.1, hc.2.2, h.symm⟩
  · cases h

theorem slice_of_bounds (s : Str) (lo hi : Int) (h0 : 0 ≤ lo) (h1 : lo ≤ hi)
    (h2 : hi ≤ (s.length : Int)) :
    slice s lo hi = Result.ok ((s.drop lo.toNat).take (hi.toNat - lo.toNat)) := by
  unfold slice
  rw [if_pos ⟨h0, h1, h2⟩]

theorem slice_charAt {s w : Str} {lo hi : Int} (h : slice s lo hi = Result.ok w)
    (k : Nat) (hk : k < w.length) : charAt s (lo + k) = w[k]? := by
  obtain ⟨h0, h1, h2, hw⟩ := slice_eq_ok h
  have hlen := slice_length h
  subst hw
  have hk2 : k < hi.toNat - lo.toNat := by omega
  rw [List.getElem?_take_of_lt hk2, List.getElem?_drop]
  unfold charAt
  rw [if_pos (by omega)]
  congr 1
  omega

theorem slice_full (s : Str) : slice s 0 (s.length : Int) = Result.ok s := by
  rw [slice_of_bounds s 0 _ (le_refl 0) (by omega) (le_refl _)]
  simp

theorem slice_append_slice {s x y : Str} {a b c : Int}
    (hx : slice s a b = Result.ok x) (hy : slice s b c = Result.ok y) :
    slice s a c = Result.ok (x ++ y) := by
  obtain ⟨h0, h1, _, hxw⟩ := slice_eq_ok hx
  obtain ⟨_, h4, h5, hyw⟩ := slice_eq_ok hy
  rw [slice_of_bounds s a c h0 (by omega) h5, hxw, hyw]
  have e1 : c.toNat - a.toNat = (b.toNat - a.toNat) + (c.toNat - b.toNat) := by omega
  rw [e1, List.take_add, List.drop_drop]
  have e2 : a.toNat + (b.toNat - a.toNat) = b.toNat := by omega
  rw [e2]

theorem slice_one {s : Str} {i : Int} {c : Char} (h : charAt s i = some c) :
    slice s i (i + 1) = Result.ok [c] := by
  obtain ⟨h0, h1⟩ := charAt_inBuffer h
  have hs := slice_of_bounds s i (i + 1) h0 (by omega) (by omega)
  have hlen := slice_length hs
  have hc := slice_charAt hs 0 (by omega)
  rw [hs]
  generalize (s.drop i.toNat).take ((i + 1).toNat - i.toNat) = w at *
  cases w with
  | nil => simp at hlen
  | cons x t =>
    cases t with
    | nil =>
      simp only [Nat.cast_zero, add_zero, h, List.getElem?_cons_zero, Option.some.injEq] at hc
      rw [hc]
    | cons y t =>
      simp only [List.length_cons] at hlen
      push_cast at hlen
      omega

theorem slice_two {s : Str} {j : Int} {a b : Char} (ha : charAt s j = some a)
    (hb : charAt s (j + 1) = some b) : slice s j (j + 2) = Result.ok [a, b] := by
  have h1 := slice_one ha
  have h2 := slice_one hb
  have e : j + 1 + 1 = j + 2 := by omega
  rw [e] at h2
  exact slice_append_slice h1 h2

theorem slice_two_inv {s : Str} {j : Int} {a b : Char}
    (h : slice s j (j + 2) = Result.ok [a, b]) :
    charAt s j = some a ∧ charAt s (j + 1) = some b := by
  have h0 := slice_charAt h 0 (by simp)
  have h1 := slice_charAt h 1 (by simp)
  simp only [Nat.cast_zero, add_zero, List.getElem?_cons_zero] at h0
  simp only [Nat.cast_one, List.getElem?_cons_succ, List.getElem?_cons_zero] at h1
  exact ⟨h0, h1⟩

theorem slice_of_append (p m q : Str) (lo hi : Int) (hlo : lo = (p.length : Int))
    (hhi : hi = (p.length : Int) + (m.length : Int)) :
    slice (p ++ (m ++ q)) lo hi = Result.ok m := by
  subst hlo hhi
  rw [slice_of_bounds _ _ _ (by omega) (by omega) (by simp)]
  have e1 : ((p.length : Int)).toNat = p.length := by omega
  have e2 : ((p.length : Int) + (m.length : Int)).toNat - p.length
      = m.length := by omega
  rw [e1, e2, List.drop_left, List.take_left]

/-! ## Root resolution `getRoot` -/

theorem getMatchingBracket_ne_diverge (str : Str) (loc : Int) (d : Direction) :
    getMatchingBracket str loc d ≠ Result.diverge := by
  by_cases hlast : loc = (str.length : Int) - 1
  · simp [getMatchingBracket, hlast]
  · by_cases hin : InBuffer str loc
    · rcases getMatchingBracket_total str d loc hin hlast with ⟨k, _, _, _, _, h⟩ | ⟨_, h⟩
      · rw [h]; simp
      · rw [h]; simp
    · have hc : ¬ ((1 : Int) ≠ 0 ∧ loc < (str.length : Int) ∧ loc ≥ 0) := by
        unfold InBuffer at hin
        omega
      unfold getMatchingBracket
      rw [if_neg hlast, getMatchingBracket.loop, if_neg hc]
      simp only [Result.ok_bind]
      split <;> simp

/-- The rightward search of `getRoot` terminates; it either leaves `loc` and
`foundParent` as they were or moves `loc` forward to a `/` that follows a `}`. -/
theorem getRoot_searchRight_spec (txt : Str) :
    ∀ (fuel : Nat) (j loc : Int) (found : Bool),
      ((txt.length : Int) - 1 - j).toNat < fuel →
      getRoot.searchRight txt fuel j loc found ≠ Result.diverge ∧
      ∀ r, getRoot.searchRight txt fuel j loc found = Result.ok r →
        r = (loc, found) ∨
        (r.2 = true ∧ j < r.1 ∧ r.1 < (txt.length : Int) ∧ charAt txt r.1 = some '/' ∧
          charAt txt (r.1 - 1) = some '}') := by
  intro fuel
  induction fuel with
  | zero => intro j loc found h; omega
  | succ fuel ih =>
    intro j loc found hfuel
    by_cases hlt : j < (txt.length : Int) - 1
    · rw [getRoot.searchRight, if_pos hlt]
      cases hw : slice txt j (j + 2) with
      | ok w =>
        simp only [Result.ok_bind]
        by_cases hweq : w = ['}', '/']
        · rw [if_pos hweq]
          subst hweq
          obtain ⟨hc1, hc2⟩ := slice_two_inv hw
          cases hm : getMatchingBracket txt j Direction.Left with
          | ok m =>
            simp only [Result.ok_bind]
            by_cases hcond : m < loc ∧ loc < j
            · rw [if_pos hcond]
              obtain ⟨hnd, hr⟩ := ih (j + 1) (j + 1) true (by omega)
              refine ⟨hnd, fun r h => Or.inr ?_⟩
              rcases hr r h with h1 | ⟨h1, h2, h3, h4, h5⟩
              · subst h1
                refine ⟨rfl, by simp, by simp; omega, hc2, ?_⟩
                simpa using hc1
              · exact ⟨h1, by omega, h3, h4, h5⟩
            · rw [if_neg hcond]
              obtain ⟨hnd, hr⟩ := ih (j + 1) loc found (by omega)
              refine ⟨hnd, fun r h => ?_⟩
              rcases hr r h with h1 | ⟨h1, h2, h3, h4, h5⟩
              · exact Or.inl h1
              · exact Or.inr ⟨h1, by omega, h3, h4, h5⟩
          | fail e => simp
          | diverge => exact absurd hm (getMatchingBracket_ne_diverge txt j Direction.Left)
        · rw [if_neg hweq]
          obtain ⟨hnd, hr⟩ := ih (j + 1) loc found (by omega)
          refine ⟨hnd, fun r h => ?_⟩
          rcases hr r h with h1 | ⟨h1, h2, h3, h4, h5⟩
          · exact Or.inl h1
          · exact Or.inr ⟨h1, by omega, h3, h4, h5⟩
      | fail e => simp
      | diverge => exact absurd hw (slice_ne_diverge txt j (j + 2))
    · rw [getRoot.searchRight, if_neg hlt]
      simp

/-- The leftward search of `getRoot` terminates and changes nothing: the
one-byte slice `txt[j-1:j]` is never equal to the two bytes `/{`. -/
theorem getRoot_searchLeft_spec (txt : Str) :
    ∀ (fuel : Nat) (j loc : Int) (found : Bool), j.toNat < fuel →
      getRoot.searchLeft txt fuel j loc found ≠ Result.diverge ∧
      ∀ r, getRoot.searchLeft txt fuel j loc found = Result.ok r → r = (loc, found) := by
  intro fuel
  induction fuel with
  | zero => intro j loc found h; omega
  | succ fuel ih =>
    intro j loc found hfuel
    by_cases hgt : j > 0
    · rw [getRoot.searchLeft, if_pos hgt]
      cases hw : slice txt (j - 1) j with
      | ok w =>
        have hlen := slice_length hw
        have hne : w ≠ ['/', '{'] := by
          intro h
          subst h
          simp at hlen
        simp only [Result.ok_bind, if_neg hne]
        exact ih (j - 1) loc found (by omega)
      | fail e => simp
      | diverge => exact absurd hw (slice_ne_diverge txt (j - 1) j)
    · rw [getRoot.searchLeft, if_neg hgt]
      simp

theorem getRoot_loop_spec (txt : Str) :
    ∀ (fuel : Nat) (loc : Int) (found : Bool),
      (if found then ((txt.length : Int) - loc).toNat + 2 else 1) ≤ fuel →
      getRoot.loop txt fuel loc found ≠ Result.diverge ∧
      ∀ r, getRoot.loop txt fuel loc found = Result.ok r →
        r = loc ∨ (loc < r ∧ r < (txt.length : Int) ∧ charAt txt r = some '/' ∧
          charAt txt (r - 1) = some '}') := by
  intro fuel
  induction fuel with
  | zero => intro loc found h; split at h <;> omega
  | succ fuel ih =>
    intro loc found hfuel
    cases found with
    | false => simp [getRoot.loop]
    | true =>
      simp only [if_true] at hfuel
      rw [getRoot.loop, if_pos rfl]
      obtain ⟨hnd1, hr1⟩ := getRoot_searchRight_spec txt
        (((txt.length : Int) - loc).toNat + 1) (loc + 1) loc false (by omega)
      cases h1 : getRoot.searchRight txt (((txt.length : Int) - loc).toNat + 1) (loc + 1)
          loc false with
      | ok r1 =>
        simp only [Result.ok_bind]
        obtain ⟨hnd2, hr2⟩ := getRoot_searchLeft_spec txt (r1.1.toNat + 1) (r1.1 - 1) r1.1 r1.2
          (by omega)
        cases h2 : getRoot.searchLeft txt (r1.1.toNat + 1) (r1.1 - 1) r1.1 r1.2 with
        | ok r2 =>
          simp only [Result.ok_bind]
          have e2 := hr2 r2 h2
          subst e2
          rcases hr1 r1 h1 with e1 | ⟨e1, e3, e4, e5, e6⟩
          · subst e1
            obtain ⟨hnd, hr⟩ := ih loc false (by simp; omega)
            exact ⟨hnd, hr⟩
          · obtain ⟨hnd, hr⟩ := ih r1.1 r1.2 (by rw [e1]; simp only [if_true]; omega)
            refine ⟨hnd, fun r h => Or.inr ?_⟩
            rcases hr r h with h3 | ⟨h3, h4, h5, h6⟩
            · subst h3; exact ⟨by omega, e4, e5, e6⟩
            · exact ⟨by omega, h4, h5, h6⟩
        | fail e => simp
        | diverge => exact absurd h2 hnd2
      | fail e => simp
      | diverge => exact absurd h1 hnd1

/-- The closure `getRoot` terminates, and an index it returns is `loc` itself
or a later `/` that follows a `}`. -/
theorem getRoot_spec (loc : Int) (txt : Str) :
    getRoot loc txt ≠ Result.diverge ∧
    ∀ r, getRoot loc txt = Result.ok r →
      r = loc ∨ (loc < r ∧ r < (txt.length : Int) ∧ charAt txt r = some '/' ∧
        charAt txt (r - 1) = some '}') :=
  getRoot_loop_spec txt _ loc true (by simp)

/-! ## Operand resolution `getChildrenOf` -/

theorem getChildrenOf_rightLoop_ne_diverge (txt : Str) :
    ∀ (fuel : Nat) (i : Int), (i < 0 ∧ 0 < fuel) ∨ ((txt.length : Int) - i).toNat < fuel →
      getChildrenOf.rightLoop txt fuel i ≠ Result.diverge := by
  intro fuel
  induction fuel with
  | zero => intro i h; omega
  | succ fuel ih =>
    intro i hfuel
    by_cases hlt : i < (txt.length : Int)
    · rw [getChildrenOf.rightLoop, if_pos hlt]
      cases hc : charAt txt i with
      | none => simp [index, hc]
      | some c =>
        have hin := charAt_inBuffer hc
        rw [index_of_charAt hc]
        simp only [Result.ok_bind]
        split
        · exact ih (i + 1) (Or.inr (by have := hin.1; omega))
        · simp
    · rw [getChildrenOf.rightLoop, if_neg hlt]
      simp

theorem getChildrenOf_leftLoop_ne_diverge (txt : Str) :
    ∀ (fuel : Nat) (i : Int), ((txt.length : Int) ≤ i ∧ 0 < fuel) ∨ (i + 1).toNat < fuel →
      getChildrenOf.leftLoop txt fuel i ≠ Result.diverge := by
  intro fuel
  induction fuel with
  | zero => intro i h; omega
  | succ fuel ih =>
    intro i hfuel
    by_cases hge : i ≥ 0
    · rw [getChildrenOf.leftLoop, if_pos hge]
      cases hc : charAt txt i with
      | none => simp [index, hc]
      | some c =>
        have hin := charAt_inBuffer hc
        rw [index_of_charAt hc]
        simp only [Result.ok_bind]
        split
        · exact ih (i - 1) (Or.inr (by have := hin.2; omega))
        · simp
    · rw [getChildrenOf.leftLoop, if_neg hge]
      simp

theorem getType_ne_diverge (loc : Int) (s : Str) : getType loc s ≠ Result.diverge := by
  unfold getType
  refine Result.bind_ne_diverge _ _ (index_ne_diverge s loc) (fun c _ => ?_)
  split <;> simp

/-- The closure `getChildrenOf` terminates, and in what it returns
`children[0][0] = root + 1` and `children[1][1] = root - 1`. -/
theorem getChildrenOf_spec (root : Int) (txt : Str) :
    getChildrenOf root txt ≠ Result.diverge ∧
    ∀ c, getChildrenOf root txt = Result.ok c → c.1.1 = root + 1 ∧ c.2.2 = root - 1 := by
  have hR : getChildrenOf.rightLoop txt (txt.length + 1) root ≠ Result.diverge :=
    getChildrenOf_rightLoop_ne_diverge txt _ root (by omega)
  have hL : getChildrenOf.leftLoop txt (txt.length + 1) (root - 1) ≠ Result.diverge :=
    getChildrenOf_leftLoop_ne_diverge txt _ (root - 1) (by omega)
  have hMR := getMatchingBracket_ne_diverge txt (root + 1) Direction.Right
  have hML := getMatchingBracket_ne_diverge txt (root - 1) Direction.Left
  have hRE : ∀ t, getChildrenOf.rightEnd root txt t ≠ Result.diverge := by
    intro t
    unfold getChildrenOf.rightEnd
    split
    · exact Result.bind_ne_diverge _ _ hR (fun _ _ => by simp)
    · split
      · exact hMR
      · simp
  have hLS : ∀ t, getChildrenOf.leftStart root txt t ≠ Result.diverge := by
    intro t
    unfold getChildrenOf.leftStart
    split
    · exact Result.bind_ne_diverge _ _ hL (fun _ _ => by simp)
    · split
      · exact hML
      · simp
  unfold getChildrenOf
  cases h1 : getType (root + 1) txt with
  | diverge => exact absurd h1 (getType_ne_diverge _ _)
  | fail e => simp
  | ok rt =>
    cases h2 : getType (root - 1) txt with
    | diverge => exact absurd h2 (getType_ne_diverge _ _)
    | fail e => simp
    | ok lt =>
      simp only [Result.ok_bind]
      cases h3 : getChildrenOf.rightEnd root txt rt with
      | diverge => exact absurd h3 (hRE rt)
      | fail e => simp
      | ok a =>
        cases h4 : getChildrenOf.leftStart root txt lt with
        | diverge => exact absurd h4 (hLS lt)
        | fail e => simp
        | ok b =>
          simp only [Result.ok_bind, Result.pure_eq, ne_eq, Result.ok.injEq]
          refine ⟨by simp, fun c hc => ?_⟩
          subst hc
          exact ⟨rfl, rfl⟩

/-! ## The splice `replaceFracChildren` -/

theorem fixBracket_ne_diverge (s : Str) : fixBracket s ≠ Result.diverge := by
  unfold fixBracket
  refine Result.bind_ne_diverge _ _ (index_ne_diverge s 0) (fun c _ => ?_)
  split
  · refine Result.bind_ne_diverge _ _ (index_ne_diverge s _) (fun d _ => ?_)
    split <;> simp
  · simp

theorem fixBracket_cases {s t : Str} (h : fixBracket s = Result.ok t) :
    t = s ∨ t = '{' :: s ++ ['}'] := by
  unfold fixBracket at h
  cases h0 : index s 0 with
  | ok c =>
    rw [h0] at h
    simp only [Result.ok_bind] at h
    split at h
    · cases h1 : index s ((s.length : Int) - 1) with
      | ok d =>
        rw [h1] at h
        simp only [Result.ok_bind] at h
        split at h
        · simp only [Result.pure_eq, Result.ok.injEq] at h
          exact Or.inl h.symm
        · simp only [Result.pure_eq, Result.ok.injEq] at h
          exact Or.inr h.symm
      | fail e => rw [h1] at h; simp at h
      | diverge => rw [h1] at h; simp at h
    · simp only [Result.pure_eq, Result.ok.injEq] at h
      exact Or.inr h.symm
  | fail e => rw [h0] at h; simp at h
  | diverge => rw [h0] at h; simp at h

theorem fixBracket_count {s t : Str} (h : fixBracket s = Result.ok t) :
    t.count '/' = s.count '/' := by
  rcases fixBracket_cases h with h1 | h1
  · rw [h1]
  · rw [h1]
    simp [List.count_cons, List.count_append]

theorem replaceFracChildren_ne_diverge (r : Int) (c : (Int × Int) × (Int × Int)) (txt : Str) :
    replaceFracChildren r c txt ≠ Result.diverge := by
  unfold replaceFracChildren sliceFrom
  refine Result.bind_ne_diverge _ _ (slice_ne_diverge _ _ _) (fun right _ => ?_)
  refine Result.bind_ne_diverge _ _ (slice_ne_diverge _ _ _) (fun left _ => ?_)
  refine Result.bind_ne_diverge _ _ (slice_ne_diverge _ _ _) (fun s _ => ?_)
  refine Result.bind_ne_diverge _ _ (fixBracket_ne_diverge _) (fun l _ => ?_)
  refine Result.bind_ne_diverge _ _ (fixBracket_ne_diverge _) (fun r _ => ?_)
  refine Result.bind_ne_diverge _ _ (slice_ne_diverge _ _ _) (fun t _ => ?_)
  simp

/-- What `replaceFracChildren` returns, in terms of the slices it takes. -/
theorem replaceFracChildren_eq_ok {r : Int} {c : (Int × Int) × (Int × Int)} {txt s : Str}
    (h : replaceFracChildren r c txt = Result.ok s) :
    ∃ right left pre l' r' post,
      slice txt c.1.1 (c.1.2 + 1) = Result.ok right ∧
      slice txt c.2.1 (c.2.2 + 1) = Result.ok left ∧
      slice txt 0 c.2.1 = Result.ok pre ∧
      fixBracket left = Result.ok l' ∧ fixBracket right = Result.ok r' ∧
      slice txt (c.1.2 + 1) (txt.length : Int) = Result.ok post ∧
      s = pre ++ fracLit ++ l' ++ r' ++ post := by
  unfold replaceFracChildren sliceFrom at h
  obtain ⟨right, h1, h⟩ := (Result.bind_eq_ok _ _ _).mp h
  obtain ⟨left, h2, h⟩ := (Result.bind_eq_ok _ _ _).mp h
  obtain ⟨pre, h3, h⟩ := (Result.bind_eq_ok _ _ _).mp h
  obtain ⟨l', h4, h⟩ := (Result.bind_eq_ok _ _ _).mp h
  obtain ⟨r', h5, h⟩ := (Result.bind_eq_ok _ _ _).mp h
  obtain ⟨post, h6, h⟩ := (Result.bind_eq_ok _ _ _).mp h
  simp only [Result.pure_eq, Result.ok.injEq] at h
  exact ⟨right, left, pre, l', r', post, h1, h2, h3, h4, h5, h6, h.symm⟩

/-- A completed splice around a `/` at `r` drops exactly that `/`. -/
theorem replaceFracChildren_count (r c01 c10 : Int) (txt s : Str)
    (hr : charAt txt r = some '/')
    (h : replaceFracChildren r ((r + 1, c01), (c10, r - 1)) txt = Result.ok s) :
    s.count '/' + 1 = txt.count '/' := by
  obtain ⟨right, left, pre, l', r', post, h1, h2, h3, h4, h5, h6, hs⟩ :=
    replaceFracChildren_eq_ok h
  simp only at h1 h2 h3 h6
  have e : r - 1 + 1 = r := by omega
  rw [e] at h2
  have hmid := slice_one hr
  have hall := slice_append_slice (slice_append_slice (slice_append_slice
    (slice_append_slice h3 h2) hmid) h1) h6
  rw [slice_full] at hall
  simp only [Result.ok.injEq] at hall
  rw [hs, hall]
  simp only [List.count_append, fixBracket_count h4, fixBracket_count h5]
  simp [fracLit, List.count_cons]
  omega

/-! ## The loop of `replaceFrac`: termination -/

theorem hasFractions_ne_diverge (txt : Str) : hasFractions txt ≠ Result.diverge := by
  rcases hasFractions_total txt with ⟨p, _, _, h⟩ | ⟨_, h⟩ <;> rw [h] <;> simp

theorem replaceFrac_step_ne_diverge (x : Str) : replaceFrac.step x ≠ Result.diverge := by
  unfold replaceFrac.step
  refine Result.bind_ne_diverge _ _ (hasFractions_ne_diverge x) (fun h _ => ?_)
  split
  · refine Result.bind_ne_diverge _ _ (getRoot_spec _ _).1 (fun root _ => ?_)
    refine Result.bind_ne_diverge _ _ (getChildrenOf_spec _ _).1 (fun c _ => ?_)
    refine Result.bind_ne_diverge _ _ (replaceFracChildren_ne_diverge _ _ _) (fun s _ => ?_)
    simp
  · simp

/-- A pass of the loop that rewrites the buffer removes exactly one `/`. -/
theorem replaceFrac_step_count {x s : Str} (h : replaceFrac.step x = Result.ok (some s)) :
    s.count '/' + 1 = x.count '/' := by
  unfold replaceFrac.step at h
  rcases hasFractions_total x with ⟨p, hp, _, hh⟩ | ⟨_, hh⟩
  · rw [hh] at h
    simp only [Result.ok_bind, if_true] at h
    obtain ⟨root, h1, h⟩ := (Result.bind_eq_ok _ _ _).mp h
    obtain ⟨c, h2, h⟩ := (Result.bind_eq_ok _ _ _).mp h
    obtain ⟨s', h3, h⟩ := (Result.bind_eq_ok _ _ _).mp h
    simp only [Result.pure_eq, Result.ok.injEq, Option.some.injEq] at h
    subst h
    have hroot : charAt x root = some '/' := by
      rcases (getRoot_spec p x).2 root h1 with e | ⟨_, _, e, _⟩
      · rw [e]; exact hp.2.2.1
      · exact e
    obtain ⟨e1, e2⟩ := (getChildrenOf_spec root x).2 c h2
    have hc : c = ((root + 1, c.1.2), (c.2.1, root - 1)) := by
      rw [← e1, ← e2]
    rw [hc] at h3
    exact replaceFracChildren_count root _ _ x s' hroot h3
  · rw [hh] at h
    simp at h

theorem replaceFrac_loop_terminates :
    ∀ (fuel : Nat) (x : Str), x.count '/' < fuel →
      ∃ n, n ≤ x.count '/' ∧ ∃ y, replaceFrac.iterate n x = some y ∧
        ((replaceFrac.step y = Result.ok none ∧ replaceFrac.loop fuel x = Result.ok y) ∨
          ∃ e, replaceFrac.step y = Result.fail e ∧
            replaceFrac.loop fuel x = Result.fail e) := by
  intro fuel
  induction fuel with
  | zero => intro x h; omega
  | succ fuel ih =>
    intro x hfuel
    cases hs : replaceFrac.step x with
    | ok o =>
      cases o with
      | none =>
        refine ⟨0, Nat.zero_le _, x, rfl, Or.inl ⟨hs, ?_⟩⟩
        rw [replaceFrac.loop, hs]
      | some s =>
        have hcount := replaceFrac_step_count hs
        obtain ⟨n, hn, y, hy, hfin⟩ := ih s (by omega)
        refine ⟨n + 1, by omega, y, ?_, ?_⟩
        · rw [replaceFrac.iterate, hs]
          exact hy
        · rw [replaceFrac.loop, hs]
          exact hfin
    | fail e =>
      refine ⟨0, Nat.zero_le _, x, rfl, Or.inr ⟨e, hs, ?_⟩⟩
      rw [replaceFrac.loop, hs]
    | diverge => exact absurd hs (replaceFrac_step_ne_diverge x)

theorem replaceFrac_loop_fuel :
    ∀ (f1 f2 : Nat) (x : Str), x.count '/' < f1 → x.count '/' < f2 →
      replaceFrac.loop f1 x = replaceFrac.loop f2 x := by
  intro f1
  induction f1 with
  | zero => intro f2 x h; omega
  | succ f1 ih =>
    intro f2 x h1 h2
    obtain ⟨f2, rfl⟩ : ∃ k, f2 = k + 1 := ⟨f2 - 1, by omega⟩
    rw [replaceFrac.loop, replaceFrac.loop]
    cases hs : replaceFrac.step x with
    | ok o =>
      cases o with
      | none => rfl
      | some s =>
        have hcount := replaceFrac_step_count hs
        exact ih f2 s (by omega) (by omega)
    | fail e => rfl
    | diverge => rfl

/-! ## Claims about termination of `replaceFrac` -/

/-- C8: every pass of the loop of `replaceFrac` that completes a rewrite returns
a buffer with exactly one `/` fewer; for an input with `N` characters `/` the
loop stops after `n ≤ N` completed rewrites, the next pass either leaving the
loop (the buffer is returned) or aborting (the abort is the outcome), and any
fuel above `N` gives the same outcome; root resolution `getRoot` terminates,
and a pass of its loop that sets `foundParent` has moved `loc` strictly
forward, below the length of the buffer. -/
theorem replaceFrac_terminates :
    (∀ x s : Str, replaceFrac.step x = Result.ok (some s) →
      s.count '/' + 1 = x.count '/') ∧
    (∀ x : Str, ∃ n, n ≤ x.count '/' ∧ ∃ y, replaceFrac.iterate n x = some y ∧
      ((replaceFrac.step y = Result.ok none ∧ replaceFrac x = Result.ok y) ∨
        ∃ e, replaceFrac.step y = Result.fail e ∧ replaceFrac x = Result.fail e)) ∧
    (∀ (fuel : Nat) (x : Str), x.count '/' < fuel →
      replaceFrac.loop fuel x = replaceFrac x) ∧
    (∀ (loc : Int) (txt : Str), getRoot loc txt ≠ Result.diverge ∧
      ∀ r l,
        getRoot.searchRight txt (((txt.length : Int) - loc).toNat + 1) (loc + 1) loc false
          = Result.ok r →
        getRoot.searchLeft txt (r.1.toNat + 1) (r.1 - 1) r.1 r.2 = Result.ok l →
        (l.2 = true → loc < l.1 ∧ l.1 < (txt.length : Int)) ∧
        (l.2 = false → l.1 = loc)) := by
  refine ⟨fun x s h => replaceFrac_step_count h,
    fun x => replaceFrac_loop_terminates _ x (Nat.lt_succ_self _),
    fun fuel x h => replaceFrac_loop_fuel _ _ x h (Nat.lt_succ_self _),
    fun loc txt => ⟨(getRoot_spec loc txt).1, fun r l hr hl => ?_⟩⟩
  have e := (getRoot_searchLeft_spec txt _ _ _ _ (by omega)).2 l hl
  subst e
  rcases (getRoot_searchRight_spec txt _ _ _ _ (by omega)).2 r hr with h | ⟨h1, h2, h3, _, _⟩
  · subst h
    simp
  · refine ⟨fun _ => ⟨by omega, h3⟩, fun h => ?_⟩
    rw [h1] at h
    cases h

/-- Witness of C8: the pass on `a/b/c` removes one of its two `/`. -/
theorem replaceFrac_terminates_witness :
    (['\\', 'f', 'r', 'a', 'c', '{', 'a', '}', '{', 'b', '/', 'c', '}'] : Str).count '/' + 1
      = (['a', '/', 'b', '/', 'c'] : Str).count '/' :=
  replaceFrac_terminates.1 ['a', '/', 'b', '/', 'c']
    ['\\', 'f', 'r', 'a', 'c', '{', 'a', '}', '{', 'b', '/', 'c', '}'] (by decide)

/-! ## Evaluation on buffers given by their parts -/

theorem charAt_mem {s : Str} {i : Int} {c : Char} (h : charAt s i = some c) : c ∈ s := by
  unfold charAt at h
  split at h
  · exact List.getElem?_mem h
  · cases h

theorem charAt_append_cases {a b : Str} {i : Int} {c : Char}
    (h : charAt (a ++ b) i = some c) :
    (i < (a.length : Int) ∧ c ∈ a) ∨
      ((a.length : Int) ≤ i ∧ charAt b (i - (a.length : Int)) = some c) := by
  by_cases hi : i < (a.length : Int)
  · rw [charAt_append_left hi] at h
    exact Or.inl ⟨hi, charAt_mem h⟩
  · rw [charAt_append_right (by omega)] at h
    exact Or.inr ⟨by omega, h⟩

theorem charAt_length_cons (a b : Str) (c : Char) :
    charAt (a ++ c :: b) (a.length : Int) = some c := by
  rw [charAt_append_right (le_refl _)]
  simp [charAt]

theorem charAt_cons_succ (b : Str) (c : Char) (i : Int) (h : 0 ≤ i) :
    charAt (c :: b) (i + 1) = charAt b i := by
  unfold charAt
  rw [if_pos h, if_pos (by omega)]
  have e : (i + 1).toNat = i.toNat + 1 := by omega
  rw [e, List.getElem?_cons_succ]

/-- The parts of a buffer around a `/`: a byte left of it lies in `P`, a byte
right of it lies in `Q`. -/
theorem charAt_slash_cases {P Q : Str} {i : Int} {c : Char}
    (h : charAt (P ++ '/' :: Q) i = some c) :
    (i < (P.length : Int) ∧ c ∈ P) ∨ (i = (P.length : Int) ∧ c = '/') ∨
      ((P.length : Int) < i ∧ c ∈ Q ∧ charAt Q (i - (P.length : Int) - 1) = some c) := by
  rcases charAt_append_cases h with h1 | ⟨h1, h2⟩
  · exact Or.inl h1
  · by_cases hi : i = (P.length : Int)
    · subst hi
      simp [charAt] at h2
      exact Or.inr (Or.inl ⟨rfl, h2.symm⟩)
    · have e : i - (P.length : Int) = (i - (P.length : Int) - 1) + 1 := by omega
      rw [e, charAt_cons_succ _ _ _ (by omega)] at h2
      exact Or.inr (Or.inr ⟨by omega, charAt_mem h2, h2⟩)

theorem getRoot_searchRight_eq (txt : Str) :
    ∀ (fuel : Nat) (j loc : Int) (found : Bool), 0 ≤ j →
      (∀ q, j ≤ q → ¬ (charAt txt q = some '}' ∧ charAt txt (q + 1) = some '/')) →
      ((txt.length : Int) - 1 - j).toNat < fuel →
      getRoot.searchRight txt fuel j loc found = Result.ok (loc, found) := by
  intro fuel
  induction fuel with
  | zero => intro j loc found _ _ h; omega
  | succ fuel ih =>
    intro j loc found h0 hno hfuel
    by_cases hlt : j < (txt.length : Int) - 1
    · rw [getRoot.searchRight, if_pos hlt]
      obtain ⟨a, ha⟩ := charAt_isSome (s := txt) (i := j) ⟨h0, by omega⟩
      obtain ⟨b, hb⟩ := charAt_isSome (s := txt) (i := j + 1) ⟨by omega, by omega⟩
      rw [slice_two ha hb]
      have hne : [a, b] ≠ ['}', '/'] := by
        intro h
        simp only [List.cons.injEq, and_true] at h
        exact hno j (le_refl j) ⟨by rw [ha, h.1], by rw [hb, h.2]⟩
      simp only [Result.ok_bind, if_neg hne]
      exact ih (j + 1) loc found (by omega) (fun q hq => hno q (by omega)) (by omega)
    · rw [getRoot.searchRight, if_neg hlt]
      rfl

theorem getRoot_searchLeft_eq (txt : Str) :
    ∀ (fuel : Nat) (j loc : Int) (found : Bool), j ≤ (txt.length : Int) → j.toNat < fuel →
      getRoot.searchLeft txt fuel j loc found = Result.ok (loc, found) := by
  intro fuel j loc found hj hfuel
  obtain ⟨hnd, hr⟩ := getRoot_searchLeft_spec txt fuel j loc found hfuel
  have hnf : ∀ (fuel : Nat) (j : Int), j ≤ (txt.length : Int) →
      ∀ e, getRoot.searchLeft txt fuel j loc found ≠ Result.fail e := by
    intro fuel
    induction fuel with
    | zero => intro j _ e; simp [getRoot.searchLeft]
    | succ fuel ih =>
      intro j hj e
      by_cases hgt : j > 0
      · rw [getRoot.searchLeft, if_pos hgt]
        have hs := slice_of_bounds txt (j - 1) j (by omega) (by omega) hj
        have hlen := slice_length hs
        rw [hs]
        have hne : List.take (j.toNat - (j - 1).toNat) (List.drop (j - 1).toNat txt)
            ≠ ['/', '{'] := by
          intro h
          rw [h] at hlen
          simp at hlen
        simp only [Result.ok_bind, if_neg hne]
        exact ih (j - 1) (by omega) e
      · rw [getRoot.searchLeft, if_neg hgt]
        simp
  cases h : getRoot.searchLeft txt fuel j loc found with
  | ok r => rw [hr r h]
  | fail e => exact absurd h (hnf fuel j hj e)
  | diverge => exact absurd h hnd

/-- The closure `getRoot` returns `loc` itself when no `}` after `loc` is
immediately followed by `/`. -/
theorem getRoot_eq_self (loc : Int) (txt : Str) (h0 : 0 ≤ loc)
    (h1 : loc ≤ (txt.length : Int))
    (hno : ∀ q, loc < q → ¬ (charAt txt q = some '}' ∧ charAt txt (q + 1) = some '/')) :
    getRoot loc txt = Result.ok loc := by
  unfold getRoot
  rw [getRoot.loop, if_pos rfl,
    getRoot_searchRight_eq txt _ (loc + 1) loc false (by omega)
      (fun q hq => hno q (by omega)) (by omega)]
  simp only [Result.ok_bind]
  rw [getRoot_searchLeft_eq txt _ (loc - 1) loc false (by omega) (by omega)]
  simp only [Result.ok_bind]
  rw [getRoot.loop]
  simp

theorem getChildrenOf_rightLoop_eq (txt : Str) (e : Int) :
    ∀ (fuel : Nat) (i : Int), 0 ≤ i → i ≤ e → e ≤ (txt.length : Int) →
      (∀ q c, i ≤ q → q < e → charAt txt q = some c → c ≠ ' ' ∧ c ≠ '}') →
      (∀ c, charAt txt e = some c → c = ' ' ∨ c = '}') →
      (e - i).toNat < fuel →
      getChildrenOf.rightLoop txt fuel i = Result.ok e := by
  intro fuel
  induction fuel with
  | zero => intro i _ _ _ _ _ h; omega
  | succ fuel ih =>
    intro i h0 hie he hmid hend hfuel
    by_cases hlt : i < (txt.length : Int)
    · rw [getChildrenOf.rightLoop, if_pos hlt]
      obtain ⟨c, hc⟩ := charAt_isSome (s := txt) (i := i) ⟨h0, hlt⟩
      rw [index_of_charAt hc]
      simp only [Result.ok_bind]
      by_cases hi : i = e
      · subst hi
        have := hend c hc
        have hcond : ¬ (c ≠ ' ' ∧ c ≠ '}') := by
          rcases this with h | h <;> simp [h]
        rw [if_neg hcond]
        rfl
      · rw [if_pos (hmid i c (le_refl i) (by omega) hc)]
        exact ih (i + 1) (by omega) (by omega) he
          (fun q c hq1 hq2 => hmid q c (by omega) hq2) hend (by omega)
    · rw [getChildrenOf.rightLoop, if_neg hlt]
      have : i = e := by omega
      rw [this]
      rfl

theorem getChildrenOf_leftLoop_eq (txt : Str) (e : Int) :
    ∀ (fuel : Nat) (i : Int), -1 ≤ e → e ≤ i → i < (txt.length : Int) →
      (∀ q c, e < q → q ≤ i → charAt txt q = some c → c ≠ ' ' ∧ c ≠ '{') →
      (∀ c, charAt txt e = some c → c = ' ' ∨ c = '{') →
      (i - e).toNat < fuel →
      getChildrenOf.leftLoop txt fuel i = Result.ok e := by
  intro fuel
  induction fuel with
  | zero => intro i _ _ _ _ _ h; omega
  | succ fuel ih =>
    intro i he hei hi hmid hend hfuel
    by_cases hge : i ≥ 0
    · rw [getChildrenOf.leftLoop, if_pos hge]
      obtain ⟨c, hc⟩ := charAt_isSome (s := txt) (i := i) ⟨hge, hi⟩
      rw [index_of_charAt hc]
      simp only [Result.ok_bind]
      by_cases hie : i = e
      · subst hie
        have := hend c hc
        have hcond : ¬ (c ≠ ' ' ∧ c ≠ '{') := by
          rcases this with h | h <;> simp [h]
        rw [if_neg hcond]
        rfl
      · rw [if_pos (hmid i c (by omega) (le_refl i) hc)]
        exact ih (i - 1) he (by omega) (by omega)
          (fun q c hq1 hq2 => hmid q c hq1 (by omega)) hend (by omega)
    · rw [getChildrenOf.leftLoop, if_neg hge]
      have : i = e := by omega
      rw [this]
      rfl

theorem getType_eq {s : Str} {loc : Int} {c : Char} (h : charAt s loc = some c) :
    getType loc s = Result.ok (if c = '{' ∨ c = '}' then "bracket" else "nobracket") := by
  unfold getType
  rw [index_of_charAt h]
  simp only [Result.ok_bind]
  split <;> rfl

theorem getMatchingBracket_eq_of_first (str : Str) (d : Direction) (loc : Int) (K : Nat)
    (hin : InBuffer str loc) (hlast : loc ≠ (str.length : Int) - 1)
    (hinK : InBuffer str (d.pos loc K)) (hz : runningDepth str d loc K = 0)
    (hpos : ∀ j, j < K → 0 < runningDepth str d loc j) :
    getMatchingBracket str loc d = Result.ok (d.pos loc K) := by
  rcases getMatchingBracket_total str d loc hin hlast with
    ⟨k, _, _, hkz, hkp, heq⟩ | ⟨hall, _⟩
  · have hk : k = K := by
      rcases Nat.lt_trichotomy k K with h | h | h
      · have := hpos k h; omega
      · exact h
      · have := hkp K h; omega
    rw [heq, hk]
  · have := hall K hinK
    omega

theorem braceDelta_of_not_brace (d : Direction) (c : Char) (h1 : c ≠ '{') (h2 : c ≠ '}') :
    braceDelta d (some c) = 0 := by
  unfold braceDelta
  split <;> simp_all

theorem runningDepth_const (str : Str) (d : Direction) (loc : Int) :
    ∀ k : Nat, (∀ j : Nat, 1 ≤ j → j ≤ k → braceDelta d (charAt str (d.pos loc j)) = 0) →
      runningDepth str d loc k = 1 := by
  intro k
  induction k with
  | zero => intro _; rfl
  | succ k ih =>
    intro h
    rw [runningDepth, ih (fun j h1 h2 => h j h1 (by omega)), h (k + 1) (by omega) (le_refl _)]
    rfl

theorem charAt_brace_right (X M T : Str) (k : Nat) :
    charAt (X ++ '{' :: (M ++ T)) (Direction.Right.pos (X.length : Int) (k + 1))
      = charAt (M ++ T) (k : Int) := by
  have e : Direction.Right.pos (X.length : Int) (k + 1) = (X.length : Int) + ((k : Int) + 1) := by
    simp [Direction.pos]
  rw [e, charAt_append_right (by omega)]
  have e2 : (X.length : Int) + ((k : Int) + 1) - (X.length : Int) = (k : Int) + 1 := by omega
  rw [e2, charAt_cons_succ _ _ _ (by omega)]

/-- The scan to the right from an open brace whose group `{M}` has no inner
brace returns the index of the close brace. -/
theorem getMatchingBracket_right_braced (X M Y : Str) (hM1 : '{' ∉ M) (hM2 : '}' ∉ M) :
    getMatchingBracket (X ++ '{' :: (M ++ '}' :: Y)) (X.length : Int) Direction.Right
      = Result.ok ((X.length : Int) + (M.length : Int) + 1) := by
  have hd : ∀ j : Nat, 1 ≤ j → j ≤ M.length →
      braceDelta Direction.Right
        (charAt (X ++ '{' :: (M ++ '}' :: Y)) (Direction.Right.pos (X.length : Int) j)) = 0 := by
    intro j h1 h2
    obtain ⟨k, rfl⟩ : ∃ k, j = k + 1 := ⟨j - 1, by omega⟩
    rw [charAt_brace_right, charAt_append_left (by omega)]
    obtain ⟨c, hc⟩ := charAt_isSome (s := M) (i := (k : Int)) ⟨by omega, by omega⟩
    rw [hc]
    have hmem := charAt_mem hc
    exact braceDelta_of_not_brace _ c (fun h => hM1 (h ▸ hmem)) (fun h => hM2 (h ▸ hmem))
  have hK : Direction.Right.pos (X.length : Int) (M.length + 1)
      = (X.length : Int) + (M.length : Int) + 1 := by
    simp only [Direction.pos]
    push_cast
    omega
  rw [← hK]
  refine getMatchingBracket_eq_of_first _ _ _ _ ⟨by omega, by simp; omega⟩
    (by simp; omega) ?_ ?_ ?_
  · rw [hK]
    refine ⟨by omega, ?_⟩
    simp only [List.length_append, List.length_cons]
    push_cast
    omega
  · rw [runningDepth, runningDepth_const _ _ _ _ hd, charAt_brace_right,
      charAt_length_cons]
    rfl
  · intro j hj
    rw [runningDepth_const _ _ _ j (fun i h1 h2 => hd i h1 (by omega))]
    omega

/-- The scan to the left from the close brace of a group `{M}` with no inner
brace, when something follows the group, returns the index of the open brace. -/
theorem getMatchingBracket_left_braced (X M Y : Str) (hM1 : '{' ∉ M) (hM2 : '}' ∉ M)
    (hY : Y ≠ []) :
    getMatchingBracket (X ++ '{' :: (M ++ '}' :: Y))
      ((X.length : Int) + (M.length : Int) + 1) Direction.Left
      = Result.ok (X.length : Int) := by
  refine getMatchingBracket_left_of_right _ _ _ (charAt_length_cons X _ '{')
    (getMatchingBracket_right_braced X M Y hM1 hM2) ?_
  have : 0 < Y.length := List.length_pos.mpr hY
  simp only [List.length_append, List.length_cons]
  push_cast
  omega

theorem braceDelta_right_nonneg (c : Option Char) (h : c ≠ some '}') :
    0 ≤ braceDelta Direction.Right c := by
  unfold braceDelta
  split <;> simp_all

/-- The scan to the right from an open brace after which no `}` occurs aborts:
at once if the brace is the last byte, else by leaving the buffer. -/
theorem getMatchingBracket_right_unclosed (X B : Str) (hB : '}' ∉ B) :
    getMatchingBracket (X ++ '{' :: B) (X.length : Int) Direction.Right
      = Result.fail (if B = [] then Failure.openBracketAtEnd else Failure.scanPastBuffer) := by
  by_cases hnil : B = []
  · subst hnil
    simp [getMatchingBracket]
  · rw [if_neg hnil]
    have hlen : 0 < B.length := List.length_pos.mpr hnil
    have hge : ∀ k : Nat, 1 ≤ runningDepth (X ++ '{' :: B) Direction.Right (X.length : Int) k := by
      intro k
      induction k with
      | zero => simp [runningDepth]
      | succ k ih =>
        rw [runningDepth]
        have h := charAt_brace_right X B [] k
        rw [List.append_nil] at h
        rw [h]
        have := braceDelta_right_nonneg (charAt B (k : Int))
          (fun hc => hB (charAt_mem hc))
        omega
    rcases getMatchingBracket_total (X ++ '{' :: B) Direction.Right (X.length : Int)
        ⟨by omega, by simp⟩ (by simp; omega) with ⟨k, _, _, hz, _, _⟩ | ⟨_, h⟩
    · have := hge k
      omega
    · exact h

theorem fixBracket_wrap (s : Str) (hne : s ≠ []) (h : '{' ∉ s) :
    fixBracket s = Result.ok ('{' :: s ++ ['}']) := by
  have hlen : 0 < s.length := List.length_pos.mpr hne
  obtain ⟨c, hc⟩ := charAt_isSome (s := s) (i := 0) ⟨le_refl 0, by omega⟩
  have hcne : c ≠ '{' := fun e => h (e ▸ charAt_mem hc)
  unfold fixBracket
  rw [index_of_charAt hc]
  simp only [Result.ok_bind, if_neg hcne]
  rfl

theorem fixBracket_keep (M : Str) :
    fixBracket ('{' :: (M ++ ['}'])) = Result.ok ('{' :: (M ++ ['}'])) := by
  have h0 : charAt ('{' :: (M ++ ['}'])) 0 = some '{' := by simp [charAt]
  have h1 : charAt ('{' :: (M ++ ['}'])) ((('{' :: (M ++ ['}'])).length : Int) - 1)
      = some '}' := by
    have h := charAt_length_cons ('{' :: M) [] '}'
    have e : ((('{' :: (M ++ ['}'])).length : Int) - 1) = (('{' :: M).length : Int) := by
      simp
    rw [e]
    exact h
  unfold fixBracket
  rw [index_of_charAt h0, index_of_charAt h1]
  simp

theorem slice_of_eq (s p m q : Str) (hs : s = p ++ (m ++ q)) (lo hi : Int)
    (hlo : lo = (p.length : Int)) (hhi : hi = (p.length : Int) + (m.length : Int)) :
    slice s lo hi = Result.ok m := by
  rw [hs]
  exact slice_of_append p m q lo hi hlo hhi

/-- The splice, for a buffer given by the text before the left operand, the
two operands and the text after the right operand. -/
theorem replaceFracChildren_decomp (pre L R post l' r' : Str) (r : Int)
    (hl : fixBracket L = Result.ok l') (hr : fixBracket R = Result.ok r') :
    replaceFracChildren r
        (((pre.length : Int) + (L.length : Int) + 1,
          (pre.length : Int) + (L.length : Int) + (R.length : Int)),
         ((pre.length : Int), (pre.length : Int) + (L.length : Int) - 1))
        (pre ++ (L ++ '/' :: (R ++ post)))
      = Result.ok (pre ++ fracLit ++ l' ++ r' ++ post) := by
  have h1 : slice (pre ++ (L ++ '/' :: (R ++ post)))
      ((pre.length : Int) + (L.length : Int) + 1)
      ((pre.length : Int) + (L.length : Int) + (R.length : Int) + 1) = Result.ok R :=
    slice_of_eq _ (pre ++ L ++ ['/']) R post (by simp) _ _ (by simp; omega) (by simp; omega)
  have h2 : slice (pre ++ (L ++ '/' :: (R ++ post))) (pre.length : Int)
      ((pre.length : Int) + (L.length : Int) - 1 + 1) = Result.ok L :=
    slice_of_eq _ pre L ('/' :: (R ++ post)) rfl _ _ rfl (by omega)
  have h3 : slice (pre ++ (L ++ '/' :: (R ++ post))) 0 (pre.length : Int) = Result.ok pre :=
    slice_of_eq _ [] pre (L ++ '/' :: (R ++ post)) (by simp) _ _ (by simp) (by simp)
  have h4 : slice (pre ++ (L ++ '/' :: (R ++ post)))
      ((pre.length : Int) + (L.length : Int) + (R.length : Int) + 1)
      ((pre ++ (L ++ '/' :: (R ++ post))).length : Int) = Result.ok post :=
    slice_of_eq _ (pre ++ L ++ '/' :: R) post [] (by simp) _ _ (by simp; omega)
      (by simp; omega)
  unfold replaceFracChildren sliceFrom
  simp only [h1, h2, h3, h4, hl, hr, Result.ok_bind, Result.pure_eq]

/-- Assembly of `getChildrenOf` from its parts. -/
theorem getChildrenOf_eq (root : Int) (txt : Str) (rt lt : String) (c01 c10 : Int)
    (h1 : getType (root + 1) txt = Result.ok rt) (h2 : getType (root - 1) txt = Result.ok lt)
    (h3 : getChildrenOf.rightEnd root txt rt = Result.ok c01)
    (h4 : c01 ≠ (txt.length : Int))
    (h5 : getChildrenOf.leftStart root txt lt = Result.ok c10) :
    getChildrenOf root txt = Result.ok ((root + 1, c01), (c10, root - 1)) := by
  unfold getChildrenOf
  simp only [h1, h2, h3, h5, Result.ok_bind, Result.pure_eq, if_neg h4]

/-- The scan finds the `/` between `P` and `Q` when `P` has no `/` and the two
bytes around the `/` are not spaces. -/
theorem hasFractions_decomp (P Q : Str) (hP : '/' ∉ P) (hPne : P ≠ []) (hQne : Q ≠ [])
    (hPl : ∀ c, charAt P ((P.length : Int) - 1) = some c → c ≠ ' ')
    (hQf : ∀ c, charAt Q 0 = some c → c ≠ ' ') :
    hasFractions (P ++ '/' :: Q) = Result.ok (true, (P.length : Int)) := by
  have hPlen : 0 < P.length := List.length_pos.mpr hPne
  have hQlen : 0 < Q.length := List.length_pos.mpr hQne
  refine hasFractions_eq_of_first _ _ ⟨by omega, by simp; omega, charAt_length_cons P Q '/',
    ?_, ?_⟩ ?_
  · rw [charAt_append_left (by omega)]
    intro h
    exact hPl ' ' h rfl
  · rw [charAt_append_right (by omega)]
    have e : (P.length : Int) + 1 - (P.length : Int) = 0 + 1 := by omega
    rw [e, charAt_cons_succ _ _ _ (le_refl 0)]
    intro h
    exact hQf ' ' h rfl
  · intro q hq hf
    have h := hf.2.2.1
    rw [charAt_append_left hq] at h
    exact hP (charAt_mem h)

theorem charAt_ne_of_not_mem {s : Str} {x : Char} (h : x ∉ s) (i : Int) (c : Char)
    (hc : charAt s i = some c) : c ≠ x :=
  fun e => h (e ▸ charAt_mem hc)

/-- End of a bare right operand `R`: the scan from the `/` runs over `R` and
stops at the end of the buffer, at a space or at a `}`. -/
theorem getChildrenOf_rightEnd_bare (P R post : Str)
    (hR1 : ' ' ∉ R) (hR2 : '}' ∉ R)
    (hpost : ∀ c, charAt post 0 = some c → c = ' ' ∨ c = '}') :
    getChildrenOf.rightEnd (P.length : Int) (P ++ '/' :: (R ++ post)) "nobracket"
      = Result.ok ((P.length : Int) + (R.length : Int)) := by
  unfold getChildrenOf.rightEnd
  rw [if_pos rfl, getChildrenOf_rightLoop_eq _ ((P.length : Int) + 1 + (R.length : Int)) _ _
    (by omega) (by omega) (by simp; omega) ?_ ?_ (by simp; omega)]
  · simp only [Result.ok_bind, Result.pure_eq, Result.ok.injEq]
    omega
  · intro q c hq1 hq2 hc
    rcases charAt_slash_cases hc with ⟨h, _⟩ | ⟨_, h⟩ | ⟨h1, _, h2⟩
    · omega
    · subst h
      exact ⟨by decide, by decide⟩
    · rw [charAt_append_left (by omega)] at h2
      exact ⟨charAt_ne_of_not_mem hR1 _ c h2, charAt_ne_of_not_mem hR2 _ c h2⟩
  · intro c hc
    rcases charAt_slash_cases hc with ⟨h, _⟩ | ⟨h, _⟩ | ⟨_, _, h2⟩
    · omega
    · omega
    · rw [charAt_append_right (by omega)] at h2
      have e : (P.length : Int) + 1 + (R.length : Int) - (P.length : Int) - 1
          - (R.length : Int) = 0 := by omega
      rw [e] at h2
      exact hpost c h2

/-- Start of a bare left operand `L`: the scan leftwards from the byte before
the `/` runs over `L` and stops before the buffer, at a space or at a `{`. -/
theorem getChildrenOf_leftStart_bare (pre L Q : Str)
    (hL1 : ' ' ∉ L) (hL2 : '{' ∉ L)
    (hpre : ∀ c, charAt pre ((pre.length : Int) - 1) = some c → c = ' ' ∨ c = '{') :
    getChildrenOf.leftStart ((pre.length : Int) + (L.length : Int))
        (pre ++ (L ++ '/' :: Q)) "nobracket"
      = Result.ok (pre.length : Int) := by
  unfold getChildrenOf.leftStart
  rw [if_pos rfl, getChildrenOf_leftLoop_eq _ ((pre.length : Int) - 1) _ _
    (by omega) (by omega) (by simp; omega) ?_ ?_ (by simp; omega)]
  · simp only [Result.ok_bind, Result.pure_eq, Result.ok.injEq]
    omega
  · intro q c hq1 hq2 hc
    rw [charAt_append_right (by omega), charAt_append_left (by omega)] at hc
    exact ⟨charAt_ne_of_not_mem hL1 _ c hc, charAt_ne_of_not_mem hL2 _ c hc⟩
  · intro c hc
    rw [charAt_append_left (by omega)] at hc
    exact hpre c hc

/-- End of a braced right operand `{M}` with no inner brace. -/
theorem getChildrenOf_rightEnd_braced (P M post : Str) (hM1 : '{' ∉ M) (hM2 : '}' ∉ M) :
    getChildrenOf.rightEnd (P.length : Int) (P ++ '/' :: ('{' :: (M ++ ['}']) ++ post))
        "bracket"
      = Result.ok ((P.length : Int) + (('{' :: (M ++ ['}'])).length : Int)) := by
  unfold getChildrenOf.rightEnd
  rw [if_neg (by decide), if_pos rfl]
  have h := getMatchingBracket_right_braced (P ++ ['/']) M post hM1 hM2
  have e1 : (P ++ ['/']) ++ '{' :: (M ++ '}' :: post)
      = P ++ '/' :: ('{' :: (M ++ ['}']) ++ post) := by simp
  have e2 : (((P ++ ['/']).length : Nat) : Int) = (P.length : Int) + 1 := by simp
  rw [e1, e2] at h
  rw [h]
  simp only [List.length_cons, List.length_append, List.length_nil]
  push_cast
  congr 1
  omega

/-- Start of a braced left operand `{M}` with no inner brace. -/
theorem getChildrenOf_leftStart_braced (pre M Q : Str) (hM1 : '{' ∉ M) (hM2 : '}' ∉ M) :
    getChildrenOf.leftStart ((pre.length : Int) + (('{' :: (M ++ ['}'])).length : Int))
        (pre ++ ('{' :: (M ++ ['}']) ++ '/' :: Q)) "bracket"
      = Result.ok (pre.length : Int) := by
  unfold getChildrenOf.leftStart
  rw [if_neg (by decide), if_pos rfl]
  have h := getMatchingBracket_left_braced pre M ('/' :: Q) hM1 hM2 (by simp)
  have e1 : pre ++ '{' :: (M ++ '}' :: '/' :: Q)
      = pre ++ ('{' :: (M ++ ['}']) ++ '/' :: Q) := by simp
  have e2 : (pre.length : Int) + (M.length : Int) + 1
      = (pre.length : Int) + (('{' :: (M ++ ['}'])).length : Int) - 1 := by
    simp only [List.length_cons, List.length_append, List.length_nil]
    push_cast
    omega
  rw [e1, e2] at h
  exact h

/-- One pass of the loop of `replaceFrac` on a buffer given by its parts. -/
theorem replaceFrac_step_decomp (pre L R post l' r' : Str) (rt lt : String)
    (hs1 : '/' ∉ pre) (hs2 : '/' ∉ L) (hLne : L ≠ []) (hRne : R ≠ [])
    (hLl : ∀ c, charAt L ((L.length : Int) - 1) = some c → c ≠ ' ')
    (hRf : ∀ c, charAt R 0 = some c → c ≠ ' ')
    (hroot : ∀ q, (pre.length : Int) + (L.length : Int) < q →
      ¬ (charAt (pre ++ (L ++ '/' :: (R ++ post))) q = some '}' ∧
        charAt (pre ++ (L ++ '/' :: (R ++ post))) (q + 1) = some '/'))
    (hrt : getType ((pre.length : Int) + (L.length : Int) + 1)
      (pre ++ (L ++ '/' :: (R ++ post))) = Result.ok rt)
    (hlt : getType ((pre.length : Int) + (L.length : Int) - 1)
      (pre ++ (L ++ '/' :: (R ++ post))) = Result.ok lt)
    (hright : getChildrenOf.rightEnd ((pre.length : Int) + (L.length : Int))
      (pre ++ (L ++ '/' :: (R ++ post))) rt
        = Result.ok ((pre.length : Int) + (L.length : Int) + (R.length : Int)))
    (hleft : getChildrenOf.leftStart ((pre.length : Int) + (L.length : Int))
      (pre ++ (L ++ '/' :: (R ++ post))) lt = Result.ok (pre.length : Int))
    (hl : fixBracket L = Result.ok l') (hr : fixBracket R = Result.ok r') :
    replaceFrac.step (pre ++ (L ++ '/' :: (R ++ post)))
      = Result.ok (some (pre ++ fracLit ++ l' ++ r' ++ post)) := by
  have hLlen : 0 < L.length := List.length_pos.mpr hLne
  have hRlen : 0 < R.length := List.length_pos.mpr hRne
  have hfrac : hasFractions (pre ++ (L ++ '/' :: (R ++ post)))
      = Result.ok (true, (pre.length : Int) + (L.length : Int)) := by
    have h := hasFractions_decomp (pre ++ L) (R ++ post)
      (by simp only [List.mem_append, not_or]; exact ⟨hs1, hs2⟩) (by simp [hLne])
      (by simp [hRne]) ?_ ?_
    · rw [List.append_assoc] at h
      rw [h]
      simp
    · intro c hc
      rw [charAt_append_right (by simp; omega)] at hc
      have e : (((pre ++ L).length : Nat) : Int) - 1 - (pre.length : Int)
          = (L.length : Int) - 1 := by
        simp only [List.length_append]
        push_cast
        omega
      rw [e] at hc
      exact hLl c hc
    · intro c hc
      rw [charAt_append_left (by omega)] at hc
      exact hRf c hc
  have hr0 := getRoot_eq_self ((pre.length : Int) + (L.length : Int))
    (pre ++ (L ++ '/' :: (R ++ post))) (by omega) (by simp; omega) hroot
  have hch := getChildrenOf_eq _ _ rt lt _ _ hrt hlt hright (by simp; omega) hleft
  unfold replaceFrac.step
  rw [hfrac]
  simp only [Result.ok_bind, if_true, hr0, hch]
  rw [replaceFracChildren_decomp pre L R post l' r' _ hl hr]
  rfl

theorem replaceFrac_of_step {x s : Str} (h : replaceFrac.step x = Result.ok (some s)) :
    replaceFrac x = replaceFrac s := by
  have hc := replaceFrac_step_count h
  unfold replaceFrac
  rw [← hc, replaceFrac.loop, h]

theorem replaceFrac_of_step_fail {x : Str} {e : Failure}
    (h : replaceFrac.step x = Result.fail e) : replaceFrac x = Result.fail e := by
  unfold replaceFrac
  rw [replaceFrac.loop, h]

theorem replaceFrac_of_no_slash (x : Str) (h : '/' ∉ x) : replaceFrac x = Result.ok x :=
  replaceFrac_loop_of_none x (fun _ hq => h (charAt_mem hq.2.2.1)) _

/-! ## Claims about the rewriting of fractions -/

/-- C4: for non-empty `a` and `b` that contain none of ` `, `/`, `{`, `}`,
`replaceFrac(a + "/" + b)` returns `"\frac{" + a + "}{" + b + "}"`. -/
theorem replaceFrac_simple_fraction (a b : Str) (ha : a ≠ []) (hb : b ≠ [])
    (ha1 : ' ' ∉ a) (ha2 : '/' ∉ a) (ha3 : '{' ∉ a) (ha4 : '}' ∉ a)
    (hb1 : ' ' ∉ b) (hb2 : '/' ∉ b) (hb3 : '{' ∉ b) (hb4 : '}' ∉ b) :
    replaceFrac (a ++ ['/'] ++ b)
      = Result.ok (['\\', 'f', 'r', 'a', 'c', '{'] ++ a ++ ['}', '{'] ++ b ++ ['}']) := by
  have hblen : 0 < b.length := List.length_pos.mpr hb
  have halen : 0 < a.length := List.length_pos.mpr ha
  obtain ⟨cb, hcb⟩ := charAt_isSome (s := b) (i := 0) ⟨le_refl 0, by omega⟩
  obtain ⟨ca, hca⟩ := charAt_isSome (s := a) (i := (a.length : Int) - 1) ⟨by omega, by omega⟩
  have hstep := replaceFrac_step_decomp [] a b [] _ _ "nobracket" "nobracket"
    (by simp) ha2 ha hb (fun c hc => charAt_ne_of_not_mem ha1 _ c hc)
    (fun c hc => charAt_ne_of_not_mem hb1 _ c hc)
    (by
      intro q hq ⟨h1, _⟩
      simp only [List.nil_append, List.append_nil, List.length_nil, Nat.cast_zero,
        zero_add] at hq h1
      rcases charAt_slash_cases h1 with ⟨h, _⟩ | ⟨h, _⟩ | ⟨_, h, _⟩
      · omega
      · omega
      · exact hb4 h)
    (by
      have h : charAt ([] ++ (a ++ '/' :: (b ++ [])))
          ((([] : Str).length : Int) + (a.length : Int) + 1) = some cb := by
        simp only [List.nil_append, List.append_nil, List.length_nil, Nat.cast_zero,
          zero_add]
        rw [charAt_append_right (by omega)]
        have e : (a.length : Int) + 1 - (a.length : Int) = 0 + 1 := by omega
        rw [e, charAt_cons_succ _ _ _ (le_refl 0)]
        exact hcb
      rw [getType_eq h, if_neg]
      have := charAt_ne_of_not_mem hb3 _ _ hcb
      have := charAt_ne_of_not_mem hb4 _ _ hcb
      simp [*])
    (by
      have h : charAt ([] ++ (a ++ '/' :: (b ++ [])))
          ((([] : Str).length : Int) + (a.length : Int) - 1) = some ca := by
        simp only [List.nil_append, List.append_nil, List.length_nil, Nat.cast_zero,
          zero_add]
        rw [charAt_append_left (by omega)]
        exact hca
      rw [getType_eq h, if_neg]
      have := charAt_ne_of_not_mem ha3 _ _ hca
      have := charAt_ne_of_not_mem ha4 _ _ hca
      simp [*])
    (by
      have h := getChildrenOf_rightEnd_bare a b [] hb1 hb4 (by simp [charAt])
      simpa using h)
    (by
      have h := getChildrenOf_leftStart_bare [] a (b ++ []) ha1 ha3 (by simp [charAt])
      simpa using h)
    (fixBracket_wrap a ha ha3) (fixBracket_wrap b hb hb3)
  have e1 : a ++ ['/'] ++ b = [] ++ (a ++ '/' :: (b ++ [])) := by simp
  rw [e1, replaceFrac_of_step hstep, replaceFrac_of_no_slash]
  · simp [fracLit]
  · simp [fracLit, ha2, hb2]

/-- Witness of C4: `a/b` gives `\frac{a}{b}`. -/
theorem replaceFrac_simple_fraction_witness :
    replaceFrac (['a'] ++ ['/'] ++ ['b'])
      = Result.ok (['\\', 'f', 'r', 'a', 'c', '{'] ++ ['a'] ++ ['}', '{'] ++ ['b'] ++ ['}']) :=
  replaceFrac_simple_fraction ['a'] ['b'] (by decide) (by decide) (by decide) (by decide)
    (by decide) (by decide) (by decide) (by decide) (by decide) (by decide)

theorem charAt_braced_last (M : Str) :
    charAt ('{' :: (M ++ ['}'])) ((('{' :: (M ++ ['}'])).length : Int) - 1) = some '}' := by
  have h := charAt_length_cons ('{' :: M) [] '}'
  have e : ((('{' :: (M ++ ['}'])).length : Int) - 1) = (('{' :: M).length : Int) := by
    simp
  rw [e]
  exact h

theorem charAt_braced_first (M : Str) : charAt ('{' :: (M ++ ['}'])) 0 = some '{' := by
  simp [charAt]

/-- C5: for `a` and `b` (possibly empty) that contain none of `/`, `{`, `}`,
`replaceFrac("{" + a + "}/{" + b + "}")` returns `"\frac{" + a + "}{" + b + "}"`:
no second pair of braces is put around either operand. -/
theorem replaceFrac_no_double_wrapping (a b : Str)
    (ha2 : '/' ∉ a) (ha3 : '{' ∉ a) (ha4 : '}' ∉ a)
    (hb2 : '/' ∉ b) (hb3 : '{' ∉ b) (hb4 : '}' ∉ b) :
    replaceFrac (['{'] ++ a ++ ['}', '/', '{'] ++ b ++ ['}'])
      = Result.ok (['\\', 'f', 'r', 'a', 'c', '{'] ++ a ++ ['}', '{'] ++ b ++ ['}']) := by
  have hstep := replaceFrac_step_decomp [] ('{' :: (a ++ ['}'])) ('{' :: (b ++ ['}'])) [] _ _
    "bracket" "bracket" (by simp) (by simp [ha2]) (by simp) (by simp)
    (by
      intro c hc
      rw [charAt_braced_last] at hc
      simp only [Option.some.injEq] at hc
      subst hc
      decide)
    (by
      intro c hc
      rw [charAt_braced_first] at hc
      simp only [Option.some.injEq] at hc
      subst hc
      decide)
    (by
      intro q hq ⟨_, h2⟩
      rw [List.nil_append] at h2
      rcases charAt_slash_cases h2 with ⟨h, _⟩ | ⟨h, _⟩ | ⟨_, h, _⟩
      · simp only [List.length_nil, Nat.cast_zero, zero_add] at hq
        omega
      · simp only [List.length_nil, Nat.cast_zero, zero_add] at hq
        omega
      · simp [hb2] at h)
    (by
      have h : charAt ([] ++ ('{' :: (a ++ ['}']) ++ '/' :: ('{' :: (b ++ ['}']) ++ [])))
          ((([] : Str).length : Int) + (('{' :: (a ++ ['}'])).length : Int) + 1)
          = some '{' := by
        rw [List.nil_append, charAt_append_right (by simp)]
        simp [charAt]
      rw [getType_eq h]
      rfl)
    (by
      have h : charAt ([] ++ ('{' :: (a ++ ['}']) ++ '/' :: ('{' :: (b ++ ['}']) ++ [])))
          ((([] : Str).length : Int) + (('{' :: (a ++ ['}'])).length : Int) - 1)
          = some '}' := by
        rw [List.nil_append, charAt_append_left (by simp)]
        have := charAt_braced_last a
        simpa using this
      rw [getType_eq h]
      rfl)
    (by
      have h := getChildrenOf_rightEnd_braced ('{' :: (a ++ ['}'])) b [] hb3 hb4
      simpa using h)
    (by
      have h := getChildrenOf_leftStart_braced [] a ('{' :: (b ++ ['}']) ++ []) ha3 ha4
      simpa using h)
    (fixBracket_keep a) (fixBracket_keep b)
  have e1 : ['{'] ++ a ++ ['}', '/', '{'] ++ b ++ ['}']
      = [] ++ ('{' :: (a ++ ['}']) ++ '/' :: ('{' :: (b ++ ['}']) ++ [])) := by simp
  rw [e1, replaceFrac_of_step hstep, replaceFrac_of_no_slash]
  · simp [fracLit]
  · simp [fracLit, ha2, hb2]

/-- Witness of C5: `{a}/{b}` gives `\frac{a}{b}`. -/
theorem replaceFrac_no_double_wrapping_witness :
    replaceFrac (['{'] ++ ['a'] ++ ['}', '/', '{'] ++ ['b'] ++ ['}'])
      = Result.ok (['\\', 'f', 'r', 'a', 'c', '{'] ++ ['a'] ++ ['}', '{'] ++ ['b'] ++ ['}']) :=
  replaceFrac_no_double_wrapping ['a'] ['b'] (by decide) (by decide) (by decide)
    (by decide) (by decide) (by decide)

theorem no_close_slash_of_last (W : Str) (h : '}' ∉ W) (q : Int) :
    ¬ (charAt (W ++ ['}']) q = some '}' ∧ charAt (W ++ ['}']) (q + 1) = some '/') := by
  rintro ⟨h1, h2⟩
  rcases charAt_append_cases h1 with ⟨_, hm⟩ | ⟨hq, _⟩
  · exact h hm
  · have := (charAt_inBuffer h2).2
    simp only [List.length_append, List.length_cons, List.length_nil] at this
    push_cast at this
    omega

/-- One pass of the loop on two bare operands `b` and `c` around the first `/`,
between a text `pre` that ends the left scan and a text `post` that ends the
right scan. -/
theorem replaceFrac_step_bare (pre b c post : Str)
    (hpre1 : '/' ∉ pre) (hpost1 : '/' ∉ post)
    (hpre : ∀ x, charAt pre ((pre.length : Int) - 1) = some x → x = ' ' ∨ x = '{')
    (hpost : ∀ x, charAt post 0 = some x → x = ' ' ∨ x = '}')
    (hbne : b ≠ []) (hcne : c ≠ [])
    (hb1 : ' ' ∉ b) (hb2 : '/' ∉ b) (hb3 : '{' ∉ b) (hb4 : '}' ∉ b)
    (hc1 : ' ' ∉ c) (hc2 : '/' ∉ c) (hc3 : '{' ∉ c) (hc4 : '}' ∉ c) :
    replaceFrac.step (pre ++ (b ++ '/' :: (c ++ post)))
      = Result.ok (some (pre ++ fracLit ++ ('{' :: b ++ ['}']) ++ ('{' :: c ++ ['}']) ++ post)) := by
  have hblen : 0 < b.length := List.length_pos.mpr hbne
  have hclen : 0 < c.length := List.length_pos.mpr hcne
  obtain ⟨xc, hxc⟩ := charAt_isSome (s := c) (i := 0) ⟨le_refl 0, by omega⟩
  obtain ⟨xb, hxb⟩ := charAt_isSome (s := b) (i := (b.length : Int) - 1) ⟨by omega, by omega⟩
  have eassoc : pre ++ (b ++ '/' :: (c ++ post)) = (pre ++ b) ++ '/' :: (c ++ post) := by
    simp
  have elen : (((pre ++ b).length : Nat) : Int) = (pre.length : Int) + (b.length : Int) := by
    simp
  refine replaceFrac_step_decomp pre b c post _ _ "nobracket" "nobracket" hpre1 hb2 hbne hcne
    (fun x hx => charAt_ne_of_not_mem hb1 _ x hx)
    (fun x hx => charAt_ne_of_not_mem hc1 _ x hx) ?_ ?_ ?_ ?_ ?_
    (fixBracket_wrap b hbne hb3) (fixBracket_wrap c hcne hc3)
  · intro q hq ⟨_, h2⟩
    rw [eassoc] at h2
    rcases charAt_slash_cases h2 with ⟨h, _⟩ | ⟨h, _⟩ | ⟨_, h, _⟩
    · omega
    · omega
    · rcases List.mem_append.mp h with h | h
      · exact hc2 h
      · exact hpost1 h
  · have h : charAt (pre ++ (b ++ '/' :: (c ++ post)))
        ((pre.length : Int) + (b.length : Int) + 1) = some xc := by
      rw [eassoc, charAt_append_right (by omega), elen]
      have e : (pre.length : Int) + (b.length : Int) + 1
          - ((pre.length : Int) + (b.length : Int)) = 0 + 1 := by omega
      rw [e, charAt_cons_succ _ _ _ (le_refl 0), charAt_append_left (by omega)]
      exact hxc
    rw [getType_eq h, if_neg]
    have := charAt_ne_of_not_mem hc3 _ _ hxc
    have := charAt_ne_of_not_mem hc4 _ _ hxc
    simp [*]
  · have h : charAt (pre ++ (b ++ '/' :: (c ++ post)))
        ((pre.length : Int) + (b.length : Int) - 1) = some xb := by
      rw [charAt_append_right (by omega), charAt_append_left (by omega)]
      have e : (pre.length : Int) + (b.length : Int) - 1 - (pre.length : Int)
          = (b.length : Int) - 1 := by omega
      rw [e]
      exact hxb
    rw [getType_eq h, if_neg]
    have := charAt_ne_of_not_mem hb3 _ _ hxb
    have := charAt_ne_of_not_mem hb4 _ _ hxb
    simp [*]
  · have h := getChildrenOf_rightEnd_bare (pre ++ b) c post hc1 hc4 hpost
    rw [← eassoc, elen] at h
    exact h
  · exact getChildrenOf_leftStart_bare pre b (c ++ post) hb1 hb3 hpre

/-- C6: for non-empty `a`, `b`, `c` that contain none of ` `, `/`, `{`, `}`, the
first pass of the loop on `a + "/{" + b + "/" + c + "}"` rewrites the outer `/`
and gives `"\frac{" + a + "}{" + b + "/" + c + "}"`, the second pass rewrites the
inner `/` and gives `"\frac{" + a + "}{\frac{" + b + "}{" + c + "}}"`, the third
pass leaves the loop, and `replaceFrac` returns that last buffer. -/
theorem replaceFrac_nested_fraction (a b c : Str) (ha : a ≠ []) (hb : b ≠ []) (hc : c ≠ [])
    (ha1 : ' ' ∉ a) (ha2 : '/' ∉ a) (ha3 : '{' ∉ a) (ha4 : '}' ∉ a)
    (hb1 : ' ' ∉ b) (hb2 : '/' ∉ b) (hb3 : '{' ∉ b) (hb4 : '}' ∉ b)
    (hc1 : ' ' ∉ c) (hc2 : '/' ∉ c) (hc3 : '{' ∉ c) (hc4 : '}' ∉ c) :
    replaceFrac.step (a ++ ['/', '{'] ++ b ++ ['/'] ++ c ++ ['}'])
      = Result.ok (some (['\\', 'f', 'r', 'a', 'c', '{'] ++ a ++ ['}', '{'] ++ b ++ ['/']
          ++ c ++ ['}'])) ∧
    replaceFrac.step (['\\', 'f', 'r', 'a', 'c', '{'] ++ a ++ ['}', '{'] ++ b ++ ['/']
        ++ c ++ ['}'])
      = Result.ok (some (['\\', 'f', 'r', 'a', 'c', '{'] ++ a
          ++ ['}', '{', '\\', 'f', 'r', 'a', 'c', '{'] ++ b ++ ['}', '{'] ++ c ++ ['}', '}'])) ∧
    replaceFrac.step (['\\', 'f', 'r', 'a', 'c', '{'] ++ a
        ++ ['}', '{', '\\', 'f', 'r', 'a', 'c', '{'] ++ b ++ ['}', '{'] ++ c ++ ['}', '}'])
      = Result.ok none ∧
    replaceFrac (a ++ ['/', '{'] ++ b ++ ['/'] ++ c ++ ['}'])
      = Result.ok (['\\', 'f', 'r', 'a', 'c', '{'] ++ a
          ++ ['}', '{', '\\', 'f', 'r', 'a', 'c', '{'] ++ b ++ ['}', '{'] ++ c ++ ['}', '}']) := by
  have halen : 0 < a.length := List.length_pos.mpr ha
  obtain ⟨xa, hxa⟩ := charAt_isSome (s := a) (i := (a.length : Int) - 1) ⟨by omega, by omega⟩
  have hM1 : '{' ∉ b ++ '/' :: c := by simp [hb3, hc3]
  have hM2 : '}' ∉ b ++ '/' :: c := by simp [hb4, hc4]
  have hstep1 := replaceFrac_step_decomp [] a ('{' :: ((b ++ '/' :: c) ++ ['}'])) [] _ _
    "bracket" "nobracket" (by simp) ha2 ha (by simp)
    (fun x hx => charAt_ne_of_not_mem ha1 _ x hx)
    (by
      intro x hx
      rw [charAt_braced_first] at hx
      simp only [Option.some.injEq] at hx
      subst hx
      decide)
    (by
      intro q _
      have e : [] ++ (a ++ '/' :: ('{' :: ((b ++ '/' :: c) ++ ['}']) ++ []))
          = (a ++ '/' :: '{' :: (b ++ '/' :: c)) ++ ['}'] := by simp
      rw [e]
      exact no_close_slash_of_last _ (by simp [ha4, hb4, hc4]) q)
    (by
      have h : charAt ([] ++ (a ++ '/' :: ('{' :: ((b ++ '/' :: c) ++ ['}']) ++ [])))
          ((([] : Str).length : Int) + (a.length : Int) + 1) = some '{' := by
        rw [List.nil_append, charAt_append_right (by simp)]
        simp [charAt]
      rw [getType_eq h]
      rfl)
    (by
      have h : charAt ([] ++ (a ++ '/' :: ('{' :: ((b ++ '/' :: c) ++ ['}']) ++ [])))
          ((([] : Str).length : Int) + (a.length : Int) - 1) = some xa := by
        simp only [List.nil_append, List.length_nil, Nat.cast_zero, zero_add]
        rw [charAt_append_left (by omega)]
        exact hxa
      rw [getType_eq h, if_neg]
      have := charAt_ne_of_not_mem ha3 _ _ hxa
      have := charAt_ne_of_not_mem ha4 _ _ hxa
      simp [*])
    (by
      have h := getChildrenOf_rightEnd_braced a (b ++ '/' :: c) [] hM1 hM2
      simpa using h)
    (by
      have h := getChildrenOf_leftStart_bare [] a ('{' :: ((b ++ '/' :: c) ++ ['}']) ++ [])
        ha1 ha3 (by simp [charAt])
      simpa using h)
    (fixBracket_wrap a ha ha3) (fixBracket_keep (b ++ '/' :: c))
  have hstep2 := replaceFrac_step_bare (fracLit ++ '{' :: (a ++ ['}', '{'])) b c ['}']
    (by simp [fracLit, ha2]) (by simp)
    (by
      intro x hx
      have h := charAt_length_cons (fracLit ++ '{' :: (a ++ ['}'])) [] '{'
      have e1 : (fracLit ++ '{' :: (a ++ ['}'])) ++ ['{'] = fracLit ++ '{' :: (a ++ ['}', '{']) := by
        simp
      have e2 : (((fracLit ++ '{' :: (a ++ ['}'])).length : Nat) : Int)
          = (((fracLit ++ '{' :: (a ++ ['}', '{'])).length : Nat) : Int) - 1 := by
        simp only [List.length_append, List.length_cons, List.length_nil]
        push_cast
        omega
      rw [e1, e2, hx] at h
      simp only [Option.some.injEq] at h
      exact Or.inr h)
    (by
      intro x hx
      simp only [charAt, le_refl, if_true, Int.toNat_zero, List.getElem?_cons_zero,
        Option.some.injEq] at hx
      exact Or.inr hx.symm)
    hb hc hb1 hb2 hb3 hb4 hc1 hc2 hc3 hc4
  have e0 : a ++ ['/', '{'] ++ b ++ ['/'] ++ c ++ ['}']
      = [] ++ (a ++ '/' :: ('{' :: ((b ++ '/' :: c) ++ ['}']) ++ [])) := by simp
  have e1 : [] ++ fracLit ++ ('{' :: a ++ ['}']) ++ '{' :: ((b ++ '/' :: c) ++ ['}']) ++ []
      = ['\\', 'f', 'r', 'a', 'c', '{'] ++ a ++ ['}', '{'] ++ b ++ ['/'] ++ c ++ ['}'] := by
    simp [fracLit]
  have e2 : fracLit ++ '{' :: (a ++ ['}', '{']) ++ (b ++ '/' :: (c ++ ['}']))
      = ['\\', 'f', 'r', 'a', 'c', '{'] ++ a ++ ['}', '{'] ++ b ++ ['/'] ++ c ++ ['}'] := by
    simp [fracLit]
  have e3 : fracLit ++ '{' :: (a ++ ['}', '{']) ++ fracLit ++ ('{' :: b ++ ['}'])
        ++ ('{' :: c ++ ['}']) ++ ['}']
      = ['\\', 'f', 'r', 'a', 'c', '{'] ++ a
          ++ ['}', '{', '\\', 'f', 'r', 'a', 'c', '{'] ++ b ++ ['}', '{'] ++ c ++ ['}', '}'] := by
    simp [fracLit]
  rw [e1, ← e0] at hstep1
  rw [e2, e3] at hstep2
  have hno : '/' ∉ ['\\', 'f', 'r', 'a', 'c', '{'] ++ a
      ++ ['}', '{', '\\', 'f', 'r', 'a', 'c', '{'] ++ b ++ ['}', '{'] ++ c ++ ['}', '}'] := by
    simp [ha2, hb2, hc2]
  refine ⟨hstep1, hstep2, ?_, ?_⟩
  · exact (replaceFrac_step_eq_none_iff _).mpr (fun q hq => hno (charAt_mem hq.2.2.1))
  · rw [replaceFrac_of_step hstep1, replaceFrac_of_step hstep2]
    exact replaceFrac_of_no_slash _ hno

/-- Witness of C6: `a/{b/c}` gives `\frac{a}{b/c}`, then `\frac{a}{\frac{b}{c}}`. -/
theorem replaceFrac_nested_fraction_witness :
    replaceFrac (['a'] ++ ['/', '{'] ++ ['b'] ++ ['/'] ++ ['c'] ++ ['}'])
      = Result.ok (['\\', 'f', 'r', 'a', 'c', '{'] ++ ['a']
          ++ ['}', '{', '\\', 'f', 'r', 'a', 'c', '{'] ++ ['b'] ++ ['}', '{'] ++ ['c']
          ++ ['}', '}']) :=
  (replaceFrac_nested_fraction ['a'] ['b'] ['c'] (by decide) (by decide) (by decide)
    (by decide) (by decide) (by decide) (by decide) (by decide) (by decide) (by decide)
    (by decide) (by decide) (by decide) (by decide) (by decide)).2.2.2

/-- C7: for a non-empty `a` that contains none of ` `, `/`, `{`, `}` and a `b`
that contains no `}`, `replaceFrac(a + "/{" + b)` aborts with the failure of
the bracket matcher called on the open brace: the scan leaving the buffer when
`b` is non-empty, the guard on the last index when `b` is empty.  No buffer is
returned. -/
theorem replaceFrac_unmatched_open (a b : Str) (ha : a ≠ [])
    (ha1 : ' ' ∉ a) (ha2 : '/' ∉ a) (ha3 : '{' ∉ a) (ha4 : '}' ∉ a) (hb4 : '}' ∉ b) :
    getMatchingBracket (a ++ ['/', '{'] ++ b) ((a.length : Int) + 1) Direction.Right
      = Result.fail (if b = [] then Failure.openBracketAtEnd else Failure.scanPastBuffer) ∧
    replaceFrac (a ++ ['/', '{'] ++ b)
      = Result.fail (if b = [] then Failure.openBracketAtEnd else Failure.scanPastBuffer) := by
  have halen : 0 < a.length := List.length_pos.mpr ha
  obtain ⟨xa, hxa⟩ := charAt_isSome (s := a) (i := (a.length : Int) - 1) ⟨by omega, by omega⟩
  have e0 : a ++ ['/', '{'] ++ b = a ++ '/' :: ('{' :: b) := by simp
  have hm : getMatchingBracket (a ++ '/' :: ('{' :: b)) ((a.length : Int) + 1) Direction.Right
      = Result.fail (if b = [] then Failure.openBracketAtEnd else Failure.scanPastBuffer) := by
    have h := getMatchingBracket_right_unclosed (a ++ ['/']) b hb4
    have e1 : (a ++ ['/']) ++ '{' :: b = a ++ '/' :: ('{' :: b) := by simp
    have e2 : (((a ++ ['/']).length : Nat) : Int) = (a.length : Int) + 1 := by simp
    rw [e1, e2] at h
    exact h
  have hfrac : hasFractions (a ++ '/' :: ('{' :: b)) = Result.ok (true, (a.length : Int)) :=
    hasFractions_decomp a ('{' :: b) ha2 ha (by simp)
      (fun x hx => charAt_ne_of_not_mem ha1 _ x hx)
      (by
        intro x hx
        simp only [charAt, le_refl, if_true, Int.toNat_zero, List.getElem?_cons_zero,
          Option.some.injEq] at hx
        subst hx
        decide)
  have hroot : getRoot (a.length : Int) (a ++ '/' :: ('{' :: b)) = Result.ok (a.length : Int) := by
    refine getRoot_eq_self _ _ (by omega) (by simp; omega) ?_
    intro q hq ⟨h1, _⟩
    rcases charAt_slash_cases h1 with ⟨h, _⟩ | ⟨h, _⟩ | ⟨_, h, _⟩
    · omega
    · omega
    · simp [hb4] at h
  have hrt : getType ((a.length : Int) + 1) (a ++ '/' :: ('{' :: b)) = Result.ok "bracket" := by
    have h : charAt (a ++ '/' :: ('{' :: b)) ((a.length : Int) + 1) = some '{' := by
      rw [charAt_append_right (by omega)]
      simp [charAt]
    rw [getType_eq h]
    rfl
  have hlt : getType ((a.length : Int) - 1) (a ++ '/' :: ('{' :: b))
      = Result.ok "nobracket" := by
    have h : charAt (a ++ '/' :: ('{' :: b)) ((a.length : Int) - 1) = some xa := by
      rw [charAt_append_left (by omega)]
      exact hxa
    rw [getType_eq h, if_neg]
    have := charAt_ne_of_not_mem ha3 _ _ hxa
    have := charAt_ne_of_not_mem ha4 _ _ hxa
    simp [*]
  have hch : getChildrenOf (a.length : Int) (a ++ '/' :: ('{' :: b))
      = Result.fail (if b = [] then Failure.openBracketAtEnd else Failure.scanPastBuffer) := by
    unfold getChildrenOf
    rw [hrt, hlt]
    simp only [Result.ok_bind]
    unfold getChildrenOf.rightEnd
    rw [if_neg (by decide), if_pos rfl, hm]
    rfl
  have hstep : replaceFrac.step (a ++ '/' :: ('{' :: b))
      = Result.fail (if b = [] then Failure.openBracketAtEnd else Failure.scanPastBuffer) := by
    unfold replaceFrac.step
    rw [hfrac]
    simp only [Result.ok_bind, if_true, hroot, hch]
    rfl
  rw [e0]
  exact ⟨hm, replaceFrac_of_step_fail hstep⟩

/-- Witness of C7: `a/{b` aborts with the scan leaving the buffer. -/
theorem replaceFrac_unmatched_open_witness :
    getMatchingBracket (['a'] ++ ['/', '{'] ++ ['b']) (((['a'] : Str).length : Int) + 1)
        Direction.Right
      = Result.fail (if (['b'] : Str) = [] then Failure.openBracketAtEnd
          else Failure.scanPastBuffer) ∧
    replaceFrac (['a'] ++ ['/', '{'] ++ ['b'])
      = Result.fail (if (['b'] : Str) = [] then Failure.openBracketAtEnd
          else Failure.scanPastBuffer) :=
  replaceFrac_unmatched_open ['a'] ['b'] (by decide) (by decide) (by decide) (by decide)
    (by decide) (by decide)

/-! ## `replaceBlock` terminates -/

theorem replaceBlock_collect_ne_diverge (math pfx : Str) :
    ∀ (fuel : Nat) (i : Int) (found : Bool) (starts : List Int),
      ((math.length : Int) - 2 - i).toNat < fuel →
      replaceBlock.collect math pfx fuel i found starts ≠ Result.diverge := by
  intro fuel
  induction fuel with
  | zero => intro i _ _ hf; omega
  | succ fuel ih =>
    intro i found starts hfuel
    by_cases hlt : i < (math.length : Int) - 2
    · rw [replaceBlock.collect, if_pos hlt]
      refine Result.bind_ne_diverge _ _ (slice_ne_diverge _ _ _) (fun w _ => ?_)
      split
      · exact ih (i + 1) true _ (by omega)
      · exact ih (i + 1) found starts (by omega)
    · rw [replaceBlock.collect, if_neg hlt]
      simp

theorem replaceBlock_ends_ne_diverge (math : Str) :
    ∀ starts : List Int, replaceBlock.ends math starts ≠ Result.diverge := by
  intro starts
  induction starts with
  | nil => simp [replaceBlock.ends]
  | cons i rest ih =>
    rw [replaceBlock.ends]
    refine Result.bind_ne_diverge _ _ (getMatchingBracket_ne_diverge _ _ _) (fun e _ => ?_)
    refine Result.bind_ne_diverge _ _ ih (fun es _ => ?_)
    simp

theorem replaceBlock_repl_ne_diverge (title math : Str) (start stop : Int) :
    replaceBlock.repl title math start stop ≠ Result.diverge := by
  unfold replaceBlock.repl
  refine Result.bind_ne_diverge _ _ (slice_ne_diverge _ _ _) (fun w _ => ?_)
  simp

theorem replaceBlock_assemble_ne_diverge (title math : Str) :
    ∀ (starts stops : List Int) (s : Str),
      replaceBlock.assemble title math starts stops s ≠ Result.diverge := by
  intro starts
  induction starts with
  | nil => intro stops s; simp [replaceBlock.assemble]
  | cons start starts ih =>
    intro stops s
    cases stops with
    | nil => simp [replaceBlock.assemble]
    | cons stop stops =>
      rw [replaceBlock.assemble]
      refine Result.bind_ne_diverge _ _ (replaceBlock_repl_ne_diverge _ _ _ _) (fun r _ => ?_)
      cases starts with
      | nil => simp [replaceBlock.assemble]
      | cons next rest =>
        refine Result.bind_ne_diverge _ _ (slice_ne_diverge _ _ _) (fun g _ => ?_)
        exact ih stops _

/-- The method `replaceBlock` terminates on every input: it returns or aborts. -/
theorem replaceBlock_ne_diverge (title pfx math : Str) :
    replaceBlock title pfx math ≠ Result.diverge := by
  unfold replaceBlock
  refine Result.bind_ne_diverge _ _
    (replaceBlock_collect_ne_diverge math pfx _ 0 false [] (by omega)) (fun c _ => ?_)
  split
  · simp
  · refine Result.bind_ne_diverge _ _ (replaceBlock_ends_ne_diverge _ _) (fun ends _ => ?_)
    split
    · refine Result.bind_ne_diverge _ _ (slice_ne_diverge _ _ _) (fun s _ => ?_)
      refine Result.bind_ne_diverge _ _ (replaceBlock_assemble_ne_diverge _ _ _ _ _)
        (fun s2 _ => ?_)
      split
      · refine Result.bind_ne_diverge _ _ (slice_ne_diverge _ _ _) (fun t _ => ?_)
        simp
      · simp
    · simp

/-! ## Claims about `replaceBlock` -/

theorem replaceBlock_collect_none (math pfx : Str)
    (h : ∀ i, i < math.length → ¬ OccursAt (pfx ++ ['{']) math i) :
    ∀ (fuel : Nat) (i : Int) (found : Bool) (starts : List Int), 0 ≤ i →
      ((math.length : Int) - 2 - i).toNat < fuel →
      replaceBlock.collect math pfx fuel i found starts = Result.ok (found, starts) := by
  intro fuel
  induction fuel with
  | zero => intro i _ _ _ hf; omega
  | succ fuel ih =>
    intro i found starts h0 hfuel
    by_cases hlt : i < (math.length : Int) - 2
    · rw [replaceBlock.collect, if_pos hlt]
      have hs := slice_of_bounds math i (i + 2) h0 (by omega) (by omega)
      have hlen := slice_length hs
      rw [hs]
      have hne : List.take ((i + 2).toNat - i.toNat) (List.drop i.toNat math)
          ≠ pfx ++ ['{'] := by
        intro he
        refine h i.toNat (by omega) ?_
        unfold OccursAt
        rw [he] at hlen
        have e : (pfx ++ ['{']).length = (i + 2).toNat - i.toNat := by omega
        rw [e]
        exact he
      simp only [Result.ok_bind, if_neg hne]
      exact ih (i + 1) found starts (by omega) (by omega)
    · rw [replaceBlock.collect, if_neg hlt]
      rfl

/-- C10: if at no index of the text the prefix is immediately followed by `{`,
then `replaceBlock(title, prefix)` returns the text unchanged (and does not
abort), for every title and every prefix. -/
theorem replaceBlock_noop (title pfx math : Str)
    (h : ∀ i, i < math.length → ¬ OccursAt (pfx ++ ['{']) math i) :
    replaceBlock title pfx math = Result.ok math := by
  unfold replaceBlock
  rw [replaceBlock_collect_none math pfx h _ 0 false [] (le_refl 0) (by omega)]
  rfl

/-- Witness of C10: `a+b` has no `&{` and comes back unchanged. -/
theorem replaceBlock_noop_witness :
    replaceBlock ['m', 'a', 't', 'r', 'i', 'x'] ['&'] ['a', '+', 'b']
      = Result.ok ['a', '+', 'b'] :=
  replaceBlock_noop ['m', 'a', 't', 'r', 'i', 'x'] ['&'] ['a', '+', 'b'] (by decide)

/-! ## Claims of the second part: bare division chains -/

/-- The pass on `\frac{a}{b/c}`: the bare `b/c` inside the braces is rewritten,
and `replaceFrac` returns `\frac{a}{\frac{b}{c}}`. -/
theorem replaceFrac_inner_bare (a b c : Str) (hb : b ≠ []) (hc : c ≠ [])
    (ha2 : '/' ∉ a)
    (hb1 : ' ' ∉ b) (hb2 : '/' ∉ b) (hb3 : '{' ∉ b) (hb4 : '}' ∉ b)
    (hc1 : ' ' ∉ c) (hc2 : '/' ∉ c) (hc3 : '{' ∉ c) (hc4 : '}' ∉ c) :
    replaceFrac (['\\', 'f', 'r', 'a', 'c', '{'] ++ a ++ ['}', '{'] ++ b ++ ['/'] ++ c ++ ['}'])
      = Result.ok (['\\', 'f', 'r', 'a', 'c', '{'] ++ a
          ++ ['}', '{', '\\', 'f', 'r', 'a', 'c', '{'] ++ b ++ ['}', '{'] ++ c ++ ['}', '}']) := by
  have hstep2 := replaceFrac_step_bare (fracLit ++ '{' :: (a ++ ['}', '{'])) b c ['}']
    (by simp [fracLit, ha2]) (by simp)
    (by
      intro x hx
      have h := charAt_length_cons (fracLit ++ '{' :: (a ++ ['}'])) [] '{'
      have e1 : (fracLit ++ '{' :: (a ++ ['}'])) ++ ['{'] = fracLit ++ '{' :: (a ++ ['}', '{']) := by
        simp
      have e2 : (((fracLit ++ '{' :: (a ++ ['}'])).length : Nat) : Int)
          = (((fracLit ++ '{' :: (a ++ ['}', '{'])).length : Nat) : Int) - 1 := by
        simp only [List.length_append, List.length_cons, List.length_nil]
        push_cast
        omega
      rw [e1, e2, hx] at h
      simp only [Option.some.injEq] at h
      exact Or.inr h)
    (by
      intro x hx
      simp only [charAt, le_refl, if_true, Int.toNat_zero, List.getElem?_cons_zero,
        Option.some.injEq] at hx
      exact Or.inr hx.symm)
    hb hc hb1 hb2 hb3 hb4 hc1 hc2 hc3 hc4
  have e2 : fracLit ++ '{' :: (a ++ ['}', '{']) ++ (b ++ '/' :: (c ++ ['}']))
      = ['\\', 'f', 'r', 'a', 'c', '{'] ++ a ++ ['}', '{'] ++ b ++ ['/'] ++ c ++ ['}'] := by
    simp [fracLit]
  have e3 : fracLit ++ '{' :: (a ++ ['}', '{']) ++ fracLit ++ ('{' :: b ++ ['}'])
        ++ ('{' :: c ++ ['}']) ++ ['}']
      = ['\\', 'f', 'r', 'a', 'c', '{'] ++ a
          ++ ['}', '{', '\\', 'f', 'r', 'a', 'c', '{'] ++ b ++ ['}', '{'] ++ c ++ ['}', '}'] := by
    simp [fracLit]
  rw [e2, e3] at hstep2
  rw [replaceFrac_of_step hstep2]
  exact replaceFrac_of_no_slash _ (by simp [ha2, hb2, hc2])

/-- C20: for non-empty `a`, `b`, `c` that contain none of ` `, `/`, `{`, `}`,
`replaceFrac(a + "/" + b + "/" + c)` returns
`"\frac{" + a + "}{\frac{" + b + "}{" + c + "}}"`: the first pass takes the whole
of `b/c` as the bare right operand of the first `/` and gives
`"\frac{" + a + "}{" + b + "/" + c + "}"`. -/
theorem replaceFrac_bare_chain (a b c : Str) (ha : a ≠ []) (hb : b ≠ []) (hc : c ≠ [])
    (ha1 : ' ' ∉ a) (ha2 : '/' ∉ a) (ha3 : '{' ∉ a) (ha4 : '}' ∉ a)
    (hb1 : ' ' ∉ b) (hb2 : '/' ∉ b) (hb3 : '{' ∉ b) (hb4 : '}' ∉ b)
    (hc1 : ' ' ∉ c) (hc2 : '/' ∉ c) (hc3 : '{' ∉ c) (hc4 : '}' ∉ c) :
    replaceFrac.step (a ++ ['/'] ++ b ++ ['/'] ++ c)
      = Result.ok (some (['\\', 'f', 'r', 'a', 'c', '{'] ++ a ++ ['}', '{'] ++ b ++ ['/']
          ++ c ++ ['}'])) ∧
    replaceFrac (a ++ ['/'] ++ b ++ ['/'] ++ c)
      = Result.ok (['\\', 'f', 'r', 'a', 'c', '{'] ++ a
          ++ ['}', '{', '\\', 'f', 'r', 'a', 'c', '{'] ++ b ++ ['}', '{'] ++ c ++ ['}', '}']) := by
  have halen : 0 < a.length := List.length_pos.mpr ha
  have hblen : 0 < b.length := List.length_pos.mpr hb
  obtain ⟨xa, hxa⟩ := charAt_isSome (s := a) (i := (a.length : Int) - 1) ⟨by omega, by omega⟩
  obtain ⟨xb, hxb⟩ := charAt_isSome (s := b) (i := 0) ⟨le_refl 0, by omega⟩
  have hR1 : ' ' ∉ b ++ '/' :: c := by simp [hb1, hc1]
  have hR3 : '{' ∉ b ++ '/' :: c := by simp [hb3, hc3]
  have hR4 : '}' ∉ b ++ '/' :: c := by simp [hb4, hc4]
  have hstep1 := replaceFrac_step_decomp [] a (b ++ '/' :: c) [] _ _
    "nobracket" "nobracket" (by simp) ha2 ha (by simp)
    (fun x hx => charAt_ne_of_not_mem ha1 _ x hx)
    (fun x hx => charAt_ne_of_not_mem hR1 _ x hx)
    (by
      intro q _ ⟨h1, _⟩
      have hm := charAt_mem h1
      simp [ha4, hb4, hc4] at hm)
    (by
      have h : charAt ([] ++ (a ++ '/' :: ((b ++ '/' :: c) ++ [])))
          ((([] : Str).length : Int) + (a.length : Int) + 1) = some xb := by
        simp only [List.nil_append, List.length_nil, Nat.cast_zero, zero_add]
        rw [charAt_append_right (by omega)]
        have e : (a.length : Int) + 1 - (a.length : Int) = 0 + 1 := by omega
        rw [e, charAt_cons_succ _ _ _ (le_refl 0), charAt_append_left (by simp; omega),
          charAt_append_left (by omega)]
        exact hxb
      rw [getType_eq h, if_neg]
      have := charAt_ne_of_not_mem hb3 _ _ hxb
      have := charAt_ne_of_not_mem hb4 _ _ hxb
      simp [*])
    (by
      have h : charAt ([] ++ (a ++ '/' :: ((b ++ '/' :: c) ++ [])))
          ((([] : Str).length : Int) + (a.length : Int) - 1) = some xa := by
        simp only [List.nil_append, List.length_nil, Nat.cast_zero, zero_add]
        rw [charAt_append_left (by omega)]
        exact hxa
      rw [getType_eq h, if_neg]
      have := charAt_ne_of_not_mem ha3 _ _ hxa
      have := charAt_ne_of_not_mem ha4 _ _ hxa
      simp [*])
    (by
      have h := getChildrenOf_rightEnd_bare a (b ++ '/' :: c) [] hR1 hR4 (by simp [charAt])
      simpa using h)
    (by
      have h := getChildrenOf_leftStart_bare [] a ((b ++ '/' :: c) ++ []) ha1 ha3
        (by simp [charAt])
      simpa using h)
    (fixBracket_wrap a ha ha3) (fixBracket_wrap (b ++ '/' :: c) (by simp) hR3)
  have e0 : a ++ ['/'] ++ b ++ ['/'] ++ c = [] ++ (a ++ '/' :: ((b ++ '/' :: c) ++ [])) := by
    simp
  have e1 : [] ++ fracLit ++ ('{' :: a ++ ['}']) ++ ('{' :: (b ++ '/' :: c) ++ ['}']) ++ []
      = ['\\', 'f', 'r', 'a', 'c', '{'] ++ a ++ ['}', '{'] ++ b ++ ['/'] ++ c ++ ['}'] := by
    simp [fracLit]
  rw [e1, ← e0] at hstep1
  refine ⟨hstep1, ?_⟩
  rw [replaceFrac_of_step hstep1]
  exact replaceFrac_inner_bare a b c hb hc ha2 hb1 hb2 hb3 hb4 hc1 hc2 hc3 hc4

/-- Witness of C20: `a/b/c` gives `\frac{a}{\frac{b}{c}}`. -/
theorem replaceFrac_bare_chain_witness :
    replaceFrac (['a'] ++ ['/'] ++ ['b'] ++ ['/'] ++ ['c'])
      = Result.ok (['\\', 'f', 'r', 'a', 'c', '{'] ++ ['a']
          ++ ['}', '{', '\\', 'f', 'r', 'a', 'c', '{'] ++ ['b'] ++ ['}', '{'] ++ ['c']
          ++ ['}', '}']) :=
  (replaceFrac_bare_chain ['a'] ['b'] ['c'] (by decide) (by decide) (by decide)
    (by decide) (by decide) (by decide) (by decide) (by decide) (by decide) (by decide)
    (by decide) (by decide) (by decide) (by decide) (by decide)).2

/-! ## Root resolution to the left -/

/-- C15 (defect of the code): in `x /{b/c}` the `/` at index 2 is immediately
followed by the `{` at 3, whose matching close brace is at 7, and the fraction
candidate found by `hasFractions` is the `/` at 5, with `3 < 5 < 7`; yet
`getRoot(5, txt)` returns 5.  The search to the left compares the one-byte
slice `txt[j-1:j]` with the two bytes `/{`, so it never moves `loc`: on every
buffer an index returned by `getRoot` is at least `loc`. -/
theorem getRoot_left_search_inert :
    charAt ['x', ' ', '/', '{', 'b', '/', 'c', '}'] 2 = some '/' ∧
    charAt ['x', ' ', '/', '{', 'b', '/', 'c', '}'] 3 = some '{' ∧
    getMatchingBracket ['x', ' ', '/', '{', 'b', '/', 'c', '}'] 3 Direction.Right
      = Result.ok 7 ∧
    hasFractions ['x', ' ', '/', '{', 'b', '/', 'c', '}'] = Result.ok (true, 5) ∧
    getRoot 5 ['x', ' ', '/', '{', 'b', '/', 'c', '}'] = Result.ok 5 ∧
    (∀ (loc : Int) (txt : Str) (r : Int), getRoot loc txt = Result.ok r → loc ≤ r) := by
  refine ⟨by decide, by decide, by decide, by decide, by decide, fun loc txt r h => ?_⟩
  rcases (getRoot_spec loc txt).2 r h with e | ⟨e, _⟩
  · omega
  · omega

/-! ## Occurrences that `replaceBlock` does not collect -/

/-- C17 (defect of the code): in `a&{` the prefix `&` is immediately followed by
a `{` at index 1 and the text has no `}` at all, yet `replaceBlock` returns
the text unchanged: the collecting loop runs over `i < len(math) - 2` and
never looks at the last two bytes. -/
theorem replaceBlock_misses_last_occurrence :
    OccursAt (['&'] ++ ['{']) ['a', '&', '{'] 1 ∧ '}' ∉ (['a', '&', '{'] : Str) ∧
    (getMatchingBracket ['a', '&', '{'] 2 Direction.Right).Fails ∧
    replaceBlock ['m', 'a', 't', 'r', 'i', 'x'] ['&'] ['a', '&', '{']
      = Result.ok ['a', '&', '{'] := by
  refine ⟨by decide, by decide, ⟨Failure.openBracketAtEnd, by decide⟩, by decide⟩

/-! ## Evaluation of `replaceBlock` -/

theorem stringsReplace_scan_single (x : Char) (repl : Str) :
    ∀ s : Str, stringsReplace.scan [x] repl 0 s = replaceEvery x repl s := by
  intro s
  induction s with
  | nil => simp [stringsReplace.scan, replaceEvery]
  | cons c cs ih =>
    rw [stringsReplace.scan]
    by_cases h : c = x
    · subst h
      simp only [List.isPrefixOf, beq_self_eq_true, Bool.true_and, if_true, List.length_cons,
        List.length_nil, Nat.zero_add, Nat.sub_self, ih]
      simp [replaceEvery]
    · have hx : (x == c) = false := by
        simp only [beq_eq_false_iff_ne, ne_eq]
        exact fun e => h e.symm
      simp only [List.isPrefixOf, hx, Bool.false_and, Bool.false_eq_true, if_false, ih]
      simp [replaceEvery, h]

theorem stringsReplace_single (x : Char) (repl s : Str) :
    stringsReplace [x] repl s = replaceEvery x repl s := by
  unfold stringsReplace
  rw [if_neg (by simp)]
  exact stringsReplace_scan_single x repl s

/-- The collecting loop of `replaceBlock`, for a one-byte prefix, appends the
occurrences it scans. -/
theorem replaceBlock_collect_eq (math pfx : Str) (hp : pfx.length = 1) :
    ∀ (fuel : Nat) (i : Int) (found : Bool) (starts : List Int), 0 ≤ i →
      ((math.length : Int) - 2 - i).toNat < fuel →
      replaceBlock.collect math pfx fuel i found starts
        = Result.ok
            (found || !(scanStarts (pfx ++ ['{']) math
              ((math.length : Int) - 2 - i).toNat i).isEmpty,
             starts ++ scanStarts (pfx ++ ['{']) math ((math.length : Int) - 2 - i).toNat i) := by
  intro fuel
  induction fuel with
  | zero => intro i _ _ _ hf; omega
  | succ fuel ih =>
    intro i found starts h0 hfuel
    by_cases hlt : i < (math.length : Int) - 2
    · obtain ⟨n, hn⟩ : ∃ n, ((math.length : Int) - 2 - i).toNat = n + 1 :=
        ⟨((math.length : Int) - 2 - i).toNat - 1, by omega⟩
      have hn1 : ((math.length : Int) - 2 - (i + 1)).toNat = n := by omega
      rw [replaceBlock.collect, if_pos hlt]
      have hs := slice_of_bounds math i (i + 2) h0 (by omega) (by omega)
      have hlen := slice_length hs
      rw [hs, hn, scanStarts]
      simp only [Result.ok_bind]
      have hiff : List.take ((i + 2).toNat - i.toNat) (List.drop i.toNat math) = pfx ++ ['{']
          ↔ OccursAt (pfx ++ ['{']) math i.toNat := by
        unfold OccursAt
        constructor
        · intro he
          rw [he] at hlen
          have e : (pfx ++ ['{']).length = (i + 2).toNat - i.toNat := by omega
          rw [e]
          exact he
        · intro he
          have hl : (pfx ++ ['{']).length = 2 := by simp [hp]
          rw [hl] at he
          have e : (i + 2).toNat - i.toNat = 2 := by omega
          rw [e]
          exact he
      by_cases hocc : OccursAt (pfx ++ ['{']) math i.toNat
      · rw [if_pos (hiff.mpr hocc), if_pos hocc, ih (i + 1) true _ (by omega) (by omega), hn1]
        simp
      · rw [if_neg (fun h => hocc (hiff.mp h)), if_neg hocc,
          ih (i + 1) found starts (by omega) (by omega), hn1]
    · have hn : ((math.length : Int) - 2 - i).toNat = 0 := by omega
      rw [replaceBlock.collect, if_neg hlt, hn]
      simp [scanStarts]

theorem scanStarts_add (pat math : Str) :
    ∀ (n m : Nat) (i : Int),
      scanStarts pat math (n + m) i
        = scanStarts pat math n i ++ scanStarts pat math m (i + n) := by
  intro n
  induction n with
  | zero => intro m i; simp [scanStarts]
  | succ n ih =>
    intro m i
    have e : n + 1 + m = (n + m) + 1 := by omega
    have e2 : i + ((n + 1 : Nat) : Int) = i + 1 + (n : Int) := by push_cast; omega
    rw [e, scanStarts, scanStarts, ih m (i + 1), e2]
    split <;> simp

theorem scanStarts_eq_nil (pat math : Str) :
    ∀ (n : Nat) (i : Int), 0 ≤ i →
      (∀ k : Nat, i.toNat ≤ k → k < i.toNat + n → ¬ OccursAt pat math k) →
      scanStarts pat math n i = [] := by
  intro n
  induction n with
  | zero => intro i _ _; rfl
  | succ n ih =>
    intro i h0 h
    rw [scanStarts, if_neg (h i.toNat (le_refl _) (by omega))]
    refine ih (i + 1) (by omega) (fun k hk1 hk2 => h k (by omega) (by omega))

theorem scanStarts_one (pat math : Str) (i : Int) (h : OccursAt pat math i.toNat) :
    scanStarts pat math 1 i = [i] := by
  simp [scanStarts, h]

theorem braceNet_nil : braceNet [] = 0 := by simp [braceNet]

theorem braceNet_append (a b : Str) : braceNet (a ++ b) = braceNet a + braceNet b := by
  simp only [braceNet, List.count_append]
  push_cast
  omega

theorem braceNet_cons (c : Char) (s : Str) :
    braceNet (c :: s) = braceDelta Direction.Right (some c) + braceNet s := by
  by_cases h1 : c = '{'
  · subst h1
    simp [braceNet, braceDelta, List.count_cons]
    omega
  · by_cases h2 : c = '}'
    · subst h2
      simp [braceNet, braceDelta, List.count_cons]
      omega
    · rw [braceDelta_of_not_brace _ c h1 h2]
      simp [braceNet, List.count_cons, h1, h2]

theorem braceNet_option (o : Option Char) :
    braceNet o.toList = braceDelta Direction.Right o := by
  cases o with
  | none => simp [braceNet, braceDelta]
  | some c =>
    have h := braceNet_cons c []
    rw [braceNet_nil] at h
    simpa using h

theorem braceNet_take_succ (s : Str) (k : Nat) :
    braceNet (s.take (k + 1)) = braceNet (s.take k) + braceDelta Direction.Right (s[k]?) := by
  rw [List.take_succ, braceNet_append, braceNet_option]

/-- Inside a group `{body ...` the rightward running depth after `k` steps is
1 plus the brace surplus of the first `k` bytes of `body`. -/
theorem runningDepth_right_body (X body T : Str) :
    ∀ k : Nat, k ≤ body.length →
      runningDepth (X ++ '{' :: (body ++ T)) Direction.Right (X.length : Int) k
        = 1 + braceNet (body.take k) := by
  intro k
  induction k with
  | zero => intro _; simp [runningDepth, braceNet_nil]
  | succ k ih =>
    intro hk
    rw [runningDepth, ih (by omega), charAt_brace_right, charAt_append_left (by omega),
      charAt_nat, braceNet_take_succ]
    omega

/-- The scan to the right from the open brace of a group `{body}` with a
brace-balanced `body` returns the index of the close brace. -/
theorem getMatchingBracket_right_balanced (X body Y : Str) (hb : Balanced body) :
    getMatchingBracket (X ++ '{' :: (body ++ '}' :: Y)) (X.length : Int) Direction.Right
      = Result.ok ((X.length : Int) + (body.length : Int) + 1) := by
  have hK : Direction.Right.pos (X.length : Int) (body.length + 1)
      = (X.length : Int) + (body.length : Int) + 1 := by
    simp only [Direction.pos]
    push_cast
    omega
  rw [← hK]
  refine getMatchingBracket_eq_of_first _ _ _ _ ⟨by omega, by simp; omega⟩
    (by simp; omega) ?_ ?_ ?_
  · rw [hK]
    refine ⟨by omega, ?_⟩
    simp only [List.length_append, List.length_cons]
    push_cast
    omega
  · rw [runningDepth, runningDepth_right_body X body _ body.length (le_refl _),
      charAt_brace_right, charAt_length_cons, List.take_length, hb.2]
    rfl
  · intro j hj
    rw [runningDepth_right_body X body _ j (by omega)]
    have := hb.1 j (by omega)
    omega

theorem replaceBlock_repl_eq (title math body : Str) (start stop : Int)
    (h : slice math (start + 2) stop = Result.ok body) :
    replaceBlock.repl title math start stop = Result.ok (blockEnv title body) := by
  unfold replaceBlock.repl
  rw [h]
  simp only [Result.ok_bind, Result.pure_eq, stringsReplace_single, blockEnv, blockInterior,
    List.append_assoc]

theorem occursAt_of_eq (pat math p q : Str) (h : math = p ++ (pat ++ q)) :
    OccursAt pat math p.length := by
  unfold OccursAt
  rw [h, List.drop_left, List.take_left]

/-- C11: for a one-byte prefix `p` other than `{` and `}`, a brace-balanced
`body` and texts `pre`, `post` such that `p{` stands in
`pre + p + "{" + body + "}" + post` only at the index shown,
`replaceBlock(title, p)` returns `pre + "\begin{title} " + R(body) +
" \end{title}" + post`, where `R` replaces every `,` by ` & ` and then every
`;` by two backslashes and a space. -/
theorem replaceBlock_single_region (title pre body post : Str) (p : Char)
    (_hp1 : p ≠ '{') (_hp2 : p ≠ '}') (hb : Balanced body)
    (huniq : ∀ i, i < (pre ++ [p] ++ ['{'] ++ body ++ ['}'] ++ post).length →
      OccursAt [p, '{'] (pre ++ [p] ++ ['{'] ++ body ++ ['}'] ++ post) i → i = pre.length) :
    replaceBlock title [p] (pre ++ [p] ++ ['{'] ++ body ++ ['}'] ++ post)
      = Result.ok (pre ++ (['\\', 'b', 'e', 'g', 'i', 'n', '{'] ++ title ++ ['}', ' ']
          ++ replaceEvery ';' ['\\', '\\', ' '] (replaceEvery ',' [' ', '&', ' '] body)
          ++ [' ', '\\', 'e', 'n', 'd', '{'] ++ title ++ ['}']) ++ post) := by
  obtain ⟨math, hmath⟩ : ∃ math, math = pre ++ [p] ++ ['{'] ++ body ++ ['}'] ++ post := ⟨_, rfl⟩
  rw [← hmath] at huniq ⊢
  have hlen : (math.length : Int)
      = (pre.length : Int) + (body.length : Int) + (post.length : Int) + 3 := by
    rw [hmath]
    simp only [List.length_append, List.length_cons, List.length_nil]
    push_cast
    omega
  have hocc : OccursAt ([p] ++ ['{']) math pre.length :=
    occursAt_of_eq _ math pre (body ++ ['}'] ++ post) (by rw [hmath]; simp)
  -- the collected starts
  have hn : ((math.length : Int) - 2 - 0).toNat
      = pre.length + (1 + (body.length + post.length)) := by omega
  have hscan : scanStarts ([p] ++ ['{']) math ((math.length : Int) - 2 - 0).toNat 0
      = [(pre.length : Int)] := by
    rw [hn, scanStarts_add, scanStarts_add,
      scanStarts_eq_nil _ _ pre.length 0 (le_refl 0)
        (fun k _ hk2 ho => by have := huniq k (by omega) ho; omega),
      scanStarts_one _ _ _ (by simpa using hocc),
      scanStarts_eq_nil _ _ _ _ (by omega)
        (fun k hk1 hk2 ho => by have := huniq k (by omega) ho; omega)]
    simp
  have hcollect := replaceBlock_collect_eq math [p] rfl (math.length + 1) 0 false []
    (le_refl 0) (by omega)
  rw [hscan] at hcollect
  -- the matching close brace
  have hend : getMatchingBracket math ((pre.length : Int) + 1) Direction.Right
      = Result.ok ((pre.length : Int) + (body.length : Int) + 2) := by
    have h := getMatchingBracket_right_balanced (pre ++ [p]) body post hb
    have e1 : (pre ++ [p]) ++ '{' :: (body ++ '}' :: post) = math := by rw [hmath]; simp
    have e2 : (((pre ++ [p]).length : Nat) : Int) = (pre.length : Int) + 1 := by simp
    rw [e1, e2] at h
    rw [h]
    congr 1
    omega
  -- the slices
  have hs0 : slice math 0 (pre.length : Int) = Result.ok pre :=
    slice_of_eq math [] pre (p :: '{' :: (body ++ '}' :: post)) (by rw [hmath]; simp) _ _
      (by simp) (by simp)
  have hs1 : slice math ((pre.length : Int) + 2) ((pre.length : Int) + (body.length : Int) + 2)
      = Result.ok body :=
    slice_of_eq math (pre ++ [p, '{']) body ('}' :: post) (by rw [hmath]; simp) _ _
      (by simp) (by simp; omega)
  have hs2 : sliceFrom math ((pre.length : Int) + (body.length : Int) + 2 + 1)
      = Result.ok post :=
    slice_of_eq math (pre ++ [p, '{'] ++ body ++ ['}']) post [] (by rw [hmath]; simp) _ _
      (by simp; omega) (by rw [hlen]; simp; omega)
  unfold replaceBlock
  rw [hcollect]
  simp only [Result.ok_bind, Bool.false_or, List.isEmpty_cons, Bool.not_false, Bool.not_true,
    Bool.false_eq_true, if_false, List.nil_append, replaceBlock.ends, hend, Result.pure_eq,
    List.getLast?_singleton, hs0, replaceBlock.assemble,
    replaceBlock_repl_eq title math body _ _ hs1]
  by_cases hpost : post = []
  · subst hpost
    simp only [List.length_nil, Nat.cast_zero] at hlen
    rw [if_neg (by omega)]
    simp [blockEnv, blockInterior]
  · have : 0 < post.length := List.length_pos.mpr hpost
    rw [if_pos (by omega), hs2]
    simp [blockEnv, blockInterior]

/-- Witness of C11: `&{1,2;3,4}` with title `matrix` gives
`\begin{matrix} 1 & 2\\ 3 & 4 \end{matrix}`. -/
theorem replaceBlock_single_region_witness :
    replaceBlock ['m', 'a', 't', 'r', 'i', 'x'] ['&']
        ([] ++ ['&'] ++ ['{'] ++ ['1', ',', '2', ';', '3', ',', '4'] ++ ['}'] ++ [])
      = Result.ok ([] ++ (['\\', 'b', 'e', 'g', 'i', 'n', '{'] ++ ['m', 'a', 't', 'r', 'i', 'x']
          ++ ['}', ' ']
          ++ replaceEvery ';' ['\\', '\\', ' ']
              (replaceEvery ',' [' ', '&', ' '] ['1', ',', '2', ';', '3', ',', '4'])
          ++ [' ', '\\', 'e', 'n', 'd', '{'] ++ ['m', 'a', 't', 'r', 'i', 'x'] ++ ['}']) ++ []) :=
  replaceBlock_single_region ['m', 'a', 't', 'r', 'i', 'x'] [] ['1', ',', '2', ';', '3', ',', '4']
    [] '&' (by decide) (by decide) (by decide) (by decide)

/-- C12: for a one-byte prefix `p` other than `{` and `}`, brace-balanced
bodies `b1`, `b2` and texts `t0`, `t1`, `t2` such that `p{` stands in
`t0 + p{b1} + t1 + p{b2} + t2` only at the two indices shown,
`replaceBlock(title, p)` returns `t0 + E(b1) + t1 + E(b2) + t2`, where `E(b)`
is `"\begin{title} " + R(b) + " \end{title}"`: both regions are rewritten, in
order, and `t0`, `t1`, `t2` are kept as they are. -/
theorem replaceBlock_two_regions (title t0 b1 t1 b2 t2 : Str) (p : Char)
    (_hp1 : p ≠ '{') (_hp2 : p ≠ '}') (hb1 : Balanced b1) (hb2 : Balanced b2)
    (huniq : ∀ i,
      i < (t0 ++ [p] ++ ['{'] ++ b1 ++ ['}'] ++ t1 ++ [p] ++ ['{'] ++ b2 ++ ['}'] ++ t2).length →
      OccursAt [p, '{']
        (t0 ++ [p] ++ ['{'] ++ b1 ++ ['}'] ++ t1 ++ [p] ++ ['{'] ++ b2 ++ ['}'] ++ t2) i →
      i = t0.length ∨ i = t0.length + b1.length + 3 + t1.length) :
    replaceBlock title [p]
        (t0 ++ [p] ++ ['{'] ++ b1 ++ ['}'] ++ t1 ++ [p] ++ ['{'] ++ b2 ++ ['}'] ++ t2)
      = Result.ok (t0 ++ blockEnv title b1 ++ t1 ++ blockEnv title b2 ++ t2) := by
  obtain ⟨math, hmath⟩ : ∃ math,
      math = t0 ++ [p] ++ ['{'] ++ b1 ++ ['}'] ++ t1 ++ [p] ++ ['{'] ++ b2 ++ ['}'] ++ t2 :=
    ⟨_, rfl⟩
  rw [← hmath] at huniq ⊢
  have hlen : (math.length : Int) = (t0.length : Int) + (b1.length : Int) + (t1.length : Int)
      + (b2.length : Int) + (t2.length : Int) + 6 := by
    rw [hmath]
    simp only [List.length_append, List.length_cons, List.length_nil]
    push_cast
    omega
  have hocc1 : OccursAt ([p] ++ ['{']) math t0.length :=
    occursAt_of_eq _ math t0 (b1 ++ ['}'] ++ t1 ++ [p] ++ ['{'] ++ b2 ++ ['}'] ++ t2)
      (by rw [hmath]; simp)
  have hocc2 : OccursAt ([p] ++ ['{']) math (t0.length + b1.length + 3 + t1.length) := by
    have h := occursAt_of_eq ([p] ++ ['{']) math (t0 ++ [p] ++ ['{'] ++ b1 ++ ['}'] ++ t1)
      (b2 ++ ['}'] ++ t2) (by rw [hmath]; simp)
    have e : (t0 ++ [p] ++ ['{'] ++ b1 ++ ['}'] ++ t1).length
        = t0.length + b1.length + 3 + t1.length := by
      simp only [List.length_append, List.length_cons, List.length_nil]
      omega
    rw [e] at h
    exact h
  obtain ⟨n2, hn2⟩ : ∃ n2, n2 = b1.length + 2 + t1.length := ⟨_, rfl⟩
  obtain ⟨n3, hn3⟩ : ∃ n3, n3 = b2.length + t2.length := ⟨_, rfl⟩
  have hn : ((math.length : Int) - 2 - 0).toNat = t0.length + (1 + (n2 + (1 + n3))) := by
    omega
  have hscan : scanStarts ([p] ++ ['{']) math ((math.length : Int) - 2 - 0).toNat 0
      = [(t0.length : Int), (t0.length : Int) + (b1.length : Int) + 3 + (t1.length : Int)] := by
    have hi2 : OccursAt ([p] ++ ['{']) math
        ((0 : Int) + (t0.length : Int) + ((1 : Nat) : Int) + (n2 : Int)).toNat := by
      have e : ((0 : Int) + (t0.length : Int) + ((1 : Nat) : Int) + (n2 : Int)).toNat
          = t0.length + b1.length + 3 + t1.length := by
        push_cast
        omega
      rw [e]
      exact hocc2
    rw [hn, scanStarts_add _ _ t0.length (1 + (n2 + (1 + n3))) 0,
      scanStarts_add _ _ 1 (n2 + (1 + n3)), scanStarts_add _ _ n2 (1 + n3),
      scanStarts_add _ _ 1 n3,
      scanStarts_eq_nil _ _ t0.length 0 (le_refl 0)
        (fun k _ hk2 ho => by have := huniq k (by omega) ho; omega),
      scanStarts_one _ _ _ (by simpa using hocc1),
      scanStarts_eq_nil _ _ n2 _ (by omega)
        (fun k hk1 hk2 ho => by have := huniq k (by omega) ho; omega),
      scanStarts_one _ _ _ hi2,
      scanStarts_eq_nil _ _ n3 _ (by omega)
        (fun k hk1 hk2 ho => by have := huniq k (by omega) ho; omega)]
    simp only [List.nil_append, List.append_nil, List.singleton_append, List.cons.injEq,
      and_true]
    constructor
    · omega
    · push_cast
      omega
  have hcollect := replaceBlock_collect_eq math [p] rfl (math.length + 1) 0 false []
    (le_refl 0) (by omega)
  rw [hscan] at hcollect
  have hend1 : getMatchingBracket math ((t0.length : Int) + 1) Direction.Right
      = Result.ok ((t0.length : Int) + (b1.length : Int) + 2) := by
    have h := getMatchingBracket_right_balanced (t0 ++ [p]) b1
      (t1 ++ [p] ++ ['{'] ++ b2 ++ ['}'] ++ t2) hb1
    have e1 : (t0 ++ [p]) ++ '{' :: (b1 ++ '}' :: (t1 ++ [p] ++ ['{'] ++ b2 ++ ['}'] ++ t2))
        = math := by rw [hmath]; simp
    have e2 : (((t0 ++ [p]).length : Nat) : Int) = (t0.length : Int) + 1 := by simp
    rw [e1, e2] at h
    rw [h]
    congr 1
    omega
  have hend2 : getMatchingBracket math
      ((t0.length : Int) + (b1.length : Int) + 3 + (t1.length : Int) + 1) Direction.Right
      = Result.ok ((t0.length : Int) + (b1.length : Int) + 3 + (t1.length : Int)
          + (b2.length : Int) + 2) := by
    have h := getMatchingBracket_right_balanced (t0 ++ [p] ++ ['{'] ++ b1 ++ ['}'] ++ t1 ++ [p])
      b2 t2 hb2
    have e1 : (t0 ++ [p] ++ ['{'] ++ b1 ++ ['}'] ++ t1 ++ [p]) ++ '{' :: (b2 ++ '}' :: t2)
        = math := by rw [hmath]; simp
    have e2 : (((t0 ++ [p] ++ ['{'] ++ b1 ++ ['}'] ++ t1 ++ [p]).length : Nat) : Int)
        = (t0.length : Int) + (b1.length : Int) + 3 + (t1.length : Int) + 1 := by
      simp only [List.length_append, List.length_cons, List.length_nil]
      push_cast
      omega
    rw [e1, e2] at h
    rw [h]
    congr 1
    omega
  have hs0 : slice math 0 (t0.length : Int) = Result.ok t0 :=
    slice_of_eq math [] t0 ([p] ++ ['{'] ++ b1 ++ ['}'] ++ t1 ++ [p] ++ ['{'] ++ b2 ++ ['}'] ++ t2)
      (by rw [hmath]; simp) _ _ (by simp) (by simp)
  have hs1 : slice math ((t0.length : Int) + 2) ((t0.length : Int) + (b1.length : Int) + 2)
      = Result.ok b1 :=
    slice_of_eq math (t0 ++ [p, '{']) b1 (['}'] ++ t1 ++ [p] ++ ['{'] ++ b2 ++ ['}'] ++ t2)
      (by rw [hmath]; simp) _ _ (by simp) (by simp; omega)
  have hs2 : slice math ((t0.length : Int) + (b1.length : Int) + 2 + 1)
      ((t0.length : Int) + (b1.length : Int) + 3 + (t1.length : Int)) = Result.ok t1 :=
    slice_of_eq math (t0 ++ [p, '{'] ++ b1 ++ ['}']) t1 ([p] ++ ['{'] ++ b2 ++ ['}'] ++ t2)
      (by rw [hmath]; simp) _ _ (by simp; omega) (by simp; omega)
  have hs3 : slice math ((t0.length : Int) + (b1.length : Int) + 3 + (t1.length : Int) + 2)
      ((t0.length : Int) + (b1.length : Int) + 3 + (t1.length : Int) + (b2.length : Int) + 2)
      = Result.ok b2 :=
    slice_of_eq math (t0 ++ [p, '{'] ++ b1 ++ ['}'] ++ t1 ++ [p, '{']) b2 (['}'] ++ t2)
      (by rw [hmath]; simp) _ _ (by simp; omega) (by simp; omega)
  have hs4 : sliceFrom math ((t0.length : Int) + (b1.length : Int) + 3 + (t1.length : Int)
      + (b2.length : Int) + 2 + 1) = Result.ok t2 :=
    slice_of_eq math (t0 ++ [p, '{'] ++ b1 ++ ['}'] ++ t1 ++ [p, '{'] ++ b2 ++ ['}']) t2 []
      (by rw [hmath]; simp) _ _ (by simp; omega) (by rw [hlen]; simp; omega)
  unfold replaceBlock
  rw [hcollect]
  simp only [Result.ok_bind, Bool.false_or, List.isEmpty_cons, Bool.not_false, Bool.not_true,
    Bool.false_eq_true, if_false, List.nil_append, replaceBlock.ends, hend1, hend2,
    Result.pure_eq, List.getLast?_cons_cons, List.getLast?_singleton, hs0, hs2,
    replaceBlock.assemble, replaceBlock_repl_eq title math b1 _ _ hs1,
    replaceBlock_repl_eq title math b2 _ _ hs3]
  by_cases hpost : t2 = []
  · subst hpost
    simp only [List.length_nil, Nat.cast_zero] at hlen
    rw [if_neg (by omega)]
    simp
  · have : 0 < t2.length := List.length_pos.mpr hpost
    rw [if_pos (by omega), hs4]
    simp

/-- Witness of C12: `&{1,2} x &{3,4}` keeps ` x ` between the two environments. -/
theorem replaceBlock_two_regions_witness :
    replaceBlock ['m'] ['&']
        ([] ++ ['&'] ++ ['{'] ++ ['1', ',', '2'] ++ ['}'] ++ [' ', 'x', ' '] ++ ['&'] ++ ['{']
          ++ ['3', ',', '4'] ++ ['}'] ++ [])
      = Result.ok ([] ++ blockEnv ['m'] ['1', ',', '2'] ++ [' ', 'x', ' ']
          ++ blockEnv ['m'] ['3', ',', '4'] ++ []) :=
  replaceBlock_two_regions ['m'] [] ['1', ',', '2'] [' ', 'x', ' '] ['3', ',', '4'] [] '&'
    (by decide) (by decide) (by decide) (by decide) (by decide)

/-! ## Failures and results of `replaceBlock` -/

theorem getMatchingBracket_loop_fail_kind (str : Str) (d : Direction) :
    ∀ (fuel : Nat) (depth i : Int) (f : Failure),
      getMatchingBracket.loop str d fuel depth i = Result.fail f → f = Failure.scanPastBuffer := by
  intro fuel
  induction fuel with
  | zero => intro depth i f h; simp [getMatchingBracket.loop] at h
  | succ fuel ih =>
    intro depth i f h
    rw [getMatchingBracket.loop] at h
    split at h
    · split at h
      · simp only [Result.fail.injEq] at h
        exact h.symm
      · exact ih _ _ f h
    · cases h

theorem getMatchingBracket_fail_kind {str : Str} {loc : Int} {d : Direction} {f : Failure}
    (h : getMatchingBracket str loc d = Result.fail f) : f.IsMatcher := by
  unfold getMatchingBracket at h
  split at h
  · simp only [Result.fail.injEq] at h
    exact Or.inl h.symm
  · cases hl : getMatchingBracket.loop str d (str.length + 1) 1 loc with
    | ok i =>
      rw [hl] at h
      simp only [Result.ok_bind] at h
      split at h
      · simp only [Result.fail.injEq] at h
        exact Or.inr (Or.inl h.symm)
      · cases h
    | fail e =>
      rw [hl] at h
      simp only [Result.fail_bind, Result.fail.injEq] at h
      subst h
      exact Or.inr (Or.inr (getMatchingBracket_loop_fail_kind str d _ _ _ _ hl))
    | diverge => rw [hl] at h; simp at h

theorem slice_fail_kind {s : Str} {lo hi : Int} {f : Failure}
    (h : slice s lo hi = Result.fail f) : f = Failure.sliceOutOfRange := by
  unfold slice at h
  split at h
  · cases h
  · simp only [Result.fail.injEq] at h
    exact h.symm

theorem slice_eq_fail_iff (s : Str) (lo hi : Int) :
    slice s lo hi = Result.fail Failure.sliceOutOfRange
      ↔ ¬ (0 ≤ lo ∧ lo ≤ hi ∧ hi ≤ (s.length : Int)) := by
  unfold slice
  split <;> simp [*]

/-- What the loop over `starts` returns: one close brace per start. -/
theorem replaceBlock_ends_spec (math : Str) :
    ∀ (starts ends : List Int), replaceBlock.ends math starts = Result.ok ends →
      ends.length = starts.length ∧
      ∀ x ∈ starts.zip ends, getMatchingBracket math (x.1 + 1) Direction.Right = Result.ok x.2 := by
  intro starts
  induction starts with
  | nil =>
    intro ends h
    simp only [replaceBlock.ends, Result.pure_eq, Result.ok.injEq] at h
    subst h
    simp
  | cons i rest ih =>
    intro ends h
    rw [replaceBlock.ends] at h
    obtain ⟨e, h1, h⟩ := (Result.bind_eq_ok _ _ _).mp h
    obtain ⟨es, h2, h⟩ := (Result.bind_eq_ok _ _ _).mp h
    simp only [Result.pure_eq, Result.ok.injEq] at h
    subst h
    obtain ⟨hl, hz⟩ := ih es h2
    refine ⟨by simp [hl], fun x hx => ?_⟩
    simp only [List.zip_cons_cons, List.mem_cons] at hx
    rcases hx with hx | hx
    · subst hx; exact h1
    · exact hz x hx

theorem replaceBlock_ends_fail_kind (math : Str) :
    ∀ (starts : List Int) (f : Failure), replaceBlock.ends math starts = Result.fail f →
      f.IsMatcher := by
  intro starts
  induction starts with
  | nil => intro f h; simp [replaceBlock.ends] at h
  | cons i rest ih =>
    intro f h
    rw [replaceBlock.ends] at h
    cases h1 : getMatchingBracket math (i + 1) Direction.Right with
    | ok e =>
      rw [h1] at h
      simp only [Result.ok_bind] at h
      cases h2 : replaceBlock.ends math rest with
      | ok es => rw [h2] at h; simp at h
      | fail e2 =>
        rw [h2] at h
        simp only [Result.fail_bind, Result.fail.injEq] at h
        subst h
        exact ih _ h2
      | diverge => rw [h2] at h; simp at h
    | fail e =>
      rw [h1] at h
      simp only [Result.fail_bind, Result.fail.injEq] at h
      subst h
      exact getMatchingBracket_fail_kind h1
    | diverge => rw [h1] at h; simp at h

theorem replaceBlock_repl_fail_kind {title math : Str} {start stop : Int} {f : Failure}
    (h : replaceBlock.repl title math start stop = Result.fail f) :
    f = Failure.sliceOutOfRange := by
  unfold replaceBlock.repl at h
  cases hs : slice math (start + 2) stop with
  | ok w => rw [hs] at h; simp at h
  | fail e =>
    rw [hs] at h
    simp only [Result.fail_bind, Result.fail.injEq] at h
    subst h
    exact slice_fail_kind hs
  | diverge => rw [hs] at h; simp at h

theorem replaceBlock_repl_eq_ok {title math r : Str} {start stop : Int}
    (h : replaceBlock.repl title math start stop = Result.ok r) :
    ∃ body, slice math (start + 2) stop = Result.ok body ∧ r = blockEnv title body := by
  cases hs : slice math (start + 2) stop with
  | ok w =>
    rw [replaceBlock_repl_eq title math w start stop hs] at h
    simp only [Result.ok.injEq] at h
    exact ⟨w, rfl, h.symm⟩
  | fail e => unfold replaceBlock.repl at h; rw [hs] at h; simp at h
  | diverge => unfold replaceBlock.repl at h; rw [hs] at h; simp at h

theorem replaceBlock_assemble_fail_kind (title math : Str) :
    ∀ (starts stops : List Int) (s : Str) (f : Failure),
      replaceBlock.assemble title math starts stops s = Result.fail f →
      f = Failure.sliceOutOfRange := by
  intro starts
  induction starts with
  | nil => intro stops s f h; simp [replaceBlock.assemble] at h
  | cons start starts ih =>
    intro stops s f h
    cases stops with
    | nil => simp [replaceBlock.assemble] at h
    | cons stop stops =>
      rw [replaceBlock.assemble] at h
      cases hr : replaceBlock.repl title math start stop with
      | ok r =>
        rw [hr] at h
        simp only [Result.ok_bind] at h
        cases starts with
        | nil => simp [replaceBlock.assemble] at h
        | cons next rest =>
          simp only at h
          cases hg : slice math (stop + 1) next with
          | ok g =>
            rw [hg] at h
            simp only [Result.ok_bind] at h
            exact ih stops _ f h
          | fail e =>
            rw [hg] at h
            simp only [Result.fail_bind, Result.fail.injEq] at h
            subst h
            exact slice_fail_kind hg
          | diverge => rw [hg] at h; simp at h
      | fail e =>
        rw [hr] at h
        simp only [Result.fail_bind, Result.fail.injEq] at h
        subst h
        exact replaceBlock_repl_fail_kind hr
      | diverge => rw [hr] at h; simp at h

theorem scanStarts_mem (pat math : Str) :
    ∀ (n : Nat) (i x : Int), 0 ≤ i → x ∈ scanStarts pat math n i →
      i ≤ x ∧ x < i + n ∧ OccursAt pat math x.toNat := by
  intro n
  induction n with
  | zero => intro i x _ h; simp [scanStarts] at h
  | succ n ih =>
    intro i x h0 h
    rw [scanStarts] at h
    split at h
    · rename_i hocc
      simp only [List.mem_cons] at h
      rcases h with h | h
      · subst h
        exact ⟨le_refl _, by push_cast; omega, hocc⟩
      · obtain ⟨h1, h2, h3⟩ := ih (i + 1) x (by omega) h
        exact ⟨by omega, by push_cast; omega, h3⟩
    · obtain ⟨h1, h2, h3⟩ := ih (i + 1) x (by omega) h
      exact ⟨by omega, by push_cast; omega, h3⟩

theorem scanStarts_sorted (pat math : Str) :
    ∀ (n : Nat) (i : Int), 0 ≤ i →
      List.Pairwise (fun a b : Int => a < b) (scanStarts pat math n i) := by
  intro n
  induction n with
  | zero => intro i _; simp [scanStarts]
  | succ n ih =>
    intro i h0
    rw [scanStarts]
    split
    · refine List.Pairwise.cons (fun b hb => ?_) (ih (i + 1) (by omega))
      have := (scanStarts_mem pat math n (i + 1) b (by omega) hb).1
      omega
    · exact ih (i + 1) (by omega)

/-- What `replaceBlock` has computed when it returns, for a one-byte prefix. -/
theorem replaceBlock_eq_ok {title math r : Str} {p : Char}
    (h : replaceBlock title [p] math = Result.ok r) :
    (scanStarts [p, '{'] math ((math.length : Int) - 2 - 0).toNat 0 = [] ∧ r = math) ∨
    ∃ ends first rest last acc r1,
      scanStarts [p, '{'] math ((math.length : Int) - 2 - 0).toNat 0 = first :: rest ∧
      replaceBlock.ends math (first :: rest) = Result.ok ends ∧
      ends.getLast? = some last ∧
      slice math 0 first = Result.ok acc ∧
      replaceBlock.assemble title math (first :: rest) ends acc = Result.ok r1 ∧
      ((last + 1 < (math.length : Int) ∧
          ∃ t, slice math (last + 1) (math.length : Int) = Result.ok t ∧ r = r1 ++ t) ∨
        ((math.length : Int) ≤ last + 1 ∧ r = r1)) := by
  have hcollect := replaceBlock_collect_eq math [p] rfl (math.length + 1) 0 false []
    (le_refl 0) (by omega)
  have e : [p] ++ ['{'] = [p, '{'] := rfl
  rw [e] at hcollect
  unfold replaceBlock at h
  rw [hcollect] at h
  simp only [Result.ok_bind, Bool.false_or, List.nil_append] at h
  cases hst : scanStarts [p, '{'] math ((math.length : Int) - 2 - 0).toNat 0 with
  | nil =>
    rw [hst] at h
    simp only [List.isEmpty_nil, Bool.not_true, Bool.not_false, if_true, Result.pure_eq,
      Result.ok.injEq] at h
    exact Or.inl ⟨rfl, h.symm⟩
  | cons first rest =>
    rw [hst] at h
    simp only [List.isEmpty_cons, Bool.not_false, Bool.not_true, Bool.false_eq_true,
      if_false] at h
    obtain ⟨ends, h1, h⟩ := (Result.bind_eq_ok _ _ _).mp h
    cases hl : ends.getLast? with
    | none => rw [hl] at h; simp at h
    | some last =>
      rw [hl] at h
      simp only at h
      obtain ⟨acc, h2, h⟩ := (Result.bind_eq_ok _ _ _).mp h
      obtain ⟨r1, h3, h⟩ := (Result.bind_eq_ok _ _ _).mp h
      refine Or.inr ⟨ends, first, rest, last, acc, r1, rfl, h1, hl, h2, h3, ?_⟩
      by_cases hgt : (math.length : Int) > last + 1
      · rw [if_pos hgt] at h
        obtain ⟨t, h4, h⟩ := (Result.bind_eq_ok _ _ _).mp h
        simp only [Result.pure_eq, Result.ok.injEq] at h
        exact Or.inl ⟨by omega, t, h4, h.symm⟩
      · rw [if_neg hgt] at h
        simp only [Result.pure_eq, Result.ok.injEq] at h
        exact Or.inr ⟨by omega, h.symm⟩

/-- A failure of `replaceBlock`, for a one-byte prefix, is a failure of the
bracket matcher or a slice out of range. -/
theorem replaceBlock_fail_kind {title math : Str} {p : Char} {f : Failure}
    (h : replaceBlock title [p] math = Result.fail f) :
    f.IsMatcher ∨ f = Failure.sliceOutOfRange := by
  have hcollect := replaceBlock_collect_eq math [p] rfl (math.length + 1) 0 false []
    (le_refl 0) (by omega)
  unfold replaceBlock at h
  rw [hcollect] at h
  simp only [Result.ok_bind, Bool.false_or, List.nil_append] at h
  cases hst : scanStarts ([p] ++ ['{']) math ((math.length : Int) - 2 - 0).toNat 0 with
  | nil => rw [hst] at h; simp at h
  | cons first rest =>
    rw [hst] at h
    simp only [List.isEmpty_cons, Bool.not_false, Bool.not_true, Bool.false_eq_true,
      if_false] at h
    cases h1 : replaceBlock.ends math (first :: rest) with
    | ok ends =>
      rw [h1] at h
      simp only [Result.ok_bind] at h
      have hlen := (replaceBlock_ends_spec math _ _ h1).1
      cases hl : ends.getLast? with
      | none =>
        rw [List.getLast?_eq_none_iff] at hl
        subst hl
        simp at hlen
      | some last =>
        rw [hl] at h
        simp only at h
        cases h2 : slice math 0 first with
        | ok acc =>
          rw [h2] at h
          simp only [Result.ok_bind] at h
          cases h3 : replaceBlock.assemble title math (first :: rest) ends acc with
          | ok r1 =>
            rw [h3] at h
            simp only [Result.ok_bind] at h
            split at h
            · cases h4 : sliceFrom math (last + 1) with
              | ok t => rw [h4] at h; simp at h
              | fail e =>
                rw [h4] at h
                simp only [Result.fail_bind, Result.fail.injEq] at h
                subst h
                exact Or.inr (slice_fail_kind h4)
              | diverge => rw [h4] at h; simp at h
            · simp at h
          | fail e =>
            rw [h3] at h
            simp only [Result.fail_bind, Result.fail.injEq] at h
            subst h
            exact Or.inr (replaceBlock_assemble_fail_kind _ _ _ _ _ _ h3)
          | diverge => rw [h3] at h; simp at h
        | fail e =>
          rw [h2] at h
          simp only [Result.fail_bind, Result.fail.injEq] at h
          subst h
          exact Or.inr (slice_fail_kind h2)
        | diverge => rw [h2] at h; simp at h
    | fail e =>
      rw [h1] at h
      simp only [Result.fail_bind, Result.fail.injEq] at h
      subst h
      exact Or.inl (replaceBlock_ends_fail_kind _ _ _ h1)
    | diverge => rw [h1] at h; simp at h

theorem replaceBlock_assemble_cons_eq_ok {title math acc r : Str} {s0 e0 : Int}
    {ss es : List Int}
    (h : replaceBlock.assemble title math (s0 :: ss) (e0 :: es) acc = Result.ok r) :
    ∃ body, slice math (s0 + 2) e0 = Result.ok body ∧
      ((ss = [] ∧ r = acc ++ blockEnv title body) ∨
        ∃ s1 ss1 g, ss = s1 :: ss1 ∧ slice math (e0 + 1) s1 = Result.ok g ∧
          replaceBlock.assemble title math ss es (acc ++ blockEnv title body ++ g)
            = Result.ok r) := by
  rw [replaceBlock.assemble] at h
  obtain ⟨r0, h1, h⟩ := (Result.bind_eq_ok _ _ _).mp h
  obtain ⟨body, hb, hr0⟩ := replaceBlock_repl_eq_ok h1
  subst hr0
  refine ⟨body, hb, ?_⟩
  cases ss with
  | nil =>
    simp only [replaceBlock.assemble, Result.pure_eq, Result.ok.injEq] at h
    exact Or.inl ⟨rfl, h.symm⟩
  | cons s1 ss1 =>
    simp only at h
    obtain ⟨g, h2, h⟩ := (Result.bind_eq_ok _ _ _).mp h
    exact Or.inr ⟨s1, ss1, g, rfl, h2, h⟩

/-- When the reassembly loop completes on increasing starts, every region
ends after it starts and before every later region starts. -/
theorem replaceBlock_assemble_disjoint (title math : Str) :
    ∀ (starts ends : List Int) (acc r : Str),
      List.Pairwise (fun a b : Int => a < b) starts →
      replaceBlock.assemble title math starts ends acc = Result.ok r →
      (∀ x ∈ starts.zip ends, x.1 < x.2) ∧
      ∀ x ∈ starts.zip ends, ∀ y ∈ starts.zip ends, x.1 < y.1 → x.2 < y.1 := by
  intro starts
  induction starts with
  | nil => intro ends acc r _ _; simp
  | cons s0 ss ih =>
    intro ends acc r hsorted h
    cases ends with
    | nil => simp
    | cons e0 es =>
      obtain ⟨body, hb, hrest⟩ := replaceBlock_assemble_cons_eq_ok h
      have hb0 := (slice_eq_ok hb).2.1
      rw [List.pairwise_cons] at hsorted
      obtain ⟨hhead, htail⟩ := hsorted
      have hrec : (∀ x ∈ ss.zip es, x.1 < x.2) ∧
          (∀ x ∈ ss.zip es, ∀ y ∈ ss.zip es, x.1 < y.1 → x.2 < y.1) ∧
          (∀ y ∈ ss.zip es, e0 < y.1) := by
        rcases hrest with ⟨hnil, _⟩ | ⟨s1, ss1, g, hss, hg, hr⟩
        · subst hnil; simp
        · obtain ⟨i1, i2⟩ := ih es _ r htail hr
          refine ⟨i1, i2, fun y hy => ?_⟩
          have hg1 := (slice_eq_ok hg).2.1
          have hy1 : y.1 ∈ ss := (List.of_mem_zip hy).1
          rw [hss] at hy1 htail
          rw [List.pairwise_cons] at htail
          simp only [List.mem_cons] at hy1
          rcases hy1 with hy1 | hy1
          · omega
          · have := htail.1 _ hy1
            omega
      obtain ⟨r1, r2, r3⟩ := hrec
      simp only [List.zip_cons_cons, List.mem_cons]
      refine ⟨fun x hx => ?_, fun x hx y hy hxy => ?_⟩
      · rcases hx with hx | hx
        · subst hx; simp only; omega
        · exact r1 x hx
      · rcases hx with hx | hx <;> rcases hy with hy | hy
        · subst hx hy; omega
        · subst hx; exact r3 y hy
        · subst hy
          have := hhead x.1 (List.of_mem_zip hx).1
          simp only at hxy
          omega
        · exact r2 x hx y hy hxy

theorem exists_mem_zip_of_mem :
    ∀ (l1 l2 : List Int) (x : Int), l2.length = l1.length → x ∈ l1 →
      ∃ y, (x, y) ∈ l1.zip l2 := by
  intro l1
  induction l1 with
  | nil => intro l2 x _ h; simp at h
  | cons a l1 ih =>
    intro l2 x hlen hx
    cases l2 with
    | nil => simp at hlen
    | cons b l2 =>
      simp only [List.mem_cons] at hx
      rcases hx with hx | hx
      · subst hx
        exact ⟨b, by simp⟩
      · obtain ⟨y, hy⟩ := ih l2 x (by simpa using hlen) hx
        exact ⟨y, by simp [hy]⟩

/-- When `replaceBlock` returns, every collected start has its close brace, and
the regions are disjoint: each ends before every later one starts. -/
theorem replaceBlock_regions_of_ok {title math r : Str} {p : Char} {found : Bool}
    {starts : List Int}
    (h : replaceBlock title [p] math = Result.ok r)
    (hc : replaceBlock.collect math [p] (math.length + 1) 0 false [] = Result.ok (found, starts)) :
    ∃ ends, replaceBlock.ends math starts = Result.ok ends ∧
      (∀ x ∈ starts.zip ends, x.1 < x.2) ∧
      ∀ x ∈ starts.zip ends, ∀ y ∈ starts.zip ends, x.1 < y.1 → x.2 < y.1 := by
  have hcollect := replaceBlock_collect_eq math [p] rfl (math.length + 1) 0 false []
    (le_refl 0) (by omega)
  have e : [p] ++ ['{'] = [p, '{'] := rfl
  rw [e, hc] at hcollect
  simp only [Result.ok.injEq, Prod.mk.injEq, List.nil_append] at hcollect
  obtain ⟨_, hst⟩ := hcollect
  rcases replaceBlock_eq_ok h with ⟨hnil, _⟩ | ⟨ends, first, rest, last, acc, r1, hs, he, _, _, ha, _⟩
  · rw [hst, hnil]
    exact ⟨[], rfl, by simp, by simp⟩
  · have hsorted := scanStarts_sorted [p, '{'] math ((math.length : Int) - 2 - 0).toNat 0
      (le_refl 0)
    rw [← hst] at hs hsorted
    rw [hs]
    rw [hs] at hsorted
    obtain ⟨d1, d2⟩ := replaceBlock_assemble_disjoint title math _ _ _ _ hsorted ha
    exact ⟨ends, he, d1, d2⟩

/-! ## Claim about nested block regions -/

/-- C19: for a one-byte prefix `p`, if two indices `i < k` are collected and `k`
lies before the close brace `e` matching the `{` at `i + 1`, then
`replaceBlock(title, p)` aborts, with a failure of the bracket matcher or a
slice out of range, and returns no text; and whenever `replaceBlock` returns,
every collected start has a matching close brace after it and each region ends
before every later region starts. -/
theorem replaceBlock_nested_regions (title math : Str) (p : Char) :
    (∀ (found : Bool) (starts : List Int) (i k e : Int),
      replaceBlock.collect math [p] (math.length + 1) 0 false [] = Result.ok (found, starts) →
      i ∈ starts → k ∈ starts → i < k →
      getMatchingBracket math (i + 1) Direction.Right = Result.ok e → k < e →
      ∃ f, replaceBlock title [p] math = Result.fail f ∧
        (f.IsMatcher ∨ f = Failure.sliceOutOfRange)) ∧
    (∀ (r : Str) (found : Bool) (starts : List Int),
      replaceBlock title [p] math = Result.ok r →
      replaceBlock.collect math [p] (math.length + 1) 0 false [] = Result.ok (found, starts) →
      ∃ ends, replaceBlock.ends math starts = Result.ok ends ∧
        (∀ x ∈ starts.zip ends, x.1 < x.2) ∧
        ∀ x ∈ starts.zip ends, ∀ y ∈ starts.zip ends, x.1 < y.1 → x.2 < y.1) := by
  refine ⟨fun found starts i k e hc hi hk hik he hke => ?_,
    fun r found starts h hc => replaceBlock_regions_of_ok h hc⟩
  cases h : replaceBlock title [p] math with
  | ok r =>
    obtain ⟨ends, hends, _, hdis⟩ := replaceBlock_regions_of_ok h hc
    obtain ⟨hlen, hspec⟩ := replaceBlock_ends_spec math starts ends hends
    obtain ⟨e1, hi1⟩ := exists_mem_zip_of_mem starts ends i hlen hi
    obtain ⟨e2, hk1⟩ := exists_mem_zip_of_mem starts ends k hlen hk
    have h1 := hspec _ hi1
    simp only at h1
    rw [he] at h1
    simp only [Result.ok.injEq] at h1
    subst h1
    have := hdis _ hi1 _ hk1 hik
    simp only at this
    omega
  | fail f => exact ⟨f, rfl, replaceBlock_fail_kind h⟩
  | diverge => exact absurd h (replaceBlock_ne_diverge title [p] math)

/-- Witness of C19: in `&{a&{b}c}` the starts 0 and 3 are collected, the `{` at 1
is matched at 8, and `replaceBlock` aborts on a slice out of range. -/
theorem replaceBlock_nested_regions_witness :
    ∃ f, replaceBlock ['m'] ['&'] ['&', '{', 'a', '&', '{', 'b', '}', 'c', '}'] = Result.fail f ∧
      (f.IsMatcher ∨ f = Failure.sliceOutOfRange) :=
  (replaceBlock_nested_regions ['m'] ['&', '{', 'a', '&', '{', 'b', '}', 'c', '}'] '&').1
    true [0, 3] 0 3 8 (by decide) (by decide) (by decide) (by decide) (by decide) (by decide)

/-! ## What `getChildrenOf` returns -/

theorem getChildrenOf_rightLoop_bounds (txt : Str) :
    ∀ (fuel : Nat) (i0 i : Int), getChildrenOf.rightLoop txt fuel i0 = Result.ok i →
      i0 ≤ i ∧ (i = i0 ∨ i ≤ (txt.length : Int)) ∧
      (∀ q c, i0 ≤ q → q < i → charAt txt q = some c → c ≠ ' ' ∧ c ≠ '}') ∧
      (∀ c, charAt txt i = some c → c = ' ' ∨ c = '}') := by
  intro fuel
  induction fuel with
  | zero => intro i0 i h; simp [getChildrenOf.rightLoop] at h
  | succ fuel ih =>
    intro i0 i h
    rw [getChildrenOf.rightLoop] at h
    split at h
    · rename_i hlt
      obtain ⟨c, hc, h⟩ := (Result.bind_eq_ok _ _ _).mp h
      have hc1 := index_eq_ok.mp hc
      split at h
      · rename_i hcond
        obtain ⟨h1, h2, h3, h4⟩ := ih (i0 + 1) i h
        refine ⟨by omega, ?_, fun q c1 hq1 hq2 hq => ?_, h4⟩
        · rcases h2 with h2 | h2
          · right; omega
          · right; exact h2
        · by_cases hq0 : q = i0
          · subst hq0
            rw [hc1] at hq
            simp only [Option.some.injEq] at hq
            subst hq
            exact hcond
          · exact h3 q c1 (by omega) hq2 hq
      · rename_i hcond
        simp only [Result.pure_eq, Result.ok.injEq] at h
        subst h
        refine ⟨le_refl _, Or.inl rfl, fun q c1 hq1 hq2 _ => by omega, fun c1 hc2 => ?_⟩
        rw [hc1] at hc2
        simp only [Option.some.injEq] at hc2
        subst hc2
        by_cases h1 : c = ' '
        · exact Or.inl h1
        · by_cases h2 : c = '}'
          · exact Or.inr h2
          · exact absurd ⟨h1, h2⟩ hcond
    · rename_i hlt
      simp only [Result.pure_eq, Result.ok.injEq] at h
      subst h
      refine ⟨le_refl _, Or.inl rfl, fun q c1 hq1 hq2 _ => by omega, fun c1 hc2 => ?_⟩
      have := (charAt_inBuffer hc2).2
      omega

theorem getChildrenOf_leftLoop_bounds (txt : Str) :
    ∀ (fuel : Nat) (i0 i : Int), getChildrenOf.leftLoop txt fuel i0 = Result.ok i →
      i ≤ i0 ∧ (i = i0 ∨ -1 ≤ i) ∧
      (∀ q c, i < q → q ≤ i0 → charAt txt q = some c → c ≠ ' ' ∧ c ≠ '{') ∧
      (∀ c, charAt txt i = some c → c = ' ' ∨ c = '{') := by
  intro fuel
  induction fuel with
  | zero => intro i0 i h; simp [getChildrenOf.leftLoop] at h
  | succ fuel ih =>
    intro i0 i h
    rw [getChildrenOf.leftLoop] at h
    split at h
    · rename_i hge
      obtain ⟨c, hc, h⟩ := (Result.bind_eq_ok _ _ _).mp h
      have hc1 := index_eq_ok.mp hc
      split at h
      · rename_i hcond
        obtain ⟨h1, h2, h3, h4⟩ := ih (i0 - 1) i h
        refine ⟨by omega, ?_, fun q c1 hq1 hq2 hq => ?_, h4⟩
        · rcases h2 with h2 | h2
          · right; omega
          · right; exact h2
        · by_cases hq0 : q = i0
          · subst hq0
            rw [hc1] at hq
            simp only [Option.some.injEq] at hq
            subst hq
            exact hcond
          · exact h3 q c1 hq1 (by omega) hq
      · rename_i hcond
        simp only [Result.pure_eq, Result.ok.injEq] at h
        subst h
        refine ⟨le_refl _, Or.inl rfl, fun q c1 hq1 hq2 _ => by omega, fun c1 hc2 => ?_⟩
        rw [hc1] at hc2
        simp only [Option.some.injEq] at hc2
        subst hc2
        by_cases h1 : c = ' '
        · exact Or.inl h1
        · by_cases h2 : c = '{'
          · exact Or.inr h2
          · exact absurd ⟨h1, h2⟩ hcond
    · rename_i hge
      simp only [Result.pure_eq, Result.ok.injEq] at h
      subst h
      refine ⟨le_refl _, Or.inl rfl, fun q c1 hq1 hq2 _ => by omega, fun c1 hc2 => ?_⟩
      have := (charAt_inBuffer hc2).1
      omega

/-- An index returned by `getMatchingBracket` from inside the buffer is another
index of the buffer, on the side of the scan. -/
theorem getMatchingBracket_ok_bounds {str : Str} {loc m : Int} {d : Direction}
    (hin : InBuffer str loc) (h : getMatchingBracket str loc d = Result.ok m) :
    InBuffer str m ∧ ∃ k : Nat, 0 < k ∧ m = d.pos loc k ∧ runningDepth str d loc k = 0 ∧
      ∀ j, j < k → 0 < runningDepth str d loc j := by
  have hne : loc ≠ (str.length : Int) - 1 := by
    intro e
    simp [getMatchingBracket, e] at h
  rcases getMatchingBracket_total str d loc hin hne with ⟨k, hk, hkin, hz, hp, heq⟩ | ⟨_, hf⟩
  · rw [heq] at h
    simp only [Result.ok.injEq] at h
    subst h
    exact ⟨hkin, k, hk, rfl, hz, hp⟩
  · rw [hf] at h
    cases h

/-- What `getChildrenOf` has computed when it returns: the two bytes next to
`root` exist; next to a brace the operand bound is the index returned by the
bracket matcher, otherwise it is where the bare scan stopped. -/
theorem getChildrenOf_eq_ok {root : Int} {txt : Str} {c : (Int × Int) × (Int × Int)}
    (h : getChildrenOf root txt = Result.ok c) :
    ∃ rc lc, charAt txt (root + 1) = some rc ∧ charAt txt (root - 1) = some lc ∧
      c.1.1 = root + 1 ∧ c.2.2 = root - 1 ∧
      (((rc = '{' ∨ rc = '}') ∧
          getMatchingBracket txt (root + 1) Direction.Right = Result.ok c.1.2) ∨
        (¬ (rc = '{' ∨ rc = '}') ∧
          getChildrenOf.rightLoop txt (txt.length + 1) root = Result.ok (c.1.2 + 1))) ∧
      (((lc = '{' ∨ lc = '}') ∧
          getMatchingBracket txt (root - 1) Direction.Left = Result.ok c.2.1) ∨
        (¬ (lc = '{' ∨ lc = '}') ∧
          getChildrenOf.leftLoop txt (txt.length + 1) (root - 1) = Result.ok (c.2.1 - 1))) := by
  unfold getChildrenOf at h
  obtain ⟨rt, h1, h⟩ := (Result.bind_eq_ok _ _ _).mp h
  obtain ⟨lt, h2, h⟩ := (Result.bind_eq_ok _ _ _).mp h
  obtain ⟨c01, h3, h⟩ := (Result.bind_eq_ok _ _ _).mp h
  obtain ⟨c10, h4, h⟩ := (Result.bind_eq_ok _ _ _).mp h
  simp only [Result.pure_eq, Result.ok.injEq] at h
  obtain ⟨rc, hrc⟩ : ∃ rc, charAt txt (root + 1) = some rc := by
    cases hc : charAt txt (root + 1) with
    | none => simp [getType, index, hc] at h1
    | some rc => exact ⟨rc, rfl⟩
  obtain ⟨lc, hlc⟩ : ∃ lc, charAt txt (root - 1) = some lc := by
    cases hc : charAt txt (root - 1) with
    | none => simp [getType, index, hc] at h2
    | some lc => exact ⟨lc, rfl⟩
  rw [getType_eq hrc] at h1
  rw [getType_eq hlc] at h2
  simp only [Result.ok.injEq] at h1 h2
  have hrin := charAt_inBuffer hrc
  have hlin := charAt_inBuffer hlc
  -- the right operand
  have hright : (((rc = '{' ∨ rc = '}') ∧
        getMatchingBracket txt (root + 1) Direction.Right = Result.ok c01) ∨
      (¬ (rc = '{' ∨ rc = '}') ∧
        getChildrenOf.rightLoop txt (txt.length + 1) root = Result.ok (c01 + 1))) ∧
      c01 ≠ (txt.length : Int) := by
    by_cases hb : rc = '{' ∨ rc = '}'
    · rw [if_pos hb] at h1
      subst h1
      unfold getChildrenOf.rightEnd at h3
      rw [if_neg (by decide), if_pos rfl] at h3
      have := (getMatchingBracket_ok_bounds hrin h3).1.2
      exact ⟨Or.inl ⟨hb, h3⟩, by omega⟩
    · rw [if_neg hb] at h1
      subst h1
      unfold getChildrenOf.rightEnd at h3
      rw [if_pos rfl] at h3
      obtain ⟨i, hi, h3⟩ := (Result.bind_eq_ok _ _ _).mp h3
      simp only [Result.pure_eq, Result.ok.injEq] at h3
      have hb1 := (getChildrenOf_rightLoop_bounds txt _ _ _ hi).2.1
      have e : c01 + 1 = i := by omega
      rw [e]
      refine ⟨Or.inr ⟨hb, hi⟩, ?_⟩
      have := hrin.2
      rcases hb1 with hb1 | hb1 <;> omega
  have hleft : ((lc = '{' ∨ lc = '}') ∧
        getMatchingBracket txt (root - 1) Direction.Left = Result.ok c10) ∨
      (¬ (lc = '{' ∨ lc = '}') ∧
        getChildrenOf.leftLoop txt (txt.length + 1) (root - 1) = Result.ok (c10 - 1)) := by
    by_cases hb : lc = '{' ∨ lc = '}'
    · rw [if_pos hb] at h2
      subst h2
      unfold getChildrenOf.leftStart at h4
      rw [if_neg (by decide), if_pos rfl] at h4
      exact Or.inl ⟨hb, h4⟩
    · rw [if_neg hb] at h2
      subst h2
      unfold getChildrenOf.leftStart at h4
      rw [if_pos rfl] at h4
      obtain ⟨i, hi, h4⟩ := (Result.bind_eq_ok _ _ _).mp h4
      simp only [Result.pure_eq, Result.ok.injEq] at h4
      have e : c10 - 1 = i := by omega
      rw [e]
      exact Or.inr ⟨hb, hi⟩
  rw [if_neg hright.2] at h
  subst h
  exact ⟨rc, lc, hrc, hlc, rfl, rfl, hright.1, hleft⟩

theorem getChildrenOf_bounds {root : Int} {txt : Str} {c : (Int × Int) × (Int × Int)}
    (hroot : charAt txt root = some '/') (h : getChildrenOf root txt = Result.ok c) :
    c.1.1 = root + 1 ∧ c.2.2 = root - 1 ∧ root ≤ c.1.2 ∧ c.1.2 < (txt.length : Int) ∧
      0 ≤ c.2.1 ∧ c.2.1 ≤ root := by
  obtain ⟨rc, lc, hrc, hlc, e1, e2, hright, hleft⟩ := getChildrenOf_eq_ok h
  have hrin := charAt_inBuffer hrc
  have hlin := charAt_inBuffer hlc
  refine ⟨e1, e2, ?_⟩
  have hR : root ≤ c.1.2 ∧ c.1.2 < (txt.length : Int) := by
    rcases hright with ⟨_, hm⟩ | ⟨_, hl⟩
    · obtain ⟨hin, k, hk, hpos, _, _⟩ := getMatchingBracket_ok_bounds hrin hm
      simp only [Direction.pos] at hpos
      exact ⟨by omega, hin.2⟩
    · obtain ⟨h1, h2, _, h4⟩ := getChildrenOf_rightLoop_bounds txt _ _ _ hl
      have hne : c.1.2 + 1 ≠ root := by
        intro e
        rw [e, hroot] at h4
        have := h4 '/' rfl
        rcases this with h | h <;> exact absurd h (by decide)
      have := hrin.2
      rcases h2 with h2 | h2
      · exact absurd h2 hne
      · exact ⟨by omega, by omega⟩
  have hL : 0 ≤ c.2.1 ∧ c.2.1 ≤ root := by
    rcases hleft with ⟨_, hm⟩ | ⟨_, hl⟩
    · obtain ⟨hin, k, hk, hpos, _, _⟩ := getMatchingBracket_ok_bounds hlin hm
      simp only [Direction.pos] at hpos
      exact ⟨hin.1, by omega⟩
    · obtain ⟨h1, h2, _, _⟩ := getChildrenOf_leftLoop_bounds txt _ _ _ hl
      have := hlin.1
      rcases h2 with h2 | h2 <;> exact ⟨by omega, by omega⟩
  exact ⟨hR.1, hR.2, hL.1, hL.2⟩

/-! ## The failures of `replaceFrac` -/

theorem index_fail_kind {s : Str} {i : Int} {f : Failure} (h : index s i = Result.fail f) :
    f = Failure.indexOutOfRange := by
  unfold index at h
  split at h
  · cases h
  · simp only [Result.fail.injEq] at h
    exact h.symm

theorem bind_fail_kind {α β : Type} {P : Failure → Prop} {x : Result α} {g : α → Result β}
    {f : Failure} (h : (x >>= g) = Result.fail f)
    (hx : ∀ e, x = Result.fail e → P e) (hg : ∀ a e, x = Result.ok a → g a = Result.fail e → P e) :
    P f := by
  cases x with
  | ok a => exact hg a f rfl (by simpa using h)
  | fail e =>
    simp only [Result.fail_bind, Result.fail.injEq] at h
    subst h
    exact hx e rfl
  | diverge => simp at h

theorem getType_fail_kind {loc : Int} {s : Str} {f : Failure}
    (h : getType loc s = Result.fail f) : f = Failure.indexOutOfRange := by
  unfold getType at h
  refine bind_fail_kind (P := fun e => e = Failure.indexOutOfRange) h
    (fun e he => index_fail_kind he) (fun c e _ hc => ?_)
  split at hc <;> simp at hc

theorem getType_cases {loc : Int} {s : Str} {t : String} (h : getType loc s = Result.ok t) :
    t = "bracket" ∨ t = "nobracket" := by
  unfold getType at h
  obtain ⟨c, _, h⟩ := (Result.bind_eq_ok _ _ _).mp h
  split at h
  · simp only [Result.pure_eq, Result.ok.injEq] at h
    exact Or.inl h.symm
  · simp only [Result.pure_eq, Result.ok.injEq] at h
    exact Or.inr h.symm

theorem getChildrenOf_rightLoop_fail_kind (txt : Str) :
    ∀ (fuel : Nat) (i : Int) (f : Failure),
      getChildrenOf.rightLoop txt fuel i = Result.fail f → f = Failure.indexOutOfRange := by
  intro fuel
  induction fuel with
  | zero => intro i f h; simp [getChildrenOf.rightLoop] at h
  | succ fuel ih =>
    intro i f h
    rw [getChildrenOf.rightLoop] at h
    split at h
    · refine bind_fail_kind (P := fun e => e = Failure.indexOutOfRange) h
        (fun e he => index_fail_kind he) (fun c e _ hc => ?_)
      split at hc
      · exact ih _ _ hc
      · simp at hc
    · simp at h

theorem getChildrenOf_leftLoop_fail_kind (txt : Str) :
    ∀ (fuel : Nat) (i : Int) (f : Failure),
      getChildrenOf.leftLoop txt fuel i = Result.fail f → f = Failure.indexOutOfRange := by
  intro fuel
  induction fuel with
  | zero => intro i f h; simp [getChildrenOf.leftLoop] at h
  | succ fuel ih =>
    intro i f h
    rw [getChildrenOf.leftLoop] at h
    split at h
    · refine bind_fail_kind (P := fun e => e = Failure.indexOutOfRange) h
        (fun e he => index_fail_kind he) (fun c e _ hc => ?_)
      split at hc
      · exact ih _ _ hc
      · simp at hc
    · simp at h

/-- A failure of `getChildrenOf` is a failure of the bracket matcher or an
index out of range; the branch "illegal child type" is never taken. -/
theorem getChildrenOf_fail_kind {root : Int} {txt : Str} {f : Failure}
    (h : getChildrenOf root txt = Result.fail f) :
    f.IsMatcher ∨ f = Failure.indexOutOfRange := by
  unfold getChildrenOf at h
  refine bind_fail_kind (P := fun e => e.IsMatcher ∨ e = Failure.indexOutOfRange) h
    (fun e he => Or.inr (getType_fail_kind he)) (fun rt e hrt h => ?_)
  refine bind_fail_kind (P := fun e => e.IsMatcher ∨ e = Failure.indexOutOfRange) h
    (fun e he => Or.inr (getType_fail_kind he)) (fun lt e hlt h => ?_)
  refine bind_fail_kind (P := fun e => e.IsMatcher ∨ e = Failure.indexOutOfRange) h
    (fun e he => ?_) (fun c01 e _ h => ?_)
  · unfold getChildrenOf.rightEnd at he
    rcases getType_cases hrt with ht | ht
    · subst ht
      rw [if_neg (by decide), if_pos rfl] at he
      exact Or.inl (getMatchingBracket_fail_kind he)
    · subst ht
      rw [if_pos rfl] at he
      refine bind_fail_kind (P := fun e => e.IsMatcher ∨ e = Failure.indexOutOfRange) he
        (fun e he => Or.inr (getChildrenOf_rightLoop_fail_kind _ _ _ _ he))
        (fun i e _ hc => by simp at hc)
  · refine bind_fail_kind (P := fun e => e.IsMatcher ∨ e = Failure.indexOutOfRange) h
      (fun e he => ?_) (fun c10 e _ h => by simp at h)
    unfold getChildrenOf.leftStart at he
    rcases getType_cases hlt with ht | ht
    · subst ht
      rw [if_neg (by decide), if_pos rfl] at he
      exact Or.inl (getMatchingBracket_fail_kind he)
    · subst ht
      rw [if_pos rfl] at he
      refine bind_fail_kind (P := fun e => e.IsMatcher ∨ e = Failure.indexOutOfRange) he
        (fun e he => Or.inr (getChildrenOf_leftLoop_fail_kind _ _ _ _ he))
        (fun i e _ hc => by simp at hc)

theorem fixBracket_fail_kind {s : Str} {f : Failure} (h : fixBracket s = Result.fail f) :
    f = Failure.indexOutOfRange := by
  unfold fixBracket at h
  refine bind_fail_kind (P := fun e => e = Failure.indexOutOfRange) h
    (fun e he => index_fail_kind he) (fun c e _ hc => ?_)
  split at hc
  · refine bind_fail_kind (P := fun e => e = Failure.indexOutOfRange) hc
      (fun e he => index_fail_kind he) (fun d e _ hd => ?_)
    split at hd <;> simp at hd
  · simp at hc

/-- With operand bounds inside the buffer, the splice takes no slice out of
range: it can only fail on an index out of range, in `fixBracket`. -/
theorem replaceFracChildren_fail_kind {r : Int} {c : (Int × Int) × (Int × Int)} {txt : Str}
    {f : Failure} (h1 : c.1.1 = r + 1) (h2 : c.2.2 = r - 1) (h3 : r ≤ c.1.2)
    (h4 : c.1.2 < (txt.length : Int)) (h5 : 0 ≤ c.2.1) (h6 : c.2.1 ≤ r)
    (h : replaceFracChildren r c txt = Result.fail f) : f = Failure.indexOutOfRange := by
  unfold replaceFracChildren sliceFrom at h
  rw [slice_of_bounds txt c.1.1 (c.1.2 + 1) (by omega) (by omega) (by omega),
    slice_of_bounds txt c.2.1 (c.2.2 + 1) (by omega) (by omega) (by omega),
    slice_of_bounds txt 0 c.2.1 (by omega) (by omega) (by omega),
    slice_of_bounds txt (c.1.2 + 1) _ (by omega) (by omega) (le_refl _)] at h
  simp only [Result.ok_bind] at h
  refine bind_fail_kind (P := fun e => e = Failure.indexOutOfRange) h
    (fun e he => fixBracket_fail_kind he) (fun l e _ h => ?_)
  refine bind_fail_kind (P := fun e => e = Failure.indexOutOfRange) h
    (fun e he => fixBracket_fail_kind he) (fun l e _ h => by simp at h)

theorem getRoot_searchRight_fail_kind (txt : Str) :
    ∀ (fuel : Nat) (j loc : Int) (found : Bool) (f : Failure), 0 ≤ j →
      getRoot.searchRight txt fuel j loc found = Result.fail f → f.IsMatcher := by
  intro fuel
  induction fuel with
  | zero => intro j loc found f _ h; simp [getRoot.searchRight] at h
  | succ fuel ih =>
    intro j loc found f h0 h
    rw [getRoot.searchRight] at h
    split at h
    · rename_i hlt
      rw [slice_of_bounds txt j (j + 2) h0 (by omega) (by omega)] at h
      simp only [Result.ok_bind] at h
      split at h
      · refine bind_fail_kind (P := Failure.IsMatcher) h
          (fun e he => getMatchingBracket_fail_kind he) (fun m e _ hm => ?_)
        split at hm
        · exact ih _ _ _ _ (by omega) hm
        · exact ih _ _ _ _ (by omega) hm
      · exact ih _ _ _ _ (by omega) h
    · simp at h

theorem getRoot_loop_fail_kind (txt : Str) :
    ∀ (fuel : Nat) (loc : Int) (found : Bool) (f : Failure), 0 ≤ loc →
      loc ≤ (txt.length : Int) →
      getRoot.loop txt fuel loc found = Result.fail f → f.IsMatcher := by
  intro fuel
  induction fuel with
  | zero => intro loc found f _ _ h; simp [getRoot.loop] at h
  | succ fuel ih =>
    intro loc found f h0 h1 h
    rw [getRoot.loop] at h
    split at h
    · refine bind_fail_kind (P := Failure.IsMatcher) h
        (fun e he => getRoot_searchRight_fail_kind txt _ _ _ _ _ (by omega) he)
        (fun r1 e hr1 h => ?_)
      have hb : 0 ≤ r1.1 ∧ r1.1 ≤ (txt.length : Int) := by
        rcases (getRoot_searchRight_spec txt _ _ _ _ (by omega)).2 r1 hr1 with e1 | ⟨_, e2, e3, _⟩
        · rw [e1]; exact ⟨h0, h1⟩
        · exact ⟨by omega, by omega⟩
      rw [getRoot_searchLeft_eq txt _ (r1.1 - 1) r1.1 r1.2 (by omega) (by omega)] at h
      simp only [Result.ok_bind] at h
      exact ih _ _ _ hb.1 hb.2 h
    · simp at h

/-- A failure of one pass of the loop of `replaceFrac` is a failure of the
bracket matcher or an index out of range. -/
theorem replaceFrac_step_fail_kind {x : Str} {f : Failure}
    (h : replaceFrac.step x = Result.fail f) : f.IsMatcher ∨ f = Failure.indexOutOfRange := by
  unfold replaceFrac.step at h
  rcases hasFractions_total x with ⟨p, hp, _, hh⟩ | ⟨_, hh⟩
  · rw [hh] at h
    simp only [Result.ok_bind, if_true] at h
    refine bind_fail_kind (P := fun e => e.IsMatcher ∨ e = Failure.indexOutOfRange) h
      (fun e he => Or.inl (getRoot_loop_fail_kind x _ _ _ _ (by have := hp.1; omega)
        (by have := hp.2.1; omega) he))
      (fun root e hroot h => ?_)
    have hrc : charAt x root = some '/' := by
      rcases (getRoot_spec p x).2 root hroot with e1 | ⟨_, _, e2, _⟩
      · rw [e1]; exact hp.2.2.1
      · exact e2
    refine bind_fail_kind (P := fun e => e.IsMatcher ∨ e = Failure.indexOutOfRange) h
      (fun e he => getChildrenOf_fail_kind he) (fun c e hc h => ?_)
    obtain ⟨b1, b2, b3, b4, b5, b6⟩ := getChildrenOf_bounds hrc hc
    refine bind_fail_kind (P := fun e => e.IsMatcher ∨ e = Failure.indexOutOfRange) h
      (fun e he => Or.inr (replaceFracChildren_fail_kind b1 b2 b3 b4 b5 b6 he))
      (fun s e _ h => by simp at h)
  · rw [hh] at h
    simp at h

theorem replaceFrac_loop_fail_kind :
    ∀ (fuel : Nat) (x : Str) (f : Failure), replaceFrac.loop fuel x = Result.fail f →
      f.IsMatcher ∨ f = Failure.indexOutOfRange := by
  intro fuel
  induction fuel with
  | zero => intro x f h; simp [replaceFrac.loop] at h
  | succ fuel ih =>
    intro x f h
    rw [replaceFrac.loop] at h
    cases hs : replaceFrac.step x with
    | ok o =>
      rw [hs] at h
      cases o with
      | none => simp at h
      | some s => exact ih s f h
    | fail e =>
      rw [hs] at h
      simp only [Result.fail.injEq] at h
      subst h
      exact replaceFrac_step_fail_kind hs
    | diverge => rw [hs] at h; simp at h

/-! ## Claim about the failure paths of `replaceFrac` -/

/-- C14, as stated, fails: `{a/}` is brace-balanced, and `replaceFrac` aborts on
it: the byte after the `/` is a brace and the last byte, so
`getMatchingBracket` stops on its guard "Open bracket at end of string!". -/
theorem replaceFrac_balanced_counterexample :
    Balanced ['{', 'a', '/', '}'] ∧
    replaceFrac ['{', 'a', '/', '}'] = Result.fail Failure.openBracketAtEnd := by
  decide

/-- C14, amended: on every input, balanced or not, `replaceFrac` terminates,
and it never fails on a slice out of range nor on an illegal child type: a
failure of `replaceFrac` is a failure of the bracket matcher or an index out of
range. -/
theorem replaceFrac_failure_paths (x : Str) :
    replaceFrac x ≠ Result.diverge ∧
    replaceFrac x ≠ Result.fail Failure.sliceOutOfRange ∧
    replaceFrac x ≠ Result.fail Failure.illegalChildType ∧
    ∀ f, replaceFrac x = Result.fail f → f.IsMatcher ∨ f = Failure.indexOutOfRange := by
  have hk : ∀ f, replaceFrac x = Result.fail f → f.IsMatcher ∨ f = Failure.indexOutOfRange :=
    fun f h => replaceFrac_loop_fail_kind _ x f h
  refine ⟨?_, fun h => ?_, fun h => ?_, hk⟩
  · obtain ⟨n, _, y, _, hfin⟩ := replaceFrac_loop_terminates (x.count '/' + 1) x
      (Nat.lt_succ_self _)
    rcases hfin with ⟨_, h⟩ | ⟨e, _, h⟩
    · unfold replaceFrac; rw [h]; simp
    · unfold replaceFrac; rw [h]; simp
  · have := hk _ h
    revert this
    decide
  · have := hk _ h
    revert this
    decide

/-- Witness of C14 (amended): the failure of `replaceFrac` on `{a/}` is a failure
of the bracket matcher. -/
theorem replaceFrac_failure_paths_witness :
    Failure.openBracketAtEnd.IsMatcher ∨ Failure.openBracketAtEnd = Failure.indexOutOfRange :=
  (replaceFrac_failure_paths ['{', 'a', '/', '}']).2.2.2 Failure.openBracketAtEnd (by decide)

/-! ## Brace balance under replacement of parts -/

theorem balanced_iff (s : Str) : Balanced s ↔ NonNegFrom 0 s ∧ braceNet s = 0 := by
  unfold Balanced NonNegFrom
  constructor
  · rintro ⟨h1, h2⟩
    exact ⟨fun n hn => by have := h1 n (by omega); omega, h2⟩
  · rintro ⟨h1, h2⟩
    exact ⟨fun n hn => by have := h1 n (by omega); omega, h2⟩

theorem nonNegFrom_level {l : Int} {s : Str} (h : NonNegFrom l s) : 0 ≤ l := by
  have := h 0 (Nat.zero_le _)
  simpa [braceNet_nil] using this

theorem nonNegFrom_end {l : Int} {s : Str} (h : NonNegFrom l s) : 0 ≤ l + braceNet s := by
  have := h s.length (le_refl _)
  simpa using this

theorem nonNegFrom_mono {l l2 : Int} {s : Str} (h : NonNegFrom l s) (hl : l ≤ l2) :
    NonNegFrom l2 s := by
  intro n hn
  have := h n hn
  omega

theorem nonNegFrom_append (l : Int) (a b : Str) :
    NonNegFrom l (a ++ b) ↔ NonNegFrom l a ∧ NonNegFrom (l + braceNet a) b := by
  constructor
  · intro h
    refine ⟨fun n hn => ?_, fun n hn => ?_⟩
    · have := h n (by simp; omega)
      rw [List.take_append_of_le_length hn] at this
      exact this
    · have := h (a.length + n) (by simp; omega)
      rw [List.take_append, braceNet_append] at this
      omega
  · rintro ⟨h1, h2⟩ n hn
    by_cases hle : n ≤ a.length
    · rw [List.take_append_of_le_length hle]
      exact h1 n hle
    · obtain ⟨m, rfl⟩ : ∃ m, n = a.length + m := ⟨n - a.length, by omega⟩
      rw [List.take_append, braceNet_append]
      have := h2 m (by simp at hn; omega)
      omega

theorem braceSim_refl (s : Str) : BraceSim s s := ⟨rfl, fun _ h => h⟩

theorem braceSim_trans {a b c : Str} (h1 : BraceSim a b) (h2 : BraceSim b c) : BraceSim a c :=
  ⟨by rw [h2.1, h1.1], fun l h => h2.2 l (h1.2 l h)⟩

theorem braceSim_append {a a2 b b2 : Str} (h1 : BraceSim a a2) (h2 : BraceSim b b2) :
    BraceSim (a ++ b) (a2 ++ b2) := by
  refine ⟨by rw [braceNet_append, braceNet_append, h1.1, h2.1], fun l h => ?_⟩
  rw [nonNegFrom_append] at h ⊢
  refine ⟨h1.2 l h.1, ?_⟩
  rw [h1.1]
  exact h2.2 _ h.2

theorem braceSim_balanced {x r : Str} (h : BraceSim x r) (hx : Balanced x) : Balanced r := by
  rw [balanced_iff] at hx ⊢
  exact ⟨h.2 0 hx.1, by rw [h.1]; exact hx.2⟩

theorem braceNet_of_braceless {s : Str} (h1 : '{' ∉ s) (h2 : '}' ∉ s) : braceNet s = 0 := by
  simp [braceNet, List.count_eq_zero_of_not_mem h1, List.count_eq_zero_of_not_mem h2]

theorem nonNegFrom_of_braceless {l : Int} {s : Str} (hl : 0 ≤ l) (h1 : '{' ∉ s) (h2 : '}' ∉ s) :
    NonNegFrom l s := by
  intro n _
  rw [braceNet_of_braceless (fun h => h1 (List.mem_of_mem_take h))
    (fun h => h2 (List.mem_of_mem_take h))]
  omega

theorem braceSim_braceless {a b : Str} (ha1 : '{' ∉ a) (ha2 : '}' ∉ a) (hb1 : '{' ∉ b)
    (hb2 : '}' ∉ b) : BraceSim a b :=
  ⟨by rw [braceNet_of_braceless ha1 ha2, braceNet_of_braceless hb1 hb2],
   fun _ h => nonNegFrom_of_braceless (nonNegFrom_level h) hb1 hb2⟩

theorem braceNet_wrap (s : Str) : braceNet ('{' :: s ++ ['}']) = braceNet s := by
  have e : '{' :: s ++ ['}'] = ['{'] ++ (s ++ ['}']) := by simp
  rw [e, braceNet_append, braceNet_append]
  simp [braceNet]

theorem braceSim_wrap (s : Str) : BraceSim s ('{' :: s ++ ['}']) := by
  refine ⟨braceNet_wrap s, fun l h => ?_⟩
  have e : '{' :: s ++ ['}'] = ['{'] ++ (s ++ ['}']) := by simp
  have hl := nonNegFrom_level h
  have he := nonNegFrom_end h
  have n1 : braceNet ['{'] = 1 := by simp [braceNet]
  have n2 : braceNet ['}'] = -1 := by simp [braceNet]
  rw [e, nonNegFrom_append, nonNegFrom_append, n1]
  refine ⟨fun n hn => ?_, nonNegFrom_mono h (by omega), fun n hn => ?_⟩
  · have hn1 : n = 0 ∨ n = 1 := by simp at hn; omega
    rcases hn1 with hn1 | hn1
    · subst hn1
      rw [List.take_zero, braceNet_nil]
      omega
    · subst hn1
      have e1 : List.take 1 ['{'] = ['{'] := rfl
      rw [e1, n1]
      omega
  · have hn1 : n = 0 ∨ n = 1 := by simp at hn; omega
    rcases hn1 with hn1 | hn1
    · subst hn1
      rw [List.take_zero, braceNet_nil]
      omega
    · subst hn1
      have e1 : List.take 1 ['}'] = ['}'] := rfl
      rw [e1, n2]
      omega

/-- A brace-balanced `body` can stand for the group `{body}`. -/
theorem braceSim_unwrap {body : Str} (hb : Balanced body) :
    BraceSim ('{' :: body ++ ['}']) body := by
  rw [balanced_iff] at hb
  refine ⟨(braceNet_wrap body).symm, fun l h => ?_⟩
  exact nonNegFrom_mono hb.1 (nonNegFrom_level h)

theorem braceSim_replaceEvery (x : Char) (repl : Str) (hx1 : x ≠ '{') (hx2 : x ≠ '}')
    (hr1 : '{' ∉ repl) (hr2 : '}' ∉ repl) :
    ∀ s : Str, BraceSim s (replaceEvery x repl s) := by
  intro s
  induction s with
  | nil => exact braceSim_refl _
  | cons c cs ih =>
    have e1 : c :: cs = [c] ++ cs := rfl
    have e2 : replaceEvery x repl (c :: cs)
        = (if c = x then repl else [c]) ++ replaceEvery x repl cs := by
      simp [replaceEvery]
    rw [e2, e1]
    refine braceSim_append ?_ ih
    by_cases h : c = x
    · rw [if_pos h]
      subst h
      exact braceSim_braceless (by simpa using hx1.symm) (by simpa using hx2.symm) hr1 hr2
    · rw [if_neg h]
      exact braceSim_refl _

theorem braceSim_blockInterior (body : Str) : BraceSim body (blockInterior body) :=
  braceSim_trans
    (braceSim_replaceEvery ',' [' ', '&', ' '] (by decide) (by decide) (by decide) (by decide)
      body)
    (braceSim_replaceEvery ';' ['\\', '\\', ' '] (by decide) (by decide) (by decide)
      (by decide) _)

/-! ## What one pass of the loop of `replaceFrac` does -/

/-- A pass of the loop that rewrites the buffer: the scan result, the root,
the operand bounds, the four parts of the buffer around the `/` at the root,
and the new buffer. -/
theorem replaceFrac_step_eq_ok {x s : Str} (h : replaceFrac.step x = Result.ok (some s)) :
    ∃ (p root : Int) (c : (Int × Int) × (Int × Int)) (pre left right post l2 r2 : Str),
      IsFraction x p ∧ hasFractions x = Result.ok (true, p) ∧
      getRoot p x = Result.ok root ∧ charAt x root = some '/' ∧
      getChildrenOf root x = Result.ok c ∧
      slice x 0 c.2.1 = Result.ok pre ∧ slice x c.2.1 root = Result.ok left ∧
      slice x (root + 1) (c.1.2 + 1) = Result.ok right ∧
      slice x (c.1.2 + 1) (x.length : Int) = Result.ok post ∧
      fixBracket left = Result.ok l2 ∧ fixBracket right = Result.ok r2 ∧
      x = pre ++ left ++ ['/'] ++ right ++ post ∧
      s = pre ++ fracLit ++ l2 ++ r2 ++ post := by
  unfold replaceFrac.step at h
  rcases hasFractions_total x with ⟨p, hp, _, hh⟩ | ⟨_, hh⟩
  · rw [hh] at h
    simp only [Result.ok_bind, if_true] at h
    obtain ⟨root, h1, h⟩ := (Result.bind_eq_ok _ _ _).mp h
    obtain ⟨c, h2, h⟩ := (Result.bind_eq_ok _ _ _).mp h
    obtain ⟨s2, h3, h⟩ := (Result.bind_eq_ok _ _ _).mp h
    simp only [Result.pure_eq, Result.ok.injEq, Option.some.injEq] at h
    subst h
    have hroot : charAt x root = some '/' := by
      rcases (getRoot_spec p x).2 root h1 with e | ⟨_, _, e, _⟩
      · rw [e]; exact hp.2.2.1
      · exact e
    obtain ⟨e1, e2⟩ := (getChildrenOf_spec root x).2 c h2
    obtain ⟨right, left, pre, l2, r2, post, s1, s2', s3, s4, s5, s6, hs⟩ :=
      replaceFracChildren_eq_ok h3
    rw [e1] at s1
    have e : c.2.2 + 1 = root := by omega
    rw [e] at s2'
    have hmid := slice_one hroot
    have hall := slice_append_slice (slice_append_slice (slice_append_slice
      (slice_append_slice s3 s2') hmid) s1) s6
    rw [slice_full] at hall
    simp only [Result.ok.injEq] at hall
    exact ⟨p, root, c, pre, left, right, post, l2, r2, hp, hh, h1, hroot, h2, s3, s2', s1, s6,
      s4, s5, hall, hs⟩
  · rw [hh] at h
    simp at h

theorem braceSim_fixBracket {s t : Str} (h : fixBracket s = Result.ok t) : BraceSim s t := by
  rcases fixBracket_cases h with e | e
  · rw [e]; exact braceSim_refl _
  · rw [e]; exact braceSim_wrap _

theorem replaceFrac_step_braceSim {x s : Str} (h : replaceFrac.step x = Result.ok (some s)) :
    BraceSim x s := by
  obtain ⟨p, root, c, pre, left, right, post, l2, r2, _, _, _, _, _, _, _, _, _, hl, hr, hx, hs⟩ :=
    replaceFrac_step_eq_ok h
  have e1 : x = pre ++ ([] ++ (left ++ (['/'] ++ (right ++ post)))) := by rw [hx]; simp
  have e2 : s = pre ++ (fracLit ++ (l2 ++ ([] ++ (r2 ++ post)))) := by rw [hs]; simp
  rw [e1, e2]
  refine braceSim_append (braceSim_refl _) (braceSim_append ?_ (braceSim_append
    (braceSim_fixBracket hl) (braceSim_append ?_ (braceSim_append (braceSim_fixBracket hr)
      (braceSim_refl _)))))
  · exact braceSim_braceless (by simp) (by simp) (by decide) (by decide)
  · exact braceSim_braceless (by decide) (by decide) (by simp) (by simp)

/-- The loop of `replaceFrac` keeps a brace-balanced buffer brace-balanced. -/
theorem replaceFrac_loop_balanced :
    ∀ (fuel : Nat) (x r : Str), Balanced x → replaceFrac.loop fuel x = Result.ok r →
      Balanced r := by
  intro fuel
  induction fuel with
  | zero => intro x r _ h; simp [replaceFrac.loop] at h
  | succ fuel ih =>
    intro x r hx h
    rw [replaceFrac.loop] at h
    cases hs : replaceFrac.step x with
    | ok o =>
      rw [hs] at h
      cases o with
      | none =>
        simp only [Result.ok.injEq] at h
        subst h
        exact hx
      | some s => exact ih s r (braceSim_balanced (replaceFrac_step_braceSim hs) hx) h
    | fail e => rw [hs] at h; cases h
    | diverge => rw [hs] at h; cases h

/-! ## Brace balance of the regions of `replaceBlock` -/

theorem braceDelta_right_eq_neg_one {o : Option Char}
    (h : braceDelta Direction.Right o = -1) : o = some '}' := by
  unfold braceDelta at h
  split at h <;> simp_all

/-- The text between an open brace and the index returned for it by the bracket
matcher is brace-balanced, and the byte at that index is a close brace. -/
theorem balanced_of_match {txt body : Str} {o c : Int} (ho : charAt txt o = some '{')
    (hm : getMatchingBracket txt o Direction.Right = Result.ok c)
    (hb : slice txt (o + 1) c = Result.ok body) :
    Balanced body ∧ charAt txt c = some '}' := by
  have hin := charAt_inBuffer ho
  obtain ⟨_, hb2, hb3, _⟩ := slice_eq_ok hb
  have hblen := slice_length hb
  have hX := slice_of_bounds txt 0 o (le_refl 0) hin.1 (by omega)
  have hT := slice_of_bounds txt c (txt.length : Int) (by omega) hb3 (le_refl _)
  have hXlen := slice_length hX
  generalize (txt.drop (0 : Int).toNat).take (o.toNat - (0 : Int).toNat) = X at hX hXlen
  generalize (txt.drop c.toNat).take (((txt.length : Nat) : Int).toNat - c.toNat) = T at hT
  have hall := slice_append_slice (slice_append_slice (slice_append_slice hX (slice_one ho)) hb) hT
  rw [slice_full] at hall
  simp only [Result.ok.injEq] at hall
  have hshape : txt = X ++ '{' :: (body ++ T) := by rw [hall]; simp
  have hXo : (X.length : Int) = o := by omega
  obtain ⟨_, k, hk, hpos, hz, hp⟩ := getMatchingBracket_ok_bounds hin hm
  simp only [Direction.pos] at hpos
  have hkb : k = body.length + 1 := by omega
  subst hkb
  rw [hshape, ← hXo] at hz hp
  have hnn : ∀ n, n ≤ body.length → 0 < 1 + braceNet (body.take n) := by
    intro n hn
    have := hp n (by omega)
    rw [runningDepth_right_body X body T n hn] at this
    exact this
  have hlast := hz
  rw [runningDepth, runningDepth_right_body X body T body.length (le_refl _), List.take_length]
    at hlast
  have h1 := hnn body.length (le_refl _)
  rw [List.take_length] at h1
  have hge := braceDelta_ge Direction.Right
    (charAt (X ++ '{' :: (body ++ T)) (Direction.Right.pos (X.length : Int) (body.length + 1)))
  have hdelta : braceDelta Direction.Right
      (charAt (X ++ '{' :: (body ++ T)) (Direction.Right.pos (X.length : Int) (body.length + 1)))
      = -1 := by omega
  have hc := braceDelta_right_eq_neg_one hdelta
  have hidx : Direction.Right.pos (X.length : Int) (body.length + 1) = c := by
    simp only [Direction.pos]
    omega
  rw [hidx, ← hshape] at hc
  refine ⟨(balanced_iff body).mpr ⟨fun n hn => ?_, by omega⟩, hc⟩
  have := hnn n hn
  omega

theorem occursAt_two {a b : Char} {math : Str} {i : Nat} (h : OccursAt [a, b] math i) :
    charAt math (i : Int) = some a ∧ charAt math ((i : Int) + 1) = some b := by
  unfold OccursAt at h
  have hl := congrArg List.length h
  simp only [List.length_take, List.length_drop, List.length_cons, List.length_nil] at hl
  have hs := slice_of_bounds math (i : Int) ((i : Int) + 2) (by omega) (by omega) (by omega)
  have e1 : ((i : Int)).toNat = i := by omega
  have e2 : ((i : Int) + 2).toNat - i = 2 := by omega
  rw [e1, e2] at hs
  simp only [List.length_cons, List.length_nil] at h
  rw [h] at hs
  exact slice_two_inv hs

theorem braceSim_nil_env (lit1 title lit2 : Str) (h1 : '{' ∉ lit1) (h2 : '}' ∉ lit1)
    (h3 : '{' ∉ title) (h4 : '}' ∉ title) (h5 : '{' ∉ lit2) (h6 : '}' ∉ lit2) :
    BraceSim [] (lit1 ++ (('{' :: title ++ ['}']) ++ lit2)) := by
  have e : ([] : Str) = [] ++ ([] ++ []) := rfl
  rw [e]
  refine braceSim_append (braceSim_braceless (by simp) (by simp) h1 h2)
    (braceSim_append ?_ (braceSim_braceless (by simp) (by simp) h5 h6))
  exact braceSim_trans (braceSim_braceless (by simp) (by simp) h3 h4) (braceSim_wrap title)

/-- One region `p{body}` and the environment that replaces it. -/
theorem replaceBlock_region_braceSim {title math body : Str} {p : Char} {s0 e0 : Int}
    (hp1 : p ≠ '{') (hp2 : p ≠ '}') (ht1 : '{' ∉ title) (ht2 : '}' ∉ title)
    (hs : charAt math s0 = some p) (ho : charAt math (s0 + 1) = some '{')
    (hm : getMatchingBracket math (s0 + 1) Direction.Right = Result.ok e0)
    (hb : slice math (s0 + 2) e0 = Result.ok body) :
    ∃ orig, slice math s0 (e0 + 1) = Result.ok orig ∧ BraceSim orig (blockEnv title body) := by
  have e : s0 + 2 = s0 + 1 + 1 := by omega
  rw [e] at hb
  obtain ⟨hbal, hclose⟩ := balanced_of_match ho hm hb
  have horig := slice_append_slice (slice_append_slice (slice_append_slice (slice_one hs)
    (slice_one ho)) hb) (slice_one hclose)
  refine ⟨_, horig, ?_⟩
  have e1 : [p] ++ ['{'] ++ body ++ ['}'] = [p] ++ (('{' :: body ++ ['}']) ++ []) := by simp
  have e2 : blockEnv title body
      = (['\\', 'b', 'e', 'g', 'i', 'n'] ++ (('{' :: title ++ ['}']) ++ [' ']))
        ++ (blockInterior body
          ++ ([' ', '\\', 'e', 'n', 'd'] ++ (('{' :: title ++ ['}']) ++ []))) := by
    simp [blockEnv]
  rw [e1, e2]
  refine braceSim_append ?_ (braceSim_append ?_ ?_)
  · exact braceSim_trans
      (braceSim_braceless (by simpa using hp1.symm) (by simpa using hp2.symm) (by simp) (by simp))
      (braceSim_nil_env _ title _ (by decide) (by decide) ht1 ht2 (by decide) (by decide))
  · exact braceSim_trans (braceSim_unwrap hbal) (braceSim_blockInterior body)
  · exact braceSim_nil_env _ title _ (by decide) (by decide) ht1 ht2 (by simp) (by simp)

/-- The reassembly loop: the text it appends stands for the stretch of `math`
from the first start to the last close brace. -/
theorem replaceBlock_assemble_braceSim (title math : Str) (p : Char)
    (hp1 : p ≠ '{') (hp2 : p ≠ '}') (ht1 : '{' ∉ title) (ht2 : '}' ∉ title) :
    ∀ (starts ends : List Int) (acc r : Str) (s0 : Int) (rest : List Int) (last : Int),
      starts = s0 :: rest → ends.length = starts.length → ends.getLast? = some last →
      (∀ x ∈ starts.zip ends, charAt math x.1 = some p ∧ charAt math (x.1 + 1) = some '{' ∧
        getMatchingBracket math (x.1 + 1) Direction.Right = Result.ok x.2) →
      replaceBlock.assemble title math starts ends acc = Result.ok r →
      ∃ orig new, slice math s0 (last + 1) = Result.ok orig ∧ r = acc ++ new ∧
        BraceSim orig new := by
  intro starts
  induction starts with
  | nil => intro ends acc r s0 rest last h; cases h
  | cons a ss ih =>
    intro ends acc r s0 rest last hst hlen hlast hreg h
    simp only [List.cons.injEq] at hst
    obtain ⟨rfl, rfl⟩ := hst
    cases ends with
    | nil => simp at hlen
    | cons e0 es =>
      obtain ⟨body, hb, hrest⟩ := replaceBlock_assemble_cons_eq_ok h
      have hreg0 := hreg (a, e0) (by simp)
      obtain ⟨orig0, horig0, hsim0⟩ := replaceBlock_region_braceSim hp1 hp2 ht1 ht2
        hreg0.1 hreg0.2.1 hreg0.2.2 hb
      rcases hrest with ⟨hnil, hr⟩ | ⟨s1, ss1, g, hss, hg, hr⟩
      · subst hnil
        have hes : es = [] := by
          simp only [List.length_cons, List.length_nil] at hlen
          exact List.eq_nil_of_length_eq_zero (by omega)
        subst hes
        simp only [List.getLast?_singleton, Option.some.injEq] at hlast
        subst hlast
        exact ⟨orig0, blockEnv title body, horig0, hr, hsim0⟩
      · subst hss
        have hlen2 : es.length = (s1 :: ss1).length := by
          simp only [List.length_cons] at hlen ⊢
          omega
        have hlast2 : es.getLast? = some last := by
          cases es with
          | nil => simp at hlen2
          | cons e1 es1 => simpa [List.getLast?_cons_cons] using hlast
        obtain ⟨orig1, new1, horig1, hr1, hsim1⟩ := ih es _ r s1 ss1 last rfl hlen2 hlast2
          (fun x hx => hreg x (by simp [hx])) hr
        refine ⟨orig0 ++ g ++ orig1, blockEnv title body ++ g ++ new1,
          slice_append_slice (slice_append_slice horig0 hg) horig1, ?_, ?_⟩
        · rw [hr1]; simp
        · exact braceSim_append (braceSim_append hsim0 (braceSim_refl g)) hsim1

/-- The method `replaceBlock`, with a one-byte prefix that is not a brace and a
title without braces, keeps a brace-balanced text brace-balanced. -/
theorem replaceBlock_balanced {title math r : Str} {p : Char}
    (hp1 : p ≠ '{') (hp2 : p ≠ '}') (ht1 : '{' ∉ title) (ht2 : '}' ∉ title)
    (hx : Balanced math) (h : replaceBlock title [p] math = Result.ok r) : Balanced r := by
  rcases replaceBlock_eq_ok h with ⟨_, hr⟩ |
    ⟨ends, first, rest, last, acc, r1, hs, he, hl, hacc, ha, hfin⟩
  · rw [hr]; exact hx
  · obtain ⟨hlen, hspec⟩ := replaceBlock_ends_spec math _ _ he
    have hreg : ∀ x ∈ (first :: rest).zip ends,
        charAt math x.1 = some p ∧ charAt math (x.1 + 1) = some '{' ∧
          getMatchingBracket math (x.1 + 1) Direction.Right = Result.ok x.2 := by
      intro x hx1
      have hmem : x.1 ∈ first :: rest := (List.of_mem_zip hx1).1
      rw [← hs] at hmem
      obtain ⟨h0, _, hocc⟩ := scanStarts_mem _ _ _ _ _ (le_refl 0) hmem
      obtain ⟨c1, c2⟩ := occursAt_two hocc
      have e : ((x.1.toNat : Nat) : Int) = x.1 := by omega
      rw [e] at c1 c2
      exact ⟨c1, c2, hspec x hx1⟩
    obtain ⟨orig, new, horig, hr1, hsim⟩ := replaceBlock_assemble_braceSim title math p
      hp1 hp2 ht1 ht2 _ _ _ _ first rest last rfl hlen hl hreg ha
    have hbound := (slice_eq_ok horig).2.2.1
    obtain ⟨t, ht, hrt⟩ : ∃ t, slice math (last + 1) (math.length : Int) = Result.ok t ∧
        r = r1 ++ t := by
      rcases hfin with ⟨_, t, ht, hr⟩ | ⟨hle, hr⟩
      · exact ⟨t, ht, hr⟩
      · have hs0 := slice_of_bounds math (last + 1) (math.length : Int) (by omega) (by omega)
          (le_refl _)
        have hl0 := slice_length hs0
        refine ⟨_, hs0, ?_⟩
        have hnil : List.take (((math.length : Nat) : Int).toNat - (last + 1).toNat)
            (List.drop (last + 1).toNat math) = [] :=
          List.eq_nil_of_length_eq_zero (by omega)
        rw [hnil, hr]
        simp
    have hall := slice_append_slice (slice_append_slice hacc horig) ht
    rw [slice_full] at hall
    simp only [Result.ok.injEq] at hall
    have hsimall : BraceSim math r := by
      rw [hrt, hr1, hall]
      exact braceSim_append (braceSim_append (braceSim_refl acc) hsim) (braceSim_refl t)
    exact braceSim_balanced hsimall hx

/-! ## Claim about brace balance -/

/-- C13: brace balance (no initial segment with more `}` than `{`, equal
totals) is kept by both passes: if `replaceFrac` returns `r` on a balanced
buffer then `r` is balanced, and if `replaceBlock(title, p)`, with a title
without braces and a one-byte prefix `p` other than `{` and `}`, returns `r`
on a balanced buffer then `r` is balanced. -/
theorem core_passes_keep_balance :
    (∀ x r : Str, Balanced x → replaceFrac x = Result.ok r → Balanced r) ∧
    (∀ (title x r : Str) (p : Char), Balanced x → '{' ∉ title → '}' ∉ title →
      p ≠ '{' → p ≠ '}' → replaceBlock title [p] x = Result.ok r → Balanced r) :=
  ⟨fun x r hx h => replaceFrac_loop_balanced _ x r hx h,
   fun _ _ _ _ hx ht1 ht2 hp1 hp2 h => replaceBlock_balanced hp1 hp2 ht1 ht2 hx h⟩

/-- Witness of C13: `{x}a/b` gives the balanced `{\frac{x}a}{b}`, and `&{1,{2}}`
gives a balanced matrix environment. -/
theorem core_passes_keep_balance_witness :
    Balanced ['{', '\\', 'f', 'r', 'a', 'c', '{', 'x', '}', 'a', '}', '{', 'b', '}'] ∧
    Balanced (['\\', 'b', 'e', 'g', 'i', 'n', '{', 'm', '}', ' ', '1', ' ', '&', ' ', '{', '2',
      '}', ' ', '\\', 'e', 'n', 'd', '{', 'm', '}'] : Str) :=
  ⟨core_passes_keep_balance.1 ['{', 'x', '}', 'a', '/', 'b'] _ (by decide) (by decide),
   core_passes_keep_balance.2 ['m'] ['&', '{', '1', ',', '{', '2', '}', '}'] _ '&' (by decide)
     (by decide) (by decide) (by decide) (by decide) (by decide)⟩

/-! ## Matching to the left, in terms of the brace surplus of initial segments -/

/-- The leftward running depth from `j` after `k ≤ j` steps, by the brace
surplus of the initial segments of the buffer. -/
theorem runningDepth_left_formula (txt : Str) (j : Nat) :
    ∀ k : Nat, k ≤ j →
      runningDepth txt Direction.Left (j : Int) k
        = 1 - braceNet (txt.take j) + braceNet (txt.take (j - k)) := by
  intro k
  induction k with
  | zero => intro _; simp [runningDepth]
  | succ k ih =>
    intro hk
    have hidx : Direction.Left.pos (j : Int) (k + 1) = ((j - k - 1 : Nat) : Int) := by
      simp only [Direction.pos]
      omega
    have e1 : j - k = (j - k - 1) + 1 := by omega
    have e2 : j - (k + 1) = j - k - 1 := by omega
    rw [runningDepth, ih (by omega), hidx, charAt_nat, braceDelta_left, e2]
    have h := braceNet_take_succ txt (j - k - 1)
    rw [← e1] at h
    omega

/-- What a successful leftward match says about the brace surplus of initial
segments: it is one lower before the matched index than before `j`, and not
lower than before `j` anywhere in between. -/
theorem match_left_facts {txt : Str} {j m : Int} (hin : InBuffer txt j)
    (h : getMatchingBracket txt j Direction.Left = Result.ok m) :
    0 ≤ m ∧ m < j ∧ braceNet (txt.take m.toNat) + 1 = braceNet (txt.take j.toNat) ∧
      ∀ i : Nat, m.toNat < i → i ≤ j.toNat →
        braceNet (txt.take j.toNat) ≤ braceNet (txt.take i) := by
  obtain ⟨hmin, k, hk, hpos, hz, hp⟩ := getMatchingBracket_ok_bounds hin h
  simp only [Direction.pos] at hpos
  have hj : ((j.toNat : Nat) : Int) = j := by have := hin.1; omega
  rw [← hj] at hz hp
  have hkj : k ≤ j.toNat := by have := hmin.1; omega
  have hmk : m.toNat = j.toNat - k := by omega
  refine ⟨hmin.1, by omega, ?_, fun i hi1 hi2 => ?_⟩
  · rw [runningDepth_left_formula txt j.toNat k hkj] at hz
    rw [hmk]
    omega
  · have := hp (j.toNat - i) (by omega)
    rw [runningDepth_left_formula txt j.toNat _ (by omega)] at this
    have e : j.toNat - (j.toNat - i) = i := by omega
    rw [e] at this
    omega

theorem braceNet_take_close {txt : Str} {j : Int} (h : charAt txt j = some '}') :
    braceNet (txt.take (j.toNat + 1)) = braceNet (txt.take j.toNat) - 1 := by
  have hin := charAt_inBuffer h
  have e : ((j.toNat : Nat) : Int) = j := by have := hin.1; omega
  rw [← e, charAt_nat] at h
  rw [braceNet_take_succ, h]
  simp [braceDelta]
  omega

/-- Two matched groups whose close braces are at `j2 < j`: if the open brace of
the later one is not after `j2`, it is before the open brace of the earlier
one (the later group contains the earlier one). -/
theorem match_left_laminar {txt : Str} {j2 m2 j m : Int}
    (hc2 : charAt txt j2 = some '}') (hin : InBuffer txt j)
    (h2 : getMatchingBracket txt j2 Direction.Left = Result.ok m2)
    (h : getMatchingBracket txt j Direction.Left = Result.ok m)
    (hjj : j2 < j) (hm : m ≤ j2) : m < m2 := by
  have hin2 := charAt_inBuffer hc2
  obtain ⟨a1, a2, a3, a4⟩ := match_left_facts hin2 h2
  obtain ⟨b1, b2, b3, b4⟩ := match_left_facts hin h
  have hclose := braceNet_take_close hc2
  have hi := b4 (j2.toNat + 1) (by omega) (by have := hin2.1; omega)
  by_contra hlt
  have hge : m2 ≤ m := by omega
  by_cases heq : m = m2
  · subst heq
    omega
  · have := a4 m.toNat (by omega) (by omega)
    omega

/-- In a brace-balanced buffer the leftward match of a close brace that is not
the last byte succeeds. -/
theorem getMatchingBracket_left_balanced {txt : Str} {j : Int} (hb : Balanced txt)
    (hc : charAt txt j = some '}') (hlast : j ≠ (txt.length : Int) - 1) :
    ∃ m, getMatchingBracket txt j Direction.Left = Result.ok m := by
  have hin := charAt_inBuffer hc
  rcases getMatchingBracket_total txt Direction.Left j hin hlast with
    ⟨k, _, _, _, _, h⟩ | ⟨hall, _⟩
  · exact ⟨_, h⟩
  · exfalso
    have hj : ((j.toNat : Nat) : Int) = j := by have := hin.1; omega
    have h0 : InBuffer txt (Direction.Left.pos j j.toNat) := by
      simp only [Direction.pos, InBuffer]
      have := hin.2
      omega
    have hpos := hall j.toNat h0
    have hf := runningDepth_left_formula txt j.toNat j.toNat (le_refl _)
    rw [hj] at hf
    rw [hf] at hpos
    have hclose := braceNet_take_close hc
    have hbal := hb.1 (j.toNat + 1) (by have := hin.2; omega)
    simp only [Nat.sub_self, List.take_zero, braceNet_nil] at hpos
    omega

/-! ## Root resolution to the right on balanced buffers -/

theorem getRoot_searchRight_inv (txt : Str) (hb : Balanced txt) (loc0 : Int) :
    ∀ (fuel : Nat) (j loc : Int) (found : Bool), 0 ≤ loc0 → loc0 ≤ loc → loc ≤ j →
      ((txt.length : Int) - 1 - j).toNat < fuel → charAt txt loc = some '/' →
      RootOrigin txt loc0 loc →
      ∃ r, getRoot.searchRight txt fuel j loc found = Result.ok r ∧ loc ≤ r.1 ∧
        charAt txt r.1 = some '/' ∧ RootOrigin txt loc0 r.1 ∧
        (r.2 = false → found = false ∧ r.1 = loc ∧
          ∀ j2 m, j ≤ j2 → CloseSlashGroup txt j2 m → ¬ (m < loc ∧ loc < j2)) ∧
        (∀ j2 m, j ≤ j2 → CloseSlashGroup txt j2 m → m < loc → loc < j2 → j2 < r.1) ∧
        (r.2 = true → found = true ∨ loc < r.1) := by
  intro fuel
  induction fuel with
  | zero => intro j loc found _ _ _ h; omega
  | succ fuel ih =>
    intro j loc found h0 hl0 hlj hfuel hloc horig
    by_cases hlt : j < (txt.length : Int) - 1
    · obtain ⟨a, ha⟩ := charAt_isSome (s := txt) (i := j) ⟨by omega, by omega⟩
      obtain ⟨b, hbc⟩ := charAt_isSome (s := txt) (i := j + 1) ⟨by omega, by omega⟩
      rw [getRoot.searchRight, if_pos hlt, slice_two ha hbc]
      simp only [Result.ok_bind]
      by_cases hw : [a, b] = ['}', '/']
      · simp only [List.cons.injEq, and_true] at hw
        obtain ⟨rfl, rfl⟩ := hw
        obtain ⟨m, hm⟩ := getMatchingBracket_left_balanced hb ha (by omega)
        have hG : CloseSlashGroup txt j m := ⟨ha, hbc, hm⟩
        rw [if_pos rfl, hm]
        simp only [Result.ok_bind]
        by_cases hcond : m < loc ∧ loc < j
        · rw [if_pos hcond]
          have hm0 : m < loc0 := by
            rcases horig with e | ⟨m2, ⟨c1, _, c3⟩, hm2⟩
            · omega
            · have := match_left_laminar c1 (charAt_inBuffer ha) c3 hm (by omega) (by omega)
              omega
          have horig2 : RootOrigin txt loc0 (j + 1) := by
            refine Or.inr ⟨m, ?_, hm0⟩
            have e : j + 1 - 1 = j := by omega
            rw [e]
            exact hG
          obtain ⟨r, hr, r1, r2, r3, r4, r5, r6⟩ :=
            ih (j + 1) (j + 1) true h0 (by omega) (le_refl _) (by omega) hbc horig2
          refine ⟨r, hr, by omega, r2, r3, fun hf => ?_, fun j2 m2 hj2 hg2 hm2 hlj2 => ?_,
            fun _ => Or.inr (by omega)⟩
          · have := (r4 hf).1
            cases this
          · by_cases hj : j2 = j
            · omega
            · have hne : j2 ≠ j + 1 := by
                intro e
                have g1 := hg2.1
                rw [e, hbc] at g1
                exact absurd g1 (by decide)
              exact r5 j2 m2 (by omega) hg2 (by omega) (by omega)
        · rw [if_neg hcond]
          obtain ⟨r, hr, r1, r2, r3, r4, r5, r6⟩ :=
            ih (j + 1) loc found h0 hl0 (by omega) (by omega) hloc horig
          refine ⟨r, hr, r1, r2, r3, fun hf => ?_, fun j2 m2 hj2 hg2 hm2 hlj2 => ?_, r6⟩
          · obtain ⟨f1, f2, f3⟩ := r4 hf
            refine ⟨f1, f2, fun j2 m2 hj2 hg2 => ?_⟩
            by_cases hj : j2 = j
            · subst hj
              have e := hg2.2.2
              rw [hm] at e
              simp only [Result.ok.injEq] at e
              subst e
              exact hcond
            · exact f3 j2 m2 (by omega) hg2
          · by_cases hj : j2 = j
            · subst hj
              have e := hg2.2.2
              rw [hm] at e
              simp only [Result.ok.injEq] at e
              subst e
              exact absurd ⟨hm2, hlj2⟩ hcond
            · exact r5 j2 m2 (by omega) hg2 hm2 hlj2
      · rw [if_neg hw]
        obtain ⟨r, hr, r1, r2, r3, r4, r5, r6⟩ :=
          ih (j + 1) loc found h0 hl0 (by omega) (by omega) hloc horig
        have hnot : ∀ m2, ¬ CloseSlashGroup txt j m2 := by
          intro m2 hg
          obtain ⟨g1, g2, _⟩ := hg
          rw [ha] at g1
          rw [hbc] at g2
          simp only [Option.some.injEq] at g1 g2
          exact hw (by rw [g1, g2])
        refine ⟨r, hr, r1, r2, r3, fun hf => ?_, fun j2 m2 hj2 hg2 hm2 hlj2 => ?_, r6⟩
        · obtain ⟨f1, f2, f3⟩ := r4 hf
          refine ⟨f1, f2, fun j2 m2 hj2 hg2 => ?_⟩
          by_cases hj : j2 = j
          · subst hj; exact absurd hg2 (hnot m2)
          · exact f3 j2 m2 (by omega) hg2
        · by_cases hj : j2 = j
          · subst hj; exact absurd hg2 (hnot m2)
          · exact r5 j2 m2 (by omega) hg2 hm2 hlj2
    · rw [getRoot.searchRight, if_neg hlt]
      have hout : ∀ j2 m, j ≤ j2 → ¬ CloseSlashGroup txt j2 m := by
        intro j2 m hj2 hg
        have := (charAt_inBuffer hg.2.1).2
        omega
      refine ⟨(loc, found), rfl, le_refl _, hloc, horig, fun hf => ⟨hf, rfl, ?_⟩, ?_, ?_⟩
      · intro j2 m hj2 hg
        exact absurd hg (hout j2 m hj2)
      · intro j2 m hj2 hg
        exact absurd hg (hout j2 m hj2)
      · intro hf
        exact Or.inl hf

theorem getRoot_loop_inv (txt : Str) (hb : Balanced txt) (loc0 : Int) (h0 : 0 ≤ loc0) :
    ∀ (fuel : Nat) (loc : Int) (found : Bool), loc0 ≤ loc → charAt txt loc = some '/' →
      RootOrigin txt loc0 loc →
      (if found then ((txt.length : Int) - loc).toNat + 2 else 1) ≤ fuel →
      (found = false → ∀ j m, loc < j → CloseSlashGroup txt j m → loc ≤ m) →
      ∃ r, getRoot.loop txt fuel loc found = Result.ok r ∧ loc ≤ r ∧
        charAt txt r = some '/' ∧ RootOrigin txt loc0 r ∧
        (∀ j m, r < j → CloseSlashGroup txt j m → r ≤ m) ∧
        (∀ j m, loc ≤ j → CloseSlashGroup txt j m → m < loc0 → loc0 < j → j < r) := by
  intro fuel
  induction fuel with
  | zero => intro loc found _ _ _ h; split at h <;> omega
  | succ fuel ih =>
    intro loc found hl0 hloc horig hfuel hq
    have hne : ∀ j m, CloseSlashGroup txt j m → j ≠ loc := by
      intro j m hg e
      have g1 := hg.1
      rw [e, hloc] at g1
      exact absurd g1 (by decide)
    cases found with
    | false =>
      refine ⟨loc, by simp [getRoot.loop], le_refl _, hloc, horig, hq rfl,
        fun j m hj hg hm hlj => ?_⟩
      have hj2 : loc < j := by
        have := hne j m hg
        omega
      have := hq rfl j m hj2 hg
      omega
    | true =>
      simp only [if_true] at hfuel
      rw [getRoot.loop, if_pos rfl]
      obtain ⟨r1, hr1, a1, a2, a3, a4, a5, a6⟩ := getRoot_searchRight_inv txt hb loc0
        (((txt.length : Int) - loc).toNat + 1) (loc + 1) loc false h0 hl0 (by omega) (by omega)
        hloc horig
      have hin1 := (charAt_inBuffer a2).2
      rw [hr1]
      simp only [Result.ok_bind]
      rw [getRoot_searchLeft_eq txt _ (r1.1 - 1) r1.1 r1.2 (by omega) (by omega)]
      simp only [Result.ok_bind]
      have hfuel2 : (if r1.2 then ((txt.length : Int) - r1.1).toNat + 2 else 1) ≤ fuel := by
        cases h2 : r1.2 with
        | false => simp; omega
        | true =>
          simp only [if_true]
          rcases a6 h2 with e | e
          · cases e
          · omega
      obtain ⟨r, hr, b1, b2, b3, b4, b5⟩ := ih r1.1 r1.2 (by omega) a2 a3 hfuel2
        (fun hf j m hj hg => by
          obtain ⟨_, e2, e3⟩ := a4 hf
          have := e3 j m (by omega) hg
          omega)
      refine ⟨r, hr, by omega, b2, b3, b4, fun j m hj hg hm hlj => ?_⟩
      have hj2 : loc < j := by
        have := hne j m hg
        omega
      have := a5 j m (by omega) hg (by omega) hj2
      omega

/-! ## Claim about the outermost operator -/

/-- C16: for a brace-balanced buffer and an index `loc` with `txt[loc] = '/'`,
`getRoot(loc, txt)` returns an index `r ≥ loc` with `txt[r] = '/'`; no `}` at an
index `j > r` that is immediately followed by `/` has its matching `{` before
`r`; every group around `loc` whose close brace is immediately followed by `/`
is closed before `r`; and `r` is `loc` itself or the `/` that follows such a
group around `loc`: the outermost one. -/
theorem getRoot_outermost (txt : Str) (loc : Int) (hb : Balanced txt)
    (hloc : charAt txt loc = some '/') :
    ∃ r, getRoot loc txt = Result.ok r ∧ loc ≤ r ∧ charAt txt r = some '/' ∧
      (∀ j m, r < j → CloseSlashGroup txt j m → ¬ m < r) ∧
      (∀ j m, CloseSlashGroup txt j m → m < loc → loc < j → j < r) ∧
      (r = loc ∨ ∃ m, CloseSlashGroup txt (r - 1) m ∧ m < loc) := by
  have h0 := (charAt_inBuffer hloc).1
  obtain ⟨r, hr, b1, b2, b3, b4, b5⟩ := getRoot_loop_inv txt hb loc h0
    (((txt.length : Int) - loc).toNat + 2) loc true (le_refl _) hloc (Or.inl rfl) (by simp)
    (fun hf => by cases hf)
  refine ⟨r, hr, b1, b2, fun j m hj hg hm => ?_, fun j m hg hm hlj => ?_, b3⟩
  · have := b4 j m hj hg
    omega
  · exact b5 j m (by omega) hg hm hlj

/-- Witness of C16: in `{{a/b}/c}/d` the `/` at index 3 resolves to the `/` at 9. -/
theorem getRoot_outermost_witness :
    getRoot 3 ['{', '{', 'a', '/', 'b', '}', '/', 'c', '}', '/', 'd'] = Result.ok 9 ∧
    ∃ r, getRoot 3 ['{', '{', 'a', '/', 'b', '}', '/', 'c', '}', '/', 'd'] = Result.ok r ∧
      (3 : Int) ≤ r ∧ charAt ['{', '{', 'a', '/', 'b', '}', '/', 'c', '}', '/', 'd'] r = some '/' ∧
      (∀ j m, r < j → CloseSlashGroup ['{', '{', 'a', '/', 'b', '}', '/', 'c', '}', '/', 'd'] j m →
        ¬ m < r) ∧
      (∀ j m, CloseSlashGroup ['{', '{', 'a', '/', 'b', '}', '/', 'c', '}', '/', 'd'] j m →
        m < 3 → 3 < j → j < r) ∧
      (r = 3 ∨ ∃ m, CloseSlashGroup ['{', '{', 'a', '/', 'b', '}', '/', 'c', '}', '/', 'd']
        (r - 1) m ∧ m < 3) :=
  ⟨by decide,
   getRoot_outermost ['{', '{', 'a', '/', 'b', '}', '/', 'c', '}', '/', 'd'] 3 (by decide)
     (by decide)⟩

/-! ## The wrapping rule -/

theorem fixBracket_eq_ok {s t : Str} (h : fixBracket s = Result.ok t) :
    s ≠ [] ∧ t = if charAt s 0 = some '{' ∧ charAt s ((s.length : Int) - 1) = some '}'
      then s else '{' :: s ++ ['}'] := by
  unfold fixBracket at h
  cases h0 : index s 0 with
  | ok c =>
    rw [h0] at h
    simp only [Result.ok_bind] at h
    have hc := index_eq_ok.mp h0
    have hne : s ≠ [] := by
      intro e
      rw [e] at hc
      simp [charAt] at hc
    refine ⟨hne, ?_⟩
    split at h
    · cases h1 : index s ((s.length : Int) - 1) with
      | ok d =>
        rw [h1] at h
        simp only [Result.ok_bind] at h
        have hd := index_eq_ok.mp h1
        split at h
        · simp only [Result.pure_eq, Result.ok.injEq] at h
          rename_i e1 e2
          rw [if_pos ⟨by rw [hc, e1], by rw [hd, e2]⟩]
          exact h.symm
        · simp only [Result.pure_eq, Result.ok.injEq] at h
          rename_i e1 e2
          rw [if_neg]
          · exact h.symm
          · intro hh
            rw [hd] at hh
            exact e2 (Option.some.inj hh.2)
      | fail e => rw [h1] at h; simp at h
      | diverge => rw [h1] at h; simp at h
    · simp only [Result.pure_eq, Result.ok.injEq] at h
      rename_i e1
      rw [if_neg]
      · exact h.symm
      · intro hh
        rw [hc] at hh
        exact e1 (Option.some.inj hh.1)
  | fail e => rw [h0] at h; simp at h
  | diverge => rw [h0] at h; simp at h

theorem braceDelta_right_pos {o : Option Char}
    (h : 0 < braceDelta Direction.Right o) : o = some '{' := by
  cases o with
  | none => simp [braceDelta] at h
  | some c =>
    by_cases h1 : c = '{'
    · rw [h1]
    · by_cases h2 : c = '}'
      · rw [h2] at h
        simp [braceDelta] at h
      · rw [braceDelta_of_not_brace _ c h1 h2] at h
        omega

theorem braceDelta_right_neg {o : Option Char}
    (h : braceDelta Direction.Right o < 0) : o = some '}' := by
  cases o with
  | none => simp [braceDelta] at h
  | some c =>
    by_cases h1 : c = '{'
    · rw [h1] at h
      simp [braceDelta] at h
    · by_cases h2 : c = '}'
      · rw [h2]
      · rw [braceDelta_of_not_brace _ c h1 h2] at h
        omega

theorem isBracePair_ends {s : Str} (h : IsBracePair s) :
    charAt s 0 = some '{' ∧ charAt s ((s.length : Int) - 1) = some '}' := by
  obtain ⟨h0, hn, hp⟩ := h
  refine ⟨h0, ?_⟩
  have hlen : 0 < s.length := by
    have := (charAt_inBuffer h0).2
    omega
  obtain ⟨n, hn1⟩ : ∃ n, s.length = n + 1 := ⟨s.length - 1, by omega⟩
  have hs : braceNet (s.take (n + 1)) = 0 := by
    rw [← hn1, List.take_length]
    exact hn
  rw [braceNet_take_succ] at hs
  have hcast : (s.length : Int) - 1 = (n : Int) := by omega
  rw [hcast, charAt_nat]
  apply braceDelta_right_neg
  by_cases hz : n = 0
  · subst hz
    have e : s[0]? = some '{' := by
      rw [← charAt_nat]
      exact h0
    rw [e, List.take_zero, braceNet_nil] at hs
    simp [braceDelta] at hs
  · have := hp n (by omega) (by omega)
    omega

theorem isBracePair_of_match_right {x X right post : Str} {m : Int}
    (hx : x = X ++ right ++ post) (h0 : charAt right 0 = some '{')
    (hm : getMatchingBracket x (X.length : Int) Direction.Right = Result.ok m)
    (hlen : m + 1 = (X.length : Int) + (right.length : Int)) : IsBracePair right := by
  cases right with
  | nil => simp [charAt] at h0
  | cons c body =>
    have hc : c = '{' := by
      simp [charAt] at h0
      exact h0
    subst hc
    have hx2 : x = X ++ '{' :: (body ++ post) := by
      rw [hx]
      simp
    have hin : InBuffer x (X.length : Int) := by
      refine ⟨by omega, ?_⟩
      rw [hx2]
      simp only [List.length_append, List.length_cons]
      push_cast
      omega
    obtain ⟨_, k, hk0, hk, hz, hpos⟩ := getMatchingBracket_ok_bounds hin hm
    simp only [Direction.pos] at hk
    simp only [List.length_cons] at hlen
    push_cast at hlen
    have hkb : k = body.length := by omega
    subst hkb
    rw [hx2] at hz hpos
    refine ⟨h0, ?_, ?_⟩
    · rw [runningDepth_right_body X body post body.length (le_refl _), List.take_length] at hz
      rw [braceNet_cons]
      simp only [braceDelta]
      omega
    · intro n hn hn0
      obtain ⟨n2, rfl⟩ : ∃ n2, n = n2 + 1 := ⟨n - 1, by omega⟩
      simp only [List.length_cons] at hn
      have := hpos n2 (by omega)
      rw [runningDepth_right_body X body post n2 (by omega)] at this
      rw [List.take_succ_cons, braceNet_cons]
      simp only [braceDelta]
      omega

theorem braceNet_take_mid (pre left rest : Str) (n : Nat) (hn : n ≤ left.length) :
    braceNet ((pre ++ left ++ rest).take (pre.length + n))
      = braceNet pre + braceNet (left.take n) := by
  rw [List.append_assoc, List.take_append, List.take_append_of_le_length hn, braceNet_append]

theorem isBracePair_of_match_left {x pre left rest : Str} {j : Int}
    (hx : x = pre ++ left ++ rest) (hj : j + 1 = (pre.length : Int) + (left.length : Int))
    (hc : charAt x j = some '}')
    (hm : getMatchingBracket x j Direction.Left = Result.ok (pre.length : Int)) :
    IsBracePair left := by
  have hin := charAt_inBuffer hc
  obtain ⟨_, hlt, hnet, hge⟩ := match_left_facts hin hm
  simp only [Int.toNat_ofNat] at hnet hge
  obtain ⟨L, hL⟩ : ∃ L, left.length = L + 2 := ⟨left.length - 2, by omega⟩
  have hjn : j.toNat = pre.length + (L + 1) := by omega
  rw [hjn] at hnet hge
  have hmid : ∀ n, n ≤ left.length →
      braceNet (x.take (pre.length + n)) = braceNet pre + braceNet (left.take n) := by
    intro n hn
    rw [hx]
    exact braceNet_take_mid pre left rest n hn
  have h0 := hmid 0 (by omega)
  simp only [Nat.add_zero, List.take_zero, braceNet_nil, add_zero] at h0
  rw [h0, hmid (L + 1) (by omega)] at hnet
  have hlast : braceNet (left.take (L + 2)) = braceNet (left.take (L + 1)) - 1 := by
    have e1 : braceNet (x.take (pre.length + (L + 1) + 1))
        = braceNet pre + braceNet (left.take (L + 2)) := hmid (L + 2) (by omega)
    have e2 := hmid (L + 1) (by omega)
    have hj0 : ((j.toNat : Nat) : Int) = j := Int.toNat_of_nonneg hin.1
    rw [braceNet_take_succ, ← hjn, ← charAt_nat, hj0, hc] at e1
    rw [← hjn] at e2
    simp only [braceDelta] at e1
    omega
  refine ⟨?_, ?_, ?_⟩
  · have e1 := hge (pre.length + 1) (by omega) (by omega)
    rw [hmid (L + 1) (by omega), hmid 1 (by omega)] at e1
    have e2 := braceNet_take_succ left 0
    rw [List.take_zero, braceNet_nil] at e2
    simp only [Nat.zero_add] at e2
    have e3 : (0 : Int) = ((0 : Nat) : Int) := rfl
    rw [e3, charAt_nat]
    apply braceDelta_right_pos
    omega
  · rw [← hL, List.take_length] at hlast
    omega
  · intro n hn hn0
    have e1 := hge (pre.length + n) (by omega) (by omega)
    rw [hmid (L + 1) (by omega), hmid n (by omega)] at e1
    omega

/-! ## Claim about the wrapping rule -/

/-- C18: in every iteration that `replaceFrac` completes, on any buffer `x`,
with `root` the resolved operator, `c` the operand bounds of `getChildrenOf`,
`pre = x[0 : c[1][0]]` the text before the left operand,
`left = x[c[1][0] : c[1][1]+1]` and `right = x[c[0][0] : c[0][1]+1]` the two
operands and `post = x[c[0][1]+1 :]` the text after the right operand, the
buffer is `pre + left + "/" + right + post` and the new buffer is `pre`, then
`\frac`, the left operand, the right operand, and `post`, both outer texts
unchanged, where each operand is emitted as it is exactly when it is one
matched brace pair over its full extent and inside one added pair of braces
otherwise. -/
theorem replaceFrac_wrapping_rule (x s : Str)
    (h : replaceFrac.step x = Result.ok (some s)) :
    ∃ (p root : Int) (c : (Int × Int) × (Int × Int)) (pre left right post : Str),
      hasFractions x = Result.ok (true, p) ∧ getRoot p x = Result.ok root ∧
      charAt x root = some '/' ∧
      getChildrenOf root x = Result.ok c ∧
      slice x 0 c.2.1 = Result.ok pre ∧
      slice x c.2.1 (c.2.2 + 1) = Result.ok left ∧
      slice x c.1.1 (c.1.2 + 1) = Result.ok right ∧
      sliceFrom x (c.1.2 + 1) = Result.ok post ∧
      c.2.2 + 1 = root ∧ c.1.1 = root + 1 ∧
      x = pre ++ left ++ ['/'] ++ right ++ post ∧
      s = pre ++ fracLit ++ emitOperand left ++ emitOperand right ++ post := by
  obtain ⟨p, root, c, pre, left, right, post, l2, r2, _, hhas, hroot, hslash, hch, hpre, hleft,
    hright, hpost, hl2, hr2, hx, hs⟩ := replaceFrac_step_eq_ok h
  obtain ⟨rc, lc, hrc, hlc, hc11, hc22, hR, hL⟩ := getChildrenOf_eq_ok hch
  have lpre := slice_length hpre
  have lleft := slice_length hleft
  have lright := slice_length hright
  obtain ⟨hlne, hl2e⟩ := fixBracket_eq_ok hl2
  obtain ⟨hrne, hr2e⟩ := fixBracket_eq_ok hr2
  have hLpos : 0 < left.length := List.length_pos.mpr hlne
  have hRpos : 0 < right.length := List.length_pos.mpr hrne
  have hleftEmit : l2 = emitOperand left := by
    rw [hl2e]
    unfold emitOperand
    by_cases hp : IsBracePair left
    · rw [if_pos (isBracePair_ends hp), if_pos hp]
    · rw [if_neg hp, if_neg]
      intro hh
      apply hp
      have e := slice_charAt hleft (left.length - 1) (by omega)
      have e2 : c.2.1 + ((left.length - 1 : Nat) : Int) = root - 1 := by omega
      have e3 : left[left.length - 1]? = charAt left ((left.length : Int) - 1) := by
        rw [← charAt_nat]
        congr 1
        omega
      rw [e2, e3, hh.2, hlc] at e
      have elc : lc = '}' := Option.some.inj e
      rcases hL with ⟨_, hm⟩ | ⟨hn, _⟩
      · refine @isBracePair_of_match_left x pre left (['/'] ++ right ++ post) (root - 1)
          ?_ ?_ ?_ ?_
        · rw [hx]
          simp
        · omega
        · rw [hlc, elc]
        · have e4 : (pre.length : Int) = c.2.1 := by omega
          rw [e4]
          exact hm
      · exact absurd (Or.inr elc) hn
  have hrightEmit : r2 = emitOperand right := by
    rw [hr2e]
    unfold emitOperand
    by_cases hp : IsBracePair right
    · rw [if_pos (isBracePair_ends hp), if_pos hp]
    · rw [if_neg hp, if_neg]
      intro hh
      apply hp
      have e := slice_charAt hright 0 hRpos
      have e3 : right[0]? = charAt right 0 := by
        have e5 : (0 : Int) = ((0 : Nat) : Int) := rfl
        rw [e5, charAt_nat]
      have e2 : root + 1 + ((0 : Nat) : Int) = root + 1 := by omega
      rw [e2, e3, hh.1, hrc] at e
      have erc : rc = '{' := Option.some.inj e
      rcases hR with ⟨_, hm⟩ | ⟨hn, _⟩
      · refine @isBracePair_of_match_right x (pre ++ left ++ ['/']) right post c.1.2
          ?_ hh.1 ?_ ?_
        · rw [hx]
        · have e4 : (((pre ++ left ++ ['/']).length : Nat) : Int) = root + 1 := by
            simp only [List.length_append, List.length_cons, List.length_nil]
            push_cast
            omega
          rw [e4]
          exact hm
        · simp only [List.length_append, List.length_cons, List.length_nil]
          push_cast
          omega
      · exact absurd (Or.inl erc) hn
  have e : c.2.2 + 1 = root := by omega
  refine ⟨p, root, c, pre, left, right, post, hhas, hroot, hslash, hch, hpre, ?_, ?_, hpost,
    e, hc11, hx, ?_⟩
  · rw [e]
    exact hleft
  · rw [hc11]
    exact hright
  · rw [hs, hleftEmit, hrightEmit]

/-- Witness of C18: on `x {a}/b y` the left operand `{a}` is kept and the right
operand `b` is wrapped. -/
theorem replaceFrac_wrapping_rule_witness :
    replaceFrac.step ['x', ' ', '{', 'a', '}', '/', 'b', ' ', 'y']
        = Result.ok (some (['x', ' '] ++ fracLit ++ ['{', 'a', '}'] ++ ['{', 'b', '}']
            ++ [' ', 'y'])) ∧
    ∃ (p root : Int) (c : (Int × Int) × (Int × Int)) (pre left right post : Str),
      hasFractions ['x', ' ', '{', 'a', '}', '/', 'b', ' ', 'y'] = Result.ok (true, p) ∧
      getRoot p ['x', ' ', '{', 'a', '}', '/', 'b', ' ', 'y'] = Result.ok root ∧
      charAt ['x', ' ', '{', 'a', '}', '/', 'b', ' ', 'y'] root = some '/' ∧
      getChildrenOf root ['x', ' ', '{', 'a', '}', '/', 'b', ' ', 'y'] = Result.ok c ∧
      slice ['x', ' ', '{', 'a', '}', '/', 'b', ' ', 'y'] 0 c.2.1 = Result.ok pre ∧
      slice ['x', ' ', '{', 'a', '}', '/', 'b', ' ', 'y'] c.2.1 (c.2.2 + 1) = Result.ok left ∧
      slice ['x', ' ', '{', 'a', '}', '/', 'b', ' ', 'y'] c.1.1 (c.1.2 + 1) = Result.ok right ∧
      sliceFrom ['x', ' ', '{', 'a', '}', '/', 'b', ' ', 'y'] (c.1.2 + 1) = Result.ok post ∧
      c.2.2 + 1 = root ∧ c.1.1 = root + 1 ∧
      ['x', ' ', '{', 'a', '}', '/', 'b', ' ', 'y'] = pre ++ left ++ ['/'] ++ right ++ post ∧
      (['x', ' '] ++ fracLit ++ ['{', 'a', '}'] ++ ['{', 'b', '}'] ++ [' ', 'y'])
        = pre ++ fracLit ++ emitOperand left ++ emitOperand right ++ post :=
  ⟨by decide,
   replaceFrac_wrapping_rule ['x', ' ', '{', 'a', '}', '/', 'b', ' ', 'y']
     (['x', ' '] ++ fracLit ++ ['{', 'a', '}'] ++ ['{', 'b', '}'] ++ [' ', 'y']) (by decide)⟩

end Mathlang
